import Mathlib

/-! # Position mapping core of the language-server proxy (`handler/sourcemap.go`)

A shallow embedding of the Go functions `getLineOffset`, `getOffset`, `applyTextChange`,
`createSourceMaps`, `copyMappings` and `updateSourceMaps`, followed by the properties
established about them.

Conventions of the embedding.

* A Go `string` is a sequence of bytes: `GoString := List Nat`, each element standing for one
  byte.  `len(s)` is `s.length`.
* A Go `int` has 64 bits and its arithmetic wraps around.  Values of type `int` are modelled by
  `Int`.  In `getLineOffset`, `getOffset` and `applyTextChange` every sum is bounded by the
  length of a string, so the exact sum is the Go result.  In `createSourceMaps` and
  `updateSourceMaps` line numbers come from the text of a directive or from the caller and are
  not bounded: there every sum and difference that can leave the range of `int` is written
  `wrapInt (...)`, the value reduced to the 64-bit range.
* A Go function returning `(v, err)` returns a pair `(v, err?)` with `err? : Option _`
  (`none` is `nil`).
* A run-time panic (slice bounds out of range) is the outer `none` of an `Option` result.
* `for offset, c := range s` iterates over the UTF-8 decoding of `s` as the Go language
  defines it: `rangeString s` is the sequence of `(offset, rune)` pairs the loop visits.
* A Go `map[int]int` is the list of its entries, without duplicate keys.  A function that
  mutates its map arguments returns the maps after the call.  The order in which `range`
  visits a map is a parameter of the functions that iterate over maps.
-/

namespace Sourcemap

/-! ## Go strings and the `range` iteration over them -/

/-- A Go string: its bytes, in order. -/
abbrev GoString := List Nat

/-- The bytes of a string literal all of whose characters are ASCII. -/
def ofAscii (s : String) : GoString := s.data.map Char.toNat

/-- The line break byte, Go `'\n'`. -/
abbrev NL : Nat := 10

/-- The replacement rune `U+FFFD` produced for every byte that does not start a well-formed
UTF-8 sequence. -/
def runeError : Nat := 0xFFFD

/-- A UTF-8 continuation byte, `locb <= b && b <= hicb`. -/
abbrev isCont (b : Nat) : Prop := 0x80 ≤ b ∧ b ≤ 0xBF

/-- The rune starting at the head of `s` and the number of bytes it occupies, as the Go
`range` loop decodes it (bytes below `0x80` stand for themselves; otherwise the run-time
`decoderune`): a two, three or four byte sequence is accepted when its continuation bytes are
in range and the value is not over-long, a surrogate, or above `U+10FFFF`; anything else
yields `runeError` and consumes one byte. -/
def decoderune : GoString → Nat × Nat
  | [] => (runeError, 1)
  | b0 :: rest =>
    if b0 < 0x80 then (b0, 1)
    else if 0xC0 ≤ b0 ∧ b0 < 0xE0 then
      match rest with
      | b1 :: _ =>
        if isCont b1 ∧ 0x7F < (b0 % 32) * 64 + b1 % 64 then
          ((b0 % 32) * 64 + b1 % 64, 2)
        else (runeError, 1)
      | _ => (runeError, 1)
    else if 0xE0 ≤ b0 ∧ b0 < 0xF0 then
      match rest with
      | b1 :: b2 :: _ =>
        if isCont b1 ∧ isCont b2 ∧ 0x7FF < (b0 % 16) * 4096 + (b1 % 64) * 64 + b2 % 64
            ∧ ¬ (0xD800 ≤ (b0 % 16) * 4096 + (b1 % 64) * 64 + b2 % 64
                  ∧ (b0 % 16) * 4096 + (b1 % 64) * 64 + b2 % 64 ≤ 0xDFFF) then
          ((b0 % 16) * 4096 + (b1 % 64) * 64 + b2 % 64, 3)
        else (runeError, 1)
      | _ => (runeError, 1)
    else if 0xF0 ≤ b0 ∧ b0 < 0xF8 then
      match rest with
      | b1 :: b2 :: b3 :: _ =>
        if isCont b1 ∧ isCont b2 ∧ isCont b3
            ∧ 0xFFFF < (b0 % 8) * 262144 + (b1 % 64) * 4096 + (b2 % 64) * 64 + b3 % 64
            ∧ (b0 % 8) * 262144 + (b1 % 64) * 4096 + (b2 % 64) * 64 + b3 % 64 ≤ 0x10FFFF then
          ((b0 % 8) * 262144 + (b1 % 64) * 4096 + (b2 % 64) * 64 + b3 % 64, 4)
        else (runeError, 1)
      | _ => (runeError, 1)
    else (runeError, 1)

/-- The iteration sequence of `range` over the bytes `s`, which start at byte index `off`;
`skip` is the number of leading bytes of `s` that belong to the rune decoded last and are
passed over. -/
def rangeFrom : Nat → Nat → GoString → List (Nat × Nat)
  | _, _, [] => []
  | off, 0, b :: rest =>
    (off, (decoderune (b :: rest)).1) :: rangeFrom (off + 1) ((decoderune (b :: rest)).2 - 1) rest
  | off, skip + 1, _ :: rest => rangeFrom (off + 1) skip rest

/-- The pairs `(offset, c)` visited by `for offset, c := range s`. -/
def rangeString (s : GoString) : List (Nat × Nat) := rangeFrom 0 0 s

/-- The slice `s[i:]`; `none` when `i` is out of bounds (Go panics). -/
def sliceFrom (s : GoString) (i : Int) : Option GoString :=
  if 0 ≤ i ∧ i ≤ s.length then some (s.drop i.toNat) else none

/-- The slice `s[:i]`; `none` when `i` is out of bounds (Go panics). -/
def sliceTo (s : GoString) (i : Int) : Option GoString :=
  if 0 ≤ i ∧ i ≤ s.length then some (s.take i.toNat) else none

/-! ## Protocol types -/

/-- The type `lsp.Position`. -/
structure Position where
  Line : Int
  Character : Int
  deriving DecidableEq, Repr

/-- The type `lsp.Range`. -/
structure Range where
  Start : Position
  End : Position
  deriving DecidableEq, Repr

/-- The error returned if one attempts to access text out of its range.  The field `Typ` is the
source's `Type`. -/
structure OutOfRangeError where
  Typ : String
  Max : Int
  Req : Int
  deriving DecidableEq, Repr

/-! ## `getLineOffset` -/

/-- The loop of `getLineOffset` over the remaining iteration sequence, with the running
`count`; falling off the end is the final `return -1, OutOfRangeError{"Line", count, line}`. -/
def lineLoop (line : Int) : List (Nat × Nat) → Int → Int × Option OutOfRangeError
  | [], count => (-1, some ⟨"Line", count, line⟩)
  | (offset, c) :: rest, count =>
    if c = NL then
      if count + 1 = line then ((offset : Int) + 1, none)
      else lineLoop line rest (count + 1)
    else lineLoop line rest count

/-- The function `getLineOffset`: the offset of the beginning of a line within the text. -/
def getLineOffset (text : GoString) (line : Int) : Int × Option OutOfRangeError :=
  if line = 0 then (0, none)
  else lineLoop line (rangeString text) 0

/-! ## `getOffset` -/

/-- How the `for` loop of `getOffset` is left: by one of its two `return`s (with the loop's
`offset`), by `break` after `count = offset`, or by exhausting the text. -/
inductive LoopExit where
  | ret (offset : Nat)
  | brk (count : Nat)
  | done
  deriving DecidableEq, Repr

/-- The loop of `getOffset` over the iteration sequence of `text[lineOffset:]`. -/
def offsetLoop (character : Int) : List (Nat × Nat) → LoopExit
  | [] => .done
  | (offset, c) :: rest =>
    if character = (offset : Int) then .ret offset
    else if c = NL then
      if character > (offset : Int) then .ret offset else .brk offset
    else offsetLoop character rest

/-- The function `getOffset`: the offset in the text expressed by the position. -/
def getOffset (text : GoString) (pos : Position) : Option (Int × Option OutOfRangeError) :=
  match getLineOffset text pos.Line with
  | (_, some err) => some (-1, some err)
  | (lineOffset, none) =>
    if pos.Character = 0 then some (lineOffset, none)
    else
      match sliceFrom text lineOffset with
      | none => none
      | some sub =>
        match offsetLoop pos.Character (rangeString sub) with
        | .ret offset => some (lineOffset + offset, none)
        | .brk count =>
          if pos.Character > 0 then some (text.length, none)
          else some (-1, some ⟨"Character", count, pos.Character⟩)
        | .done =>
          if pos.Character > 0 then some (text.length, none)
          else some (-1, some ⟨"Character", sub.length, pos.Character⟩)

/-! ## `applyTextChange` -/

/-- The function `applyTextChange`: replace the span between the two ends of `rang`. -/
def applyTextChange (text : GoString) (rang : Range) (insertText : GoString) :
    Option (GoString × Option OutOfRangeError) :=
  match getOffset text rang.Start with
  | none => none
  | some (_, some err) => some ([], some err)
  | some (start, none) =>
    match getOffset text rang.End with
    | none => none
    | some (_, some err) => some ([], some err)
    | some (stop, none) =>
      match sliceTo text start, sliceFrom text stop with
      | some before, some after => some (before ++ insertText ++ after, none)
      | _, _ => none


/-! ## Go integers and maps of type `map[int]int` -/

/-- The least value of a Go `int` on a 64-bit platform, `-2 ^ 63`. -/
def minInt : Int := -9223372036854775808

/-- The greatest value of a Go `int` on a 64-bit platform, `2 ^ 63 - 1`. -/
def maxInt : Int := 9223372036854775807

/-- The value of a Go `int` expression whose exact value is `x`: integer arithmetic wraps around
modulo `2 ^ 64` into the range `minInt .. maxInt`. -/
def wrapInt (x : Int) : Int :=
  (x + 9223372036854775808) % 18446744073709551616 - 9223372036854775808

/-- A Go `map[int]int`: its entries, each key occurring at most once. -/
abbrev IntMap := List (Int × Int)

/-- The comma-ok lookup `v, ok := m[k]`: `none` when the key is absent. -/
def mapFind (m : IntMap) (k : Int) : Option Int := m.lookup k

/-- The index expression `m[k]`, which is the zero value 0 for an absent key. -/
def mapGet (m : IntMap) (k : Int) : Int := (mapFind m k).getD 0

/-- The assignment `m[k] = v`. -/
def mapSet (m : IntMap) (k v : Int) : IntMap := (k, v) :: m.filter (fun p => p.1 ≠ k)

/-! ## Library functions used by `createSourceMaps` -/

/-- The function `strings.HasPrefix`. -/
def HasPrefix (s pre : GoString) : Bool := pre.isPrefixOf s

/-- The function `strings.Index` for a one-byte separator: the index of its first occurrence,
or `-1`. -/
def Index (s : GoString) (sep : Nat) : Int :=
  if sep ∈ s then (List.indexOf sep s : Nat) else -1

/-- The slice `s[lo:hi]`; `none` when the bounds are not `0 ≤ lo ≤ hi ≤ len(s)` (Go panics). -/
def slice (s : GoString) (lo hi : Int) : Option GoString :=
  if 0 ≤ lo ∧ lo ≤ hi ∧ hi ≤ s.length then some ((s.take hi.toNat).drop lo.toNat) else none

/-- The value of a run of decimal digits continuing the number `n`; `none` when a byte is not
a digit. -/
def parseDigits : GoString → Nat → Option Nat
  | [], n => some n
  | ch :: rest, n =>
    if 48 ≤ ch ∧ ch ≤ 57 then parseDigits rest (n * 10 + (ch - 48)) else none

/-- The function `strconv.Atoi` with a 64-bit `int`: an optional sign followed by at least one
decimal digit, whose value fits in 64 bits; `none` stands for a non-nil error. -/
def Atoi (s : GoString) : Option Int :=
  match s with
  | [] => none
  | c :: rest =>
    if c = 45 then
      if rest = [] then none
      else (parseDigits rest 0).bind fun n => if n ≤ 2 ^ 63 then some (-(n : Int)) else none
    else if c = 43 then
      if rest = [] then none
      else (parseDigits rest 0).bind fun n => if n < 2 ^ 63 then some (n : Int) else none
    else (parseDigits (c :: rest) 0).bind fun n => if n < 2 ^ 63 then some (n : Int) else none

/-- The function `dropCR` of `bufio`: drop one trailing carriage return. -/
def dropCR (data : GoString) : GoString :=
  if data.getLast? = some 13 then data.dropLast else data

/-- The constant `bufio.MaxScanTokenSize`, the size up to which the buffer of a scanner
grows. -/
def MaxScanTokenSize : Nat := 65536

/-- The tokens that `scanner.Scan()` yields with the split function `bufio.ScanLines` over the
remaining bytes, `cur` being the bytes of the line read so far.  A line is yielded when it
fits the buffer together with its line break, that is when it has fewer than
`MaxScanTokenSize` bytes; at a longer line `Scan` returns `false` (with the error
`bufio.ErrTooLong`) and no further line is read. -/
def scanLinesFrom : GoString → GoString → List GoString
  | [], cur =>
    if cur = [] then [] else if cur.length < MaxScanTokenSize then [dropCR cur] else []
  | b :: rest, cur =>
    if b = NL then
      if cur.length < MaxScanTokenSize then dropCR cur :: scanLinesFrom rest [] else []
    else scanLinesFrom rest (cur ++ [b])

/-- The lines that the loop `for scanner.Scan()` of `createSourceMaps` reads from a reader over
the bytes `text` (a reader that, like `bytes.Reader`, reports the end of the input after the
last byte): the lines of `text` up to the first line of `MaxScanTokenSize` bytes or more.
`createSourceMaps` does not look at `scanner.Err()`, so the lines from that one on are dropped
silently. -/
def scanLines (text : GoString) : List GoString := scanLinesFrom text []

/-- The decimal digits of `n`, most significant first, in front of `acc`. -/
def decimalAux : Nat → Nat → GoString → GoString
  | 0, _, acc => acc
  | fuel + 1, n, acc =>
    if n < 10 then (48 + n) :: acc else decimalAux fuel (n / 10) ((48 + n % 10) :: acc)

/-- The decimal numeral of `n`, as written in a directive `#line n`. -/
def decimal (n : Nat) : GoString := decimalAux (n + 1) n []

/-! ## `createSourceMaps` -/

/-- The variables of `createSourceMaps`. -/
structure ScanState where
  sourceLine : Int
  targetLine : Int
  sourceLineMap : IntMap
  targetLineMap : IntMap
  deriving DecidableEq, Repr

/-- One iteration of the scanning loop of `createSourceMaps` on the line `lineStr`; `none` when
the slice `lineStr[6:]` panics.  The increments `sourceLine++` and `targetLine++` wrap around;
`l - 1` is exact, `l` being positive. -/
def scanStep (st : ScanState) (lineStr : GoString) : Option ScanState :=
  if HasPrefix lineStr (ofAscii "#line") then
    match sliceFrom lineStr 6 with
    | none => none
    | some tail =>
      let nrEnd := Index tail 32
      let parsed : Option (Option Int) :=
        if nrEnd > 0 then (slice lineStr 6 (nrEnd + 6)).map Atoi else some (Atoi tail)
      match parsed with
      | none => none
      | some (some l) =>
        if l > 0 then
          some { st with sourceLine := l - 1, targetLine := wrapInt (st.targetLine + 1) }
        else some { st with targetLine := wrapInt (st.targetLine + 1) }
      | some none => some { st with targetLine := wrapInt (st.targetLine + 1) }
  else if st.sourceLine ≥ 0 then
    some { sourceLine := wrapInt (st.sourceLine + 1)
           targetLine := wrapInt (st.targetLine + 1)
           sourceLineMap := mapSet st.sourceLineMap st.targetLine st.sourceLine
           targetLineMap := mapSet st.targetLineMap st.sourceLine st.targetLine }
  else some { st with targetLine := wrapInt (st.targetLine + 1) }

/-- The loop `for scanner.Scan()` over the lines still to be read. -/
def scanLoop : List GoString → ScanState → Option ScanState
  | [], st => some st
  | lineStr :: rest, st =>
    match scanStep st lineStr with
    | none => none
    | some st1 => scanLoop rest st1

/-- The function `createSourceMaps`, applied to the lines that `scanner.Text()` yields for
`targetFile` in order; the result is the pair `(sourceLineMap, targetLineMap)`, and `none` is a
panic. -/
def createSourceMaps (lines : List GoString) : Option (IntMap × IntMap) :=
  match scanLoop lines ⟨-1, 0, [], []⟩ with
  | none => none
  | some st =>
    some (mapSet st.sourceLineMap st.targetLine st.sourceLine,
          mapSet st.targetLineMap st.sourceLine st.targetLine)

/-! ## `updateSourceMaps` and `copyMappings`

Go visits the entries of a map in an unspecified order, which may differ from one `range`
statement to the next.  The functions below take that order as a parameter: `ord n m` is the
sequence in which the `n`-th `range` statement executed by a call visits the entries of the map
`m`.  The properties are stated for every order that is a permutation of the entries. -/

/-- The statement `delete(m, k)`. -/
def mapDelete (m : IntMap) (k : Int) : IntMap := m.filter (fun p => p.1 ≠ k)

/-- The iteration orders of a call: `ord n m` lists the entries of `m` as the `n`-th `range`
statement visits them. -/
abbrev RangeOrder := Nat → IntMap → List (Int × Int)

/-- Every `range` statement visits each entry of its map exactly once. -/
def RangeOrder.Valid (ord : RangeOrder) : Prop := ∀ n m, (ord n m).Perm m

/-- The iteration order that follows the list of entries. -/
def listOrder : RangeOrder := fun _ m => m

/-- The iteration order that follows the list of entries backwards. -/
def reverseOrder : RangeOrder := fun _ m => m.reverse

/-- The first loop of `copyMappings` over the entries still to be visited. -/
def copyFirst : List (Int × Int) → IntMap → IntMap → IntMap × IntMap
  | [], sourceLineMap, targetLineMap => (sourceLineMap, targetLineMap)
  | (t, s) :: rest, sourceLineMap, targetLineMap =>
    copyFirst rest (mapSet sourceLineMap t s) (mapSet targetLineMap s t)

/-- The second loop of `copyMappings` over the entries still to be visited. -/
def copySecond : List (Int × Int) → IntMap → IntMap
  | [], targetLineMap => targetLineMap
  | (t, s) :: rest, targetLineMap =>
    copySecond rest (if t > mapGet targetLineMap s then mapSet targetLineMap s t
      else targetLineMap)

/-- The function `copyMappings`; its two loops are the `range` statements `n` and `n + 1`.  The
result is the pair of the updated `sourceLineMap` and `targetLineMap`. -/
def copyMappings (ord : RangeOrder) (n : Nat) (sourceLineMap targetLineMap newMappings : IntMap) :
    IntMap × IntMap :=
  ((copyFirst (ord n newMappings) sourceLineMap targetLineMap).1,
   copySecond (ord (n + 1) newMappings)
     (copyFirst (ord n newMappings) sourceLineMap targetLineMap).2)

/-- The variables written by the first loop of a deletion round. -/
structure ShiftUp where
  newMappings : IntMap
  maxSourceLine : Int
  maxTargetLine : Int
  deriving DecidableEq, Repr

/-- The loop `for t, s := range sourceLineMap` of a deletion round over the entries still to be
visited. -/
def shiftUpLoop (sourceLine targetLine : Int) : List (Int × Int) → ShiftUp → ShiftUp
  | [], acc => acc
  | (t, s) :: rest, acc =>
    shiftUpLoop sourceLine targetLine rest
      { newMappings :=
          if t > targetLine ∧ s > sourceLine then
            mapSet acc.newMappings (wrapInt (t - 1)) (wrapInt (s - 1))
          else if s > sourceLine then mapSet acc.newMappings t (wrapInt (s - 1))
          else if t > targetLine then mapSet acc.newMappings (wrapInt (t - 1)) s
          else acc.newMappings
        maxSourceLine := if s > acc.maxSourceLine then s else acc.maxSourceLine
        maxTargetLine := if t > acc.maxTargetLine then t else acc.maxTargetLine }

/-- One round of the deletion loop of `updateSourceMaps`; its `range` statements are `n`,
`n + 1` and `n + 2`. -/
def deleteLine (ord : RangeOrder) (n : Nat) (sourceLineMap targetLineMap : IntMap)
    (insertLine : Int) : IntMap × IntMap :=
  copyMappings ord (n + 1)
    (mapDelete sourceLineMap
      (shiftUpLoop (wrapInt (insertLine + 1)) (mapGet targetLineMap (wrapInt (insertLine + 1)))
        (ord n sourceLineMap) ⟨[], 0, 0⟩).maxTargetLine)
    (mapDelete targetLineMap
      (shiftUpLoop (wrapInt (insertLine + 1)) (mapGet targetLineMap (wrapInt (insertLine + 1)))
        (ord n sourceLineMap) ⟨[], 0, 0⟩).maxSourceLine)
    (shiftUpLoop (wrapInt (insertLine + 1)) (mapGet targetLineMap (wrapInt (insertLine + 1)))
      (ord n sourceLineMap) ⟨[], 0, 0⟩).newMappings

/-- The loop `for i := 1; i <= deletedLines; i++` with `rounds` rounds still to run, the next
`range` statement being the `n`-th. -/
def deleteLines (ord : RangeOrder) : Nat → Nat → IntMap → IntMap → Int → IntMap × IntMap
  | 0, _, sourceLineMap, targetLineMap, _ => (sourceLineMap, targetLineMap)
  | rounds + 1, n, sourceLineMap, targetLineMap, insertLine =>
    deleteLines ord rounds (n + 3)
      (deleteLine ord n sourceLineMap targetLineMap insertLine).1
      (deleteLine ord n sourceLineMap targetLineMap insertLine).2 insertLine

/-- The loop `for t, s := range sourceLineMap` of the insertion over the entries still to be
visited, building `newMappings`. -/
def shiftDownLoop (addedLines insertLine targetLine : Int) :
    List (Int × Int) → IntMap → IntMap
  | [], newMappings => newMappings
  | (t, s) :: rest, newMappings =>
    shiftDownLoop addedLines insertLine targetLine rest
      (if t > targetLine ∧ s > insertLine then
        mapSet newMappings (wrapInt (t + addedLines)) (wrapInt (s + addedLines))
      else if s > insertLine then mapSet newMappings t (wrapInt (s + addedLines))
      else if t > targetLine then mapSet newMappings (wrapInt (t + addedLines)) s
      else newMappings)

/-- The loop `for i := 1; i <= addedLines; i++` from the current `i`, with `rounds` rounds still
to run. -/
def addLines (targetLine insertLine : Int) : Nat → Int → IntMap → IntMap → IntMap × IntMap
  | 0, _, sourceLineMap, targetLineMap => (sourceLineMap, targetLineMap)
  | rounds + 1, i, sourceLineMap, targetLineMap =>
    addLines targetLine insertLine rounds (i + 1)
      (mapSet sourceLineMap (wrapInt (targetLine + i)) (wrapInt (insertLine + i)))
      (mapSet targetLineMap (wrapInt (insertLine + i)) (wrapInt (targetLine + i)))

/-- The insertion part of `updateSourceMaps` for `addedLines > 0`; its `range` statements are
`n`, `n + 1` and `n + 2`. -/
def insertLines (ord : RangeOrder) (n : Nat) (sourceLineMap targetLineMap : IntMap)
    (insertLine : Int) (addedLines : Nat) : IntMap × IntMap :=
  copyMappings ord (n + 1)
    (addLines (mapGet targetLineMap insertLine) insertLine addedLines 1
      sourceLineMap targetLineMap).1
    (addLines (mapGet targetLineMap insertLine) insertLine addedLines 1
      sourceLineMap targetLineMap).2
    (shiftDownLoop addedLines insertLine (mapGet targetLineMap insertLine)
      (ord n sourceLineMap) [])

/-- The function `updateSourceMaps`; the result is the pair of the two maps after the call.  A
loop `for i := 1; i <= bound; i++` whose bound is `maxInt` never ends, because `i++` wraps
around from `maxInt` to `minInt`: for such a `deletedLines` or such a number of line breaks the
call does not return, which is the result `none`.  Below that bound the counter `i` does not
wrap and the loop runs `bound` rounds (none for a negative bound). -/
def updateSourceMaps (ord : RangeOrder) (sourceLineMap targetLineMap : IntMap)
    (deletedLines insertLine : Int) (insertText : GoString) : Option (IntMap × IntMap) :=
  if maxInt ≤ deletedLines ∨ maxInt ≤ ((insertText.count NL : Nat) : Int) then none
  else if insertText.count NL > 0 then
    some (insertLines ord (3 * deletedLines.toNat)
      (deleteLines ord deletedLines.toNat 0 sourceLineMap targetLineMap insertLine).1
      (deleteLines ord deletedLines.toNat 0 sourceLineMap targetLineMap insertLine).2
      insertLine (insertText.count NL))
  else some (deleteLines ord deletedLines.toNat 0 sourceLineMap targetLineMap insertLine)

/-! ## Vocabulary for the properties of `createSourceMaps` -/

/-- The text whose lines are `lines`, each followed by a line break. -/
def joinLines : List GoString → GoString
  | [] => []
  | l :: rest => l ++ NL :: joinLines rest

/-- The number a valid directive declares: for a line starting with `#line`, the value `l` that
`createSourceMaps` parses from it when `err == nil && l > 0`; `none` for a line that is not a
directive, whose number does not parse or is not positive, or that is too short to be
sliced. -/
def directiveNumber (lineStr : GoString) : Option Int :=
  if HasPrefix lineStr (ofAscii "#line") then
    match sliceFrom lineStr 6 with
    | none => none
    | some tail =>
      match (if Index tail 32 > 0 then (slice lineStr 6 (Index tail 32 + 6)).bind Atoi
             else Atoi tail) with
      | some l => if l > 0 then some l else none
      | none => none
  else none

/-- The variable `sourceLine` after one more line, as the loop body of `createSourceMaps`
updates it. -/
def stepSource (sourceLine : Int) (lineStr : GoString) : Int :=
  if HasPrefix lineStr (ofAscii "#line") then
    match directiveNumber lineStr with
    | some l => l - 1
    | none => sourceLine
  else if sourceLine ≥ 0 then wrapInt (sourceLine + 1)
  else sourceLine

/-- The variable `sourceLine` after the lines `lines`, starting from the value `sourceLine`. -/
def runSource : Int → List GoString → Int
  | sourceLine, [] => sourceLine
  | sourceLine, lineStr :: rest => runSource (stepSource sourceLine lineStr) rest

/-- The number of lines that do not start with `#line`. -/
def countPlain (lines : List GoString) : Nat :=
  lines.countP (fun l => !HasPrefix l (ofAscii "#line"))

/-- The relation between the two maps that the scanning loop maintains, `bound` being the number
of target lines read: no key of `sm` reaches `bound`, every entry of `tm` is the greatest target
line of its source line, and every value of `sm` is a key of `tm`. -/
def Inverse (sm tm : IntMap) (bound : Int) : Prop :=
  (∀ x, bound ≤ x → mapFind sm x = none) ∧
  (∀ s t, mapFind tm s = some t →
    mapFind sm t = some s ∧ ∀ t1, mapFind sm t1 = some s → t1 ≤ t) ∧
  (∀ t s, mapFind sm t = some s → mapFind tm s ≠ none)

/-- The representation invariant of a map: no key occurs twice among the entries. -/
def KeysNodup (m : IntMap) : Prop := (m.map Prod.fst).Nodup

/-- The maps of a single run of lines: the keys of `sm` are the target lines `lo .. hi`, each
mapped to the source line `c` further, and `tm` is the inverse map. -/
def IsRun (c lo hi : Int) (sm tm : IntMap) : Prop :=
  KeysNodup sm ∧ KeysNodup tm ∧
  (∀ x, mapFind sm x = if lo ≤ x ∧ x ≤ hi then some (x + c) else none) ∧
  (∀ y, mapFind tm y = if lo + c ≤ y ∧ y ≤ hi + c then some (y - c) else none)

/-! ## Sequences of updates -/

/-- The arguments of one call of `updateSourceMaps`. -/
structure Edit where
  deletedLines : Int
  insertLine : Int
  insertText : GoString
  deriving DecidableEq, Repr

/-- The maps after the calls `edits` of `updateSourceMaps`, the first of which is call number
`i`; `ords i` gives the iteration orders of call number `i`. -/
def applyEdits (ords : Nat → RangeOrder) :
    Nat → List Edit → IntMap × IntMap → Option (IntMap × IntMap)
  | _, [], maps => some maps
  | i, e :: rest, maps =>
    match updateSourceMaps (ords i) maps.1 maps.2 e.deletedLines e.insertLine e.insertText with
    | none => none
    | some maps1 => applyEdits ords (i + 1) rest maps1

/-- A line count after the edits `edits`: each edit removes `deletedLines` lines and adds one
line per line break of its text. -/
def linesAfter : Int → List Edit → Int
  | n, [] => n
  | n, e :: rest => linesAfter (n - e.deletedLines + (e.insertText.count NL : Nat)) rest

/-- Every edit lies inside the document: `first` is the first source line of the document and
`last` the source line of the sentinel (one past the last line) before the edits; each edit
deletes the `deletedLines ≥ 0` lines that follow `insertLine`, all of which exist. -/
def EditsInside (first : Int) : Int → List Edit → Prop
  | _, [] => True
  | last, e :: rest =>
    0 ≤ e.deletedLines ∧ first ≤ e.insertLine ∧ e.insertLine + e.deletedLines ≤ last ∧
    EditsInside first (last - e.deletedLines + (e.insertText.count NL : Nat)) rest

/-- The line counts of both buffers stay in the range of `int`: `n` and `S` are the target line
and the source line of the sentinel before the edits, and after each edit neither exceeds
`maxInt`. -/
def EditsFit : Int → Int → List Edit → Prop
  | _, _, [] => True
  | n, S, e :: rest =>
    n - e.deletedLines + (e.insertText.count NL : Nat) ≤ maxInt ∧
    S - e.deletedLines + (e.insertText.count NL : Nat) ≤ maxInt ∧
    EditsFit (n - e.deletedLines + (e.insertText.count NL : Nat))
      (S - e.deletedLines + (e.insertText.count NL : Nat)) rest

/-- The value `x` is in the range of a Go `int`. -/
def IsInt (x : Int) : Prop := minInt ≤ x ∧ x ≤ maxInt

/-- The keys and values of the map are in the range of a Go `int`, as they are for every
`map[int]int`. -/
def IntEntries (m : IntMap) : Prop := ∀ p ∈ m, IsInt p.1 ∧ IsInt p.2

/-- The key `k` is the greatest key of the map `m`. -/
def IsMaxKey (m : IntMap) (k : Int) : Prop :=
  mapFind m k ≠ none ∧ ∀ x, mapFind m x ≠ none → x ≤ k

/-! ## Facts about the `range` iteration -/

/-- The first `n` bytes of `s` exist and are continuation bytes. -/
def contRun : Nat → GoString → Prop
  | 0, _ => True
  | _ + 1, [] => False
  | n + 1, b :: rest => isCont b ∧ contRun n rest

theorem decoderune_cont (b : Nat) (rest : GoString) :
    contRun ((decoderune (b :: rest)).2 - 1) rest := by
  rcases rest with _ | ⟨b1, _ | ⟨b2, _ | ⟨b3, rest⟩⟩⟩ <;> simp only [decoderune] <;>
    split_ifs <;> simp only [contRun, Nat.sub_self, Nat.add_one_sub_one, Nat.reduceSub] <;> tauto

theorem decoderune_nl (b : Nat) (rest : GoString) :
    (decoderune (b :: rest)).1 = NL ↔ b = NL := by
  rcases rest with _ | ⟨b1, _ | ⟨b2, _ | ⟨b3, rest⟩⟩⟩ <;> simp only [decoderune] <;>
    split_ifs <;> simp only [NL, runeError] <;> omega

theorem contRun_head_ne_nl {n : Nat} {b : Nat} {rest : GoString}
    (h : contRun (n + 1) (b :: rest)) : b ≠ NL := by
  have := h.1
  simp only [NL]; omega

/-! ## The loop of `getLineOffset` -/

theorem lineLoop_missing (line : Int) (bytes : GoString) :
    ∀ (off skip : Nat) (count : Int), contRun skip bytes →
      (line ≤ count ∨ count + (bytes.count NL : Nat) < line) →
      lineLoop line (rangeFrom off skip bytes) count
        = (-1, some ⟨"Line", count + (bytes.count NL : Nat), line⟩) := by
  induction bytes with
  | nil => intro off skip count _ _; simp [rangeFrom, lineLoop]
  | cons b rest ih =>
    intro off skip count hc h
    cases skip with
    | zero =>
      simp only [rangeFrom, lineLoop]
      by_cases hb : b = NL
      · rw [if_pos ((decoderune_nl b rest).2 hb)]
        have hcnt : (b :: rest).count NL = rest.count NL + 1 := by simp [hb]
        rw [hcnt] at h ⊢
        have hne : ¬ (count + 1 = line) := by omega
        have h2 : line ≤ count + 1 ∨ count + 1 + (rest.count NL : Nat) < line := by
          push_cast at h; omega
        rw [if_neg hne, ih (off + 1) _ (count + 1) (decoderune_cont b rest) h2]
        simp only [Prod.mk.injEq, Option.some.injEq, OutOfRangeError.mk.injEq, true_and, and_true]
        push_cast; omega
      · rw [if_neg (fun hr => hb ((decoderune_nl b rest).1 hr))]
        have hcnt : (b :: rest).count NL = rest.count NL := by
          simp [List.count_cons, hb]
        rw [hcnt] at h ⊢
        exact ih _ _ _ (decoderune_cont b rest) h
    | succ skip =>
      have hb := contRun_head_ne_nl hc
      have hcnt : (b :: rest).count NL = rest.count NL := by
        simp [List.count_cons, hb]
      simp only [rangeFrom]
      rw [hcnt] at h ⊢
      exact ih _ _ _ hc.2 h

theorem lineLoop_found (line : Int) (bytes : GoString) :
    ∀ (off skip : Nat) (count : Int), contRun skip bytes →
      count < line → line ≤ count + (bytes.count NL : Nat) →
      ∃ j : Nat, j < bytes.length ∧ bytes[j]? = some NL ∧
        count + ((bytes.take j).count NL : Nat) + 1 = line ∧
        lineLoop line (rangeFrom off skip bytes) count = (((off + j + 1 : Nat) : Int), none) := by
  induction bytes with
  | nil => intro off skip count _ h1 h2; simp at h2; omega
  | cons b rest ih =>
    intro off skip count hc h1 h2
    cases skip with
    | zero =>
      simp only [rangeFrom, lineLoop]
      by_cases hb : b = NL
      · rw [if_pos ((decoderune_nl b rest).2 hb)]
        have hcnt : (b :: rest).count NL = rest.count NL + 1 := by simp [hb]
        rw [hcnt] at h2
        by_cases hl : count + 1 = line
        · refine ⟨0, by simp, by simp [hb], by simpa using hl, ?_⟩
          rw [if_pos hl]; simp
        · rw [if_neg hl]
          obtain ⟨j, hj, hget, hcj, hres⟩ :=
            ih (off + 1) _ (count + 1) (decoderune_cont b rest) (by omega) (by push_cast at h2; omega)
          refine ⟨j + 1, by simpa using hj, by simpa using hget, ?_, ?_⟩
          · simp only [List.take_succ_cons, List.count_cons, hb, beq_self_eq_true, if_true]
            push_cast; omega
          · rw [hres]; simp only [Prod.mk.injEq, and_true]; push_cast; omega
      · rw [if_neg (fun hr => hb ((decoderune_nl b rest).1 hr))]
        have hcnt : (b :: rest).count NL = rest.count NL := by
          simp [List.count_cons, hb]
        rw [hcnt] at h2
        obtain ⟨j, hj, hget, hcj, hres⟩ := ih (off + 1) _ count (decoderune_cont b rest) h1 h2
        refine ⟨j + 1, by simpa using hj, by simpa using hget, ?_, ?_⟩
        · have : (List.take (j + 1) (b :: rest)).count NL = (rest.take j).count NL := by
            simp [List.count_cons, hb]
          rw [this]; exact hcj
        · rw [hres]; simp only [Prod.mk.injEq, and_true]; push_cast; omega
    | succ skip =>
      have hb := contRun_head_ne_nl hc
      have hcnt : (b :: rest).count NL = rest.count NL := by
        simp [List.count_cons, hb]
      simp only [rangeFrom]
      rw [hcnt] at h2
      obtain ⟨j, hj, hget, hcj, hres⟩ := ih (off + 1) skip count hc.2 h1 h2
      refine ⟨j + 1, by simpa using hj, by simpa using hget, ?_, ?_⟩
      · have : (List.take (j + 1) (b :: rest)).count NL = (rest.take j).count NL := by
          simp [List.count_cons, hb]
        rw [this]; exact hcj
      · rw [hres]; simp only [Prod.mk.injEq, and_true]; push_cast; omega

theorem getLineOffset_valid (text : GoString) (line : Int)
    (h0 : 0 ≤ line) (h1 : line ≤ (text.count NL : Nat)) :
    ∃ r : Nat, getLineOffset text line = ((r : Int), none) ∧ r ≤ text.length ∧
      (((text.take r).count NL : Nat) : Int) = line ∧
      (line = 0 → r = 0) ∧
      (line ≠ 0 → ∃ j : Nat, r = j + 1 ∧ text[j]? = some NL ∧
        (((text.take j).count NL : Nat) : Int) + 1 = line) := by
  by_cases hl : line = 0
  · refine ⟨0, by simp [getLineOffset, hl], by simp, by simp [hl], fun _ => rfl,
      fun h => absurd hl h⟩
  · obtain ⟨j, hj, hget, hcj, hres⟩ :=
      lineLoop_found line text 0 0 0 trivial (by omega) (by omega)
    have htake : (text.take (j + 1)).count NL = (text.take j).count NL + 1 := by
      rw [List.take_succ, hget]; simp
    refine ⟨j + 1, ?_, by omega, ?_, fun h => absurd h hl, fun _ => ⟨j, rfl, hget, by omega⟩⟩
    · simp only [getLineOffset, if_neg hl, rangeString, hres]
      simp
    · rw [htake]; push_cast; omega

theorem getLineOffset_invalid (text : GoString) (line : Int)
    (h : line < 0 ∨ ((text.count NL : Nat) : Int) < line) :
    getLineOffset text line = (-1, some ⟨"Line", (text.count NL : Nat), line⟩) := by
  have hl : line ≠ 0 := by omega
  simp only [getLineOffset, if_neg hl, rangeString]
  rw [lineLoop_missing line text 0 0 0 trivial (by omega)]
  simp

theorem getLineOffset_ok_bounds (text : GoString) (line v : Int)
    (h : getLineOffset text line = (v, none)) :
    ∃ r : Nat, v = (r : Int) ∧ r ≤ text.length := by
  by_cases hv : line < 0 ∨ ((text.count NL : Nat) : Int) < line
  · rw [getLineOffset_invalid text line hv] at h
    simp at h
  · obtain ⟨r, hr, hlen, _⟩ := getLineOffset_valid text line (by omega) (by omega)
    rw [hr] at h
    exact ⟨r, by simpa using h.symm, hlen⟩

/-! ## The loop of `getOffset` -/

theorem indexOf_nl_cons_ne {b : Nat} (rest : GoString) (hb : b ≠ NL) :
    List.indexOf NL (b :: rest) = List.indexOf NL rest + 1 := by
  have hbeq : (b == NL) = false := by simpa using hb
  simp [List.indexOf, List.findIdx_cons, hbeq]

theorem indexOf_nl_cons_eq (rest : GoString) :
    List.indexOf NL (NL :: rest) = 0 := by
  simp [List.indexOf, List.findIdx_cons]

theorem offsetLoop_beyond (c : Int) (bytes : GoString) :
    ∀ (off skip : Nat), contRun skip bytes →
      ((off + List.indexOf NL bytes : Nat) : Int) < c →
      offsetLoop c (rangeFrom off skip bytes)
        = if List.indexOf NL bytes < bytes.length then .ret (off + List.indexOf NL bytes)
          else .done := by
  induction bytes with
  | nil => intro off skip _ _; simp [rangeFrom, offsetLoop, List.indexOf]
  | cons b rest ih =>
    intro off skip hc h
    cases skip with
    | zero =>
      simp only [rangeFrom, offsetLoop]
      have hne : ¬ (c = (off : Int)) := by push_cast at h; omega
      rw [if_neg hne]
      by_cases hb : b = NL
      · subst hb
        rw [if_pos ((decoderune_nl NL rest).2 rfl), indexOf_nl_cons_eq]
        rw [indexOf_nl_cons_eq] at h
        rw [if_pos (by simpa using h)]
        simp
      · rw [if_neg (fun hr => hb ((decoderune_nl b rest).1 hr))]
        rw [indexOf_nl_cons_ne rest hb] at h ⊢
        rw [ih (off + 1) _ (decoderune_cont b rest) (by push_cast at h ⊢; omega)]
        simp only [List.length_cons, Nat.add_lt_add_iff_right]
        split_ifs <;> first | rfl | (simp only [LoopExit.ret.injEq, LoopExit.brk.injEq]; omega)
    | succ skip =>
      have hb := contRun_head_ne_nl hc
      simp only [rangeFrom]
      rw [indexOf_nl_cons_ne rest hb] at h ⊢
      rw [ih (off + 1) skip hc.2 (by push_cast at h ⊢; omega)]
      simp only [List.length_cons, Nat.add_lt_add_iff_right]
      split_ifs <;> first | rfl | (simp only [LoopExit.ret.injEq, LoopExit.brk.injEq]; omega)

theorem offsetLoop_before (c : Int) (bytes : GoString) :
    ∀ (off skip : Nat), contRun skip bytes → c < (off : Int) →
      offsetLoop c (rangeFrom off skip bytes)
        = if List.indexOf NL bytes < bytes.length then .brk (off + List.indexOf NL bytes)
          else .done := by
  induction bytes with
  | nil => intro off skip _ _; simp [rangeFrom, offsetLoop, List.indexOf]
  | cons b rest ih =>
    intro off skip hc h
    cases skip with
    | zero =>
      simp only [rangeFrom, offsetLoop]
      have hne : ¬ (c = (off : Int)) := by omega
      rw [if_neg hne]
      by_cases hb : b = NL
      · subst hb
        rw [if_pos ((decoderune_nl NL rest).2 rfl), indexOf_nl_cons_eq]
        rw [if_neg (by omega)]
        simp
      · rw [if_neg (fun hr => hb ((decoderune_nl b rest).1 hr))]
        rw [indexOf_nl_cons_ne rest hb]
        rw [ih (off + 1) _ (decoderune_cont b rest) (by push_cast; omega)]
        simp only [List.length_cons, Nat.add_lt_add_iff_right]
        split_ifs <;> first | rfl | (simp only [LoopExit.ret.injEq, LoopExit.brk.injEq]; omega)
    | succ skip =>
      have hb := contRun_head_ne_nl hc
      simp only [rangeFrom]
      rw [indexOf_nl_cons_ne rest hb]
      rw [ih (off + 1) skip hc.2 (by push_cast; omega)]
      simp only [List.length_cons, Nat.add_lt_add_iff_right]
      split_ifs <;> first | rfl | (simp only [LoopExit.ret.injEq, LoopExit.brk.injEq]; omega)

theorem offsetLoop_ret_bounds (c : Int) (bytes : GoString) :
    ∀ (off skip v : Nat), offsetLoop c (rangeFrom off skip bytes) = .ret v →
      off ≤ v ∧ v < off + bytes.length := by
  induction bytes with
  | nil => intro off skip v h; simp [rangeFrom, offsetLoop] at h
  | cons b rest ih =>
    intro off skip v h
    cases skip with
    | zero =>
      simp only [rangeFrom, offsetLoop] at h
      split_ifs at h with h1 h2 h3
      · simp only [LoopExit.ret.injEq] at h; simp only [List.length_cons]; omega
      · simp only [LoopExit.ret.injEq] at h; simp only [List.length_cons]; omega
      · have := ih _ _ _ h; simp only [List.length_cons]; omega
    | succ skip =>
      simp only [rangeFrom] at h
      have := ih _ _ _ h; simp only [List.length_cons]; omega

/-! ## `getOffset` once the line is resolved -/

theorem getOffset_of_line (text : GoString) (line c : Int) (r : Nat)
    (hr : getLineOffset text line = ((r : Int), none)) (hlen : r ≤ text.length) :
    getOffset text ⟨line, c⟩ =
      if c = 0 then some ((r : Int), none)
      else
        match offsetLoop c (rangeString (text.drop r)) with
        | .ret offset => some ((r : Int) + offset, none)
        | .brk count =>
          if c > 0 then some ((text.length : Int), none)
          else some (-1, some ⟨"Character", count, c⟩)
        | .done =>
          if c > 0 then some ((text.length : Int), none)
          else some (-1, some ⟨"Character", ((text.drop r).length : Nat), c⟩) := by
  have hs : sliceFrom text (r : Int) = some (text.drop r) := by
    simp [sliceFrom, hlen]
  simp only [getOffset, hr, hs]

theorem getOffset_of_line_error (text : GoString) (pos : Position) (v : Int)
    (e : OutOfRangeError) (h : getLineOffset text pos.Line = (v, some e)) :
    getOffset text pos = some (-1, some e) := by
  simp only [getOffset, h]

theorem getOffset_total (text : GoString) (pos : Position) :
    ∃ v e, getOffset text pos = some (v, e) := by
  obtain ⟨line, c⟩ := pos
  rcases hlo : getLineOffset text line with ⟨v, _ | e⟩
  · obtain ⟨r, rfl, hlen⟩ := getLineOffset_ok_bounds text line v hlo
    rw [getOffset_of_line text line c r hlo hlen]
    by_cases hc : c = 0
    · rw [if_pos hc]; exact ⟨_, _, rfl⟩
    · rw [if_neg hc]
      cases offsetLoop c (rangeString (text.drop r)) with
      | ret offset => exact ⟨_, _, rfl⟩
      | brk count => by_cases hp : c > 0 <;> simp only [hp, if_true, if_false] <;> exact ⟨_, _, rfl⟩
      | done => by_cases hp : c > 0 <;> simp only [hp, if_true, if_false] <;> exact ⟨_, _, rfl⟩
  · exact ⟨_, _, getOffset_of_line_error text ⟨line, c⟩ v e hlo⟩

theorem getOffset_ok_bounds (text : GoString) (pos : Position) (v : Int)
    (h : getOffset text pos = some (v, none)) : 0 ≤ v ∧ v ≤ (text.length : Int) := by
  obtain ⟨line, c⟩ := pos
  rcases hlo : getLineOffset text line with ⟨w, _ | e⟩
  · obtain ⟨r, rfl, hlen⟩ := getLineOffset_ok_bounds text line w hlo
    rw [getOffset_of_line text line c r hlo hlen] at h
    by_cases hc : c = 0
    · rw [if_pos hc] at h
      simp only [Option.some.injEq, Prod.mk.injEq, and_true] at h; omega
    · rw [if_neg hc] at h
      cases hloop : offsetLoop c (rangeString (text.drop r)) with
      | ret offset =>
        have hb := offsetLoop_ret_bounds c (text.drop r) 0 0 offset hloop
        simp only [List.length_drop] at hb
        simp only [hloop, Option.some.injEq, Prod.mk.injEq, and_true] at h; omega
      | brk count =>
        by_cases hp : c > 0
        · simp only [hloop, hp, if_true, Option.some.injEq, Prod.mk.injEq, and_true] at h; omega
        · simp [hloop, hp] at h
      | done =>
        by_cases hp : c > 0
        · simp only [hloop, hp, if_true, Option.some.injEq, Prod.mk.injEq, and_true] at h; omega
        · simp [hloop, hp] at h
  · rw [getOffset_of_line_error text ⟨line, c⟩ w e hlo] at h
    simp at h

theorem line_has_successor_iff (text : GoString) (line : Int) (lo : Nat)
    (hcount : (((text.take lo).count NL : Nat) : Int) = line) :
    line < ((text.count NL : Nat) : Int) ↔
      List.indexOf NL (text.drop lo) < (text.drop lo).length := by
  have hsplit : text.count NL = (text.take lo).count NL + (text.drop lo).count NL := by
    conv_lhs => rw [← List.take_append_drop lo text]
    exact List.count_append _ _ _
  rw [List.indexOf_lt_length, ← List.count_pos_iff]
  omega

theorem getElem_indexOf_drop (text : GoString) (lo : Nat)
    (h : List.indexOf NL (text.drop lo) < (text.drop lo).length) :
    text[lo + List.indexOf NL (text.drop lo)]? = some NL := by
  have h1 : (text.drop lo)[List.indexOf NL (text.drop lo)]? = some NL := by
    rw [List.getElem?_eq_getElem h]
    exact congrArg some (List.indexOf_get h)
  simpa [List.getElem?_drop] using h1

/-! ## The claims about `getLineOffset` -/

/-- Claim C1: for every text and every line with `0 ≤ line ≤ number of line breaks`,
`getLineOffset` succeeds and returns the byte offset `r` of the first character of that line:
`r = 0` for line 0, otherwise `r = j + 1` where `j` is the offset of the `line`-th line break
(a line break preceded by exactly `line - 1` line breaks); so `text[:r]` contains exactly
`line` line breaks and ends in a line break. -/
theorem getLineOffset_line_start (text : GoString) (line : Int)
    (h0 : 0 ≤ line) (h1 : line ≤ ((text.count NL : Nat) : Int)) :
    ∃ r : Nat, getLineOffset text line = ((r : Int), none) ∧ r ≤ text.length ∧
      (line = 0 → r = 0) ∧
      (line ≠ 0 → ∃ j : Nat, r = j + 1 ∧ text[j]? = some NL ∧
        (((text.take j).count NL : Nat) : Int) + 1 = line) ∧
      (((text.take r).count NL : Nat) : Int) = line ∧
      (line ≠ 0 → (text.take r).getLast? = some NL) := by
  obtain ⟨r, hr, hlen, hcount, hzero, hpos⟩ := getLineOffset_valid text line h0 h1
  refine ⟨r, hr, hlen, hzero, hpos, hcount, fun hl => ?_⟩
  obtain ⟨j, rfl, hget, _⟩ := hpos hl
  rw [List.take_succ, hget]
  simp

/-- The examples of the documentation of `getLineOffset`, and claim C1 applied to the text
`"foo\nfoobar\nbaz"` at line 2. -/
theorem getLineOffset_line_start_witness :
    getLineOffset (ofAscii "foo\nfoobar\nbaz") 0 = (0, none) ∧
    getLineOffset (ofAscii "foo\nfoobar\nbaz") 1 = (4, none) ∧
    getLineOffset (ofAscii "foo\nfoobar\nbaz") 2 = (11, none) ∧
    ∃ r : Nat, getLineOffset (ofAscii "foo\nfoobar\nbaz") 2 = ((r : Int), none) ∧
      r ≤ (ofAscii "foo\nfoobar\nbaz").length ∧
      ((2 : Int) = 0 → r = 0) ∧
      ((2 : Int) ≠ 0 → ∃ j : Nat, r = j + 1 ∧ (ofAscii "foo\nfoobar\nbaz")[j]? = some NL ∧
        ((((ofAscii "foo\nfoobar\nbaz").take j).count NL : Nat) : Int) + 1 = 2) ∧
      ((((ofAscii "foo\nfoobar\nbaz").take r).count NL : Nat) : Int) = 2 ∧
      ((2 : Int) ≠ 0 → ((ofAscii "foo\nfoobar\nbaz").take r).getLast? = some NL) :=
  ⟨by decide, by decide, by decide,
    getLineOffset_line_start (ofAscii "foo\nfoobar\nbaz") 2 (by decide) (by decide)⟩

/-- Claim C2: for every text and every integer line, `getLineOffset` fails exactly when the line
is negative or greater than the number of line breaks in the text, and whenever it fails the
error is `OutOfRangeError{"Line", total number of line breaks, line}`. -/
theorem getLineOffset_fails_iff (text : GoString) (line : Int) :
    ((getLineOffset text line).2 ≠ none ↔
      (line < 0 ∨ ((text.count NL : Nat) : Int) < line)) ∧
    (∀ e, (getLineOffset text line).2 = some e →
      e = ⟨"Line", ((text.count NL : Nat) : Int), line⟩) := by
  by_cases hv : line < 0 ∨ ((text.count NL : Nat) : Int) < line
  · rw [getLineOffset_invalid text line hv]
    refine ⟨by simp [hv], fun e he => ?_⟩
    simpa using he.symm
  · obtain ⟨r, hr, _⟩ := getLineOffset_valid text line (by omega) (by omega)
    rw [hr]
    simp [hv]

theorem offsetLoop_single_byte (c : Int) (bytes : GoString) :
    ∀ off : Nat, (∀ b ∈ bytes, b < 0x80) → (off : Int) ≤ c →
      c ≤ ((off + List.indexOf NL bytes : Nat) : Int) →
      offsetLoop c (rangeFrom off 0 bytes)
        = if c < ((off + bytes.length : Nat) : Int) then .ret c.toNat else .done := by
  induction bytes with
  | nil =>
    intro off _ h1 h2
    have hlt : ¬ c < ((off + ([] : GoString).length : Nat) : Int) := by
      simp only [List.length_nil, Nat.add_zero]; omega
    rw [if_neg hlt]; rfl
  | cons b rest ih =>
    intro off hascii h1 h2
    have hb : b < 0x80 := hascii b (by simp)
    have hdec : decoderune (b :: rest) = (b, 1) := by simp only [decoderune, if_pos hb]
    have hlt : c < ((off + (b :: rest).length : Nat) : Int) ↔
        c < ((off + 1 + rest.length : Nat) : Int) := by
      simp only [List.length_cons]; push_cast; omega
    simp only [rangeFrom, offsetLoop, hdec, Nat.sub_self]
    by_cases hc : c = (off : Int)
    · have hpos : c < ((off + (b :: rest).length : Nat) : Int) := by
        simp only [List.length_cons]; push_cast; omega
      rw [if_pos hc, if_pos hpos, hc]; simp
    · rw [if_neg hc]
      have hne : b ≠ NL := by
        intro hnl
        subst hnl
        rw [indexOf_nl_cons_eq] at h2
        simp only [Nat.add_zero] at h2; omega
      rw [if_neg hne]
      rw [indexOf_nl_cons_ne rest hne] at h2
      rw [ih (off + 1) (fun x hx => hascii x (by simp [hx])) (by push_cast; omega)
        (by push_cast at h2 ⊢; omega)]
      by_cases hl : c < ((off + 1 + rest.length : Nat) : Int)
      · rw [if_pos hl, if_pos (hlt.2 hl)]
      · rw [if_neg hl, if_neg (fun h => hl (hlt.1 h))]

/-- What holds of claim C3: in a text all of whose bytes are below `0x80` (one byte per
character), for a valid line starting at `lo` and a character index `c` with
`0 < c ≤ length of the line`, `getOffset` returns `lo + c`. -/
theorem getOffset_single_byte (text : GoString) (line c : Int)
    (hascii : ∀ b ∈ text, b < 0x80)
    (h0 : 0 ≤ line) (h1 : line ≤ ((text.count NL : Nat) : Int)) :
    ∃ lo : Nat, getLineOffset text line = ((lo : Int), none) ∧
      (0 < c → c ≤ ((List.indexOf NL (text.drop lo) : Nat) : Int) →
        getOffset text ⟨line, c⟩ = some ((lo : Int) + c, none)) := by
  obtain ⟨lo, hlo, hlen, -, -, -⟩ := getLineOffset_valid text line h0 h1
  refine ⟨lo, hlo, fun hc hle => ?_⟩
  have hc0 : ¬ c = 0 := by omega
  have hloop := offsetLoop_single_byte c (text.drop lo) 0
    (fun b hb => hascii b (List.mem_of_mem_drop hb)) (by simpa using hc.le) (by simpa using hle)
  rw [getOffset_of_line text line c lo hlo hlen, if_neg hc0, rangeString, hloop]
  by_cases hl : c < ((0 + (text.drop lo).length : Nat) : Int)
  · rw [if_pos hl]
    simp only [Option.some.injEq, Prod.mk.injEq, and_true]
    omega
  · rw [if_neg hl]
    have hp : c > 0 := hc
    simp only [hp, if_true, Option.some.injEq, Prod.mk.injEq, and_true]
    have hidx : List.indexOf NL (text.drop lo) ≤ (text.drop lo).length :=
      List.indexOf_le_length
    simp only [List.length_drop] at hl hidx
    push_cast at hl
    omega

/-! ## The claims about `getOffset` -/

/-- Claim C3 fails on the code for text with multi-byte characters: in the text `"éa"` (bytes
`C3 A9 61`, two characters, the first of which occupies two bytes) character 1 of line 0 is
reached at offset 2 and character 2 at offset 3, but `getOffset` compares the character index
with the byte offset of the `range` loop and returns 3 for character 1 and 2 for
character 2. -/
theorem getOffset_multibyte_character :
    rangeString [0xC3, 0xA9, 0x61] = [(0, 0xE9), (2, 0x61)] ∧
    getLineOffset [0xC3, 0xA9, 0x61] 0 = (0, none) ∧
    getOffset [0xC3, 0xA9, 0x61] ⟨0, 1⟩ = some (3, none) ∧
    getOffset [0xC3, 0xA9, 0x61] ⟨0, 2⟩ = some (2, none) := by
  decide

/-- Claim C4 fails on the code for text with multi-byte characters: in the text `"éé\nb"`
(bytes `C3 A9 C3 A9 0A 62`) line 0 has two characters, a further line exists and the line break
that ends line 0 is at offset 4, so the character index 3, greater than the length of the
line, should clamp to 4.  `getOffset` compares the character index with the byte offsets 0, 2
and 4 of the `range` loop: none equals 3, at the line break `3 > 4` is false, the loop is left,
and the result is `len(text) = 6`, an offset in the next line. -/
theorem getOffset_multibyte_line_end :
    rangeString [0xC3, 0xA9, 0xC3, 0xA9, 0x0A, 0x62]
      = [(0, 0xE9), (2, 0xE9), (4, 0x0A), (5, 0x62)] ∧
    getLineOffset [0xC3, 0xA9, 0xC3, 0xA9, 0x0A, 0x62] 0 = (0, none) ∧
    getLineOffset [0xC3, 0xA9, 0xC3, 0xA9, 0x0A, 0x62] 1 = (5, none) ∧
    [0xC3, 0xA9, 0xC3, 0xA9, 0x0A, 0x62][4]? = some NL ∧
    getOffset [0xC3, 0xA9, 0xC3, 0xA9, 0x0A, 0x62] ⟨0, 3⟩ = some (6, none) := by
  decide

/-- What holds of claim C4: for every text, every valid line and every character index `c`
greater than the number of bytes of that line (from the line start `lo` up to the next line
break or the end of the text), `getOffset` succeeds and clamps to the end of that line: when a
further line exists it returns the offset of the line break terminating the line, and when the
line is the last one it returns `len(text)`.  The number of bytes is the number of characters
only when every character of the line occupies one byte. -/
theorem getOffset_clamps_to_line_end (text : GoString) (line : Int)
    (h0 : 0 ≤ line) (h1 : line ≤ ((text.count NL : Nat) : Int)) :
    ∃ lo : Nat, getLineOffset text line = ((lo : Int), none) ∧
      ∀ c : Int, ((List.indexOf NL (text.drop lo) : Nat) : Int) < c →
        (line < ((text.count NL : Nat) : Int) →
          getOffset text ⟨line, c⟩
            = some (((lo + List.indexOf NL (text.drop lo) : Nat) : Int), none) ∧
          text[lo + List.indexOf NL (text.drop lo)]? = some NL) ∧
        (line = ((text.count NL : Nat) : Int) →
          getOffset text ⟨line, c⟩ = some ((text.length : Int), none)) := by
  obtain ⟨lo, hlo, hlen, hcount, -, -⟩ := getLineOffset_valid text line h0 h1
  refine ⟨lo, hlo, fun c hc => ?_⟩
  have hsucc := line_has_successor_iff text line lo hcount
  have hc0 : ¬ c = 0 := by omega
  have hloop := offsetLoop_beyond c (text.drop lo) 0 0 trivial (by simpa using hc)
  rw [getOffset_of_line text line c lo hlo hlen, if_neg hc0, rangeString, hloop]
  constructor
  · intro hlt
    have hidx := hsucc.1 hlt
    rw [if_pos hidx]
    exact ⟨by simp, getElem_indexOf_drop text lo hidx⟩
  · intro heq
    have hidx : ¬ List.indexOf NL (text.drop lo) < (text.drop lo).length :=
      fun h => by have := hsucc.2 h; omega
    rw [if_neg hidx]
    have hp : c > 0 := by omega
    simp only [hp, if_true]

/-- The clamping at the two texts of the specification: character 10 of line 1 clamps to
offset 7 both in `"foo\nbar\nbaz"` (the line break ending line 1) and in `"foo\nbar"` (the end
of the text). -/
theorem getOffset_clamps_to_line_end_witness :
    getOffset (ofAscii "foo\nbar\nbaz") ⟨1, 10⟩ = some (7, none) ∧
    getOffset (ofAscii "foo\nbar") ⟨1, 10⟩ = some (7, none) ∧
    ∃ lo : Nat, getLineOffset (ofAscii "foo\nbar\nbaz") 1 = ((lo : Int), none) ∧
      ∀ c : Int, ((List.indexOf NL ((ofAscii "foo\nbar\nbaz").drop lo) : Nat) : Int) < c →
        ((1 : Int) < (((ofAscii "foo\nbar\nbaz").count NL : Nat) : Int) →
          getOffset (ofAscii "foo\nbar\nbaz") ⟨1, c⟩
            = some (((lo + List.indexOf NL ((ofAscii "foo\nbar\nbaz").drop lo) : Nat) : Int),
                none) ∧
          (ofAscii "foo\nbar\nbaz")[lo + List.indexOf NL ((ofAscii "foo\nbar\nbaz").drop lo)]?
            = some NL) ∧
        ((1 : Int) = (((ofAscii "foo\nbar\nbaz").count NL : Nat) : Int) →
          getOffset (ofAscii "foo\nbar\nbaz") ⟨1, c⟩
            = some (((ofAscii "foo\nbar\nbaz").length : Int), none)) :=
  ⟨by decide, by decide,
    getOffset_clamps_to_line_end (ofAscii "foo\nbar\nbaz") 1 (by decide) (by decide)⟩

/-- Claim C5 fails on the code: in the text `"éa\nb"` (bytes `C3 A9 61 0A 62`) line 0 starts at
offset 0 and ends at the line break at offset 3, yet `getOffset` for character 1 of line 0
succeeds with offset 5, the length of the whole text, which lies past the end of line 0 (on
the next line). -/
theorem getOffset_past_line_end :
    getLineOffset [0xC3, 0xA9, 0x61, 0x0A, 0x62] 0 = (0, none) ∧
    List.indexOf NL [0xC3, 0xA9, 0x61, 0x0A, 0x62] = 3 ∧
    getOffset [0xC3, 0xA9, 0x61, 0x0A, 0x62] ⟨0, 1⟩ = some (5, none) ∧
    getLineOffset [0xC3, 0xA9, 0x61, 0x0A, 0x62] 1 = (4, none) := by
  decide

/-- Claim C6: `getOffset` fails exactly in two cases.  When the line is out of range it returns
the error of `getLineOffset`, an `OutOfRangeError` of type `"Line"`.  When the line is valid,
starting at offset `lo`, and the character is negative it returns
`OutOfRangeError{"Character", n, character}` where `n` is the length of the line (the number
of bytes from `lo` up to the next line break or the end of the text).  For a valid line and a
character `≥ 0` it succeeds. -/
theorem getOffset_fails_iff (text : GoString) (pos : Position) :
    ((pos.Line < 0 ∨ ((text.count NL : Nat) : Int) < pos.Line) →
      getOffset text pos = some (-1, (getLineOffset text pos.Line).2) ∧
      (getLineOffset text pos.Line).2
        = some ⟨"Line", ((text.count NL : Nat) : Int), pos.Line⟩) ∧
    (0 ≤ pos.Line → pos.Line ≤ ((text.count NL : Nat) : Int) →
      ∃ lo : Nat, getLineOffset text pos.Line = ((lo : Int), none) ∧
        (pos.Character < 0 →
          getOffset text pos = some (-1, some ⟨"Character",
            ((List.indexOf NL (text.drop lo) : Nat) : Int), pos.Character⟩)) ∧
        (0 ≤ pos.Character → ∃ v, getOffset text pos = some (v, none))) := by
  obtain ⟨line, c⟩ := pos
  constructor
  · intro hv
    have hl := getLineOffset_invalid text line hv
    exact ⟨by rw [getOffset_of_line_error text ⟨line, c⟩ _ _ hl, hl], by rw [hl]⟩
  · intro h0 h1
    obtain ⟨lo, hlo, hlen, -, -, -⟩ := getLineOffset_valid text line h0 h1
    refine ⟨lo, hlo, fun hneg => ?_, fun hpos => ?_⟩
    · have hneg : c < 0 := hneg
      have hc0 : ¬ c = 0 := by omega
      have hp : ¬ c > 0 := by omega
      have hloop := offsetLoop_before c (text.drop lo) 0 0 trivial (by simpa using hneg)
      simp only [getOffset_of_line text line c lo hlo hlen, if_neg hc0, rangeString, hloop]
      by_cases hidx : List.indexOf NL (text.drop lo) < (text.drop lo).length
      · simp only [if_pos hidx, hp, if_false, Nat.zero_add]
      · have hfull : List.indexOf NL (text.drop lo) = (text.drop lo).length :=
          le_antisymm List.indexOf_le_length (not_lt.1 hidx)
        simp only [if_neg hidx, hp, if_false]
        rw [hfull]
    · have hpos : 0 ≤ c := hpos
      rw [getOffset_of_line text line c lo hlo hlen]
      by_cases hc0 : c = 0
      · rw [if_pos hc0]; exact ⟨_, rfl⟩
      · rw [if_neg hc0]
        have hp : c > 0 := by omega
        cases offsetLoop c (rangeString (text.drop lo)) with
        | ret offset => exact ⟨_, rfl⟩
        | brk count => simp only [hp, if_true]; exact ⟨_, rfl⟩
        | done => simp only [hp, if_true]; exact ⟨_, rfl⟩

/-- Claim C7: for every text and every valid line, `getOffset` at character 0 of the line is
the line-start offset returned by `getLineOffset`; in particular position `{0, 0}` resolves to
offset 0 in every text, empty or not. -/
theorem getOffset_character_zero (text : GoString) (line : Int)
    (h0 : 0 ≤ line) (h1 : line ≤ ((text.count NL : Nat) : Int)) :
    getOffset text ⟨line, 0⟩ = some (getLineOffset text line) ∧
    (getLineOffset text line).2 = none ∧
    getOffset text ⟨0, 0⟩ = some (0, none) := by
  obtain ⟨lo, hlo, hlen, -, -, -⟩ := getLineOffset_valid text line h0 h1
  refine ⟨?_, by rw [hlo], ?_⟩
  · rw [getOffset_of_line text line 0 lo hlo hlen, if_pos rfl, hlo]
  · simp [getOffset, getLineOffset]

/-- Claim C7 applied to line 2 of `"foo\nfoobar\nbaz"`, whose start is offset 11. -/
theorem getOffset_character_zero_witness :
    getOffset (ofAscii "foo\nfoobar\nbaz") ⟨2, 0⟩ = some (11, none) ∧
    (getOffset (ofAscii "foo\nfoobar\nbaz") ⟨2, 0⟩
        = some (getLineOffset (ofAscii "foo\nfoobar\nbaz") 2) ∧
      (getLineOffset (ofAscii "foo\nfoobar\nbaz") 2).2 = none ∧
      getOffset (ofAscii "foo\nfoobar\nbaz") ⟨0, 0⟩ = some (0, none)) :=
  ⟨by decide, getOffset_character_zero (ofAscii "foo\nfoobar\nbaz") 2 (by decide) (by decide)⟩

/-! ## The claims about `applyTextChange` -/

theorem applyTextChange_of_offsets (text : GoString) (rang : Range) (insertText : GoString)
    (start stop : Int) (hs : getOffset text rang.Start = some (start, none))
    (he : getOffset text rang.End = some (stop, none)) :
    applyTextChange text rang insertText
      = some (text.take start.toNat ++ insertText ++ text.drop stop.toNat, none) := by
  have hbs := getOffset_ok_bounds text rang.Start start hs
  have hbe := getOffset_ok_bounds text rang.End stop he
  simp only [applyTextChange, hs, he, sliceTo, sliceFrom, hbs, hbe, and_self, if_true]

/-- Claim C8: for every text, range and inserted text such that both ends of the range resolve
with `getOffset` to offsets `start` and `stop`, `applyTextChange` returns without error the
string `text[:start] + insertText + text[stop:]`; both offsets lie within the text, and the
result has length `len(text) - (stop - start) + len(insertText)`. -/
theorem applyTextChange_replaces_span (text : GoString) (rang : Range) (insertText : GoString)
    (start stop : Int) (hs : getOffset text rang.Start = some (start, none))
    (he : getOffset text rang.End = some (stop, none)) :
    applyTextChange text rang insertText
      = some (text.take start.toNat ++ insertText ++ text.drop stop.toNat, none) ∧
    (0 ≤ start ∧ start ≤ (text.length : Int)) ∧ (0 ≤ stop ∧ stop ≤ (text.length : Int)) ∧
    (((text.take start.toNat ++ insertText ++ text.drop stop.toNat).length : Nat) : Int)
      = (text.length : Int) - (stop - start) + (insertText.length : Int) ∧
    (start ≤ stop →
      text = text.take start.toNat
        ++ (text.drop start.toNat).take (stop.toNat - start.toNat) ++ text.drop stop.toNat) := by
  have hbs := getOffset_ok_bounds text rang.Start start hs
  have hbe := getOffset_ok_bounds text rang.End stop he
  refine ⟨applyTextChange_of_offsets text rang insertText start stop hs he, hbs, hbe, ?_, ?_⟩
  · simp only [List.length_append, List.length_take, List.length_drop]
    have h1 : min start.toNat text.length = start.toNat := by
      apply Nat.min_eq_left; omega
    rw [h1]
    omega
  · intro hle
    have hdd : text.drop stop.toNat
        = (text.drop start.toNat).drop (stop.toNat - start.toNat) := by
      rw [List.drop_drop]; congr 1; omega
    rw [hdd, List.append_assoc, List.take_append_drop, List.take_append_drop]

/-- Claim C8 at the example of the specification: replacing the range from `{0,0}` to `{1,0}`
of `"foo\nbar\n"` by `"baz\n"` gives `"baz\nbar\n"`. -/
theorem applyTextChange_replaces_span_witness :
    applyTextChange (ofAscii "foo\nbar\n") ⟨⟨0, 0⟩, ⟨1, 0⟩⟩ (ofAscii "baz\n")
      = some (ofAscii "baz\nbar\n", none) ∧
    (applyTextChange (ofAscii "foo\nbar\n") ⟨⟨0, 0⟩, ⟨1, 0⟩⟩ (ofAscii "baz\n")
        = some ((ofAscii "foo\nbar\n").take (0 : Int).toNat ++ ofAscii "baz\n"
            ++ (ofAscii "foo\nbar\n").drop (4 : Int).toNat, none) ∧
      ((0 : Int) ≤ 0 ∧ (0 : Int) ≤ ((ofAscii "foo\nbar\n").length : Int)) ∧
      ((0 : Int) ≤ 4 ∧ (4 : Int) ≤ ((ofAscii "foo\nbar\n").length : Int)) ∧
      ((((ofAscii "foo\nbar\n").take (0 : Int).toNat ++ ofAscii "baz\n"
            ++ (ofAscii "foo\nbar\n").drop (4 : Int).toNat).length : Nat) : Int)
        = ((ofAscii "foo\nbar\n").length : Int) - (4 - 0) + ((ofAscii "baz\n").length : Int) ∧
      ((0 : Int) ≤ 4 →
        ofAscii "foo\nbar\n" = (ofAscii "foo\nbar\n").take (0 : Int).toNat
          ++ ((ofAscii "foo\nbar\n").drop (0 : Int).toNat).take ((4 : Int).toNat - (0 : Int).toNat)
          ++ (ofAscii "foo\nbar\n").drop (4 : Int).toNat)) :=
  ⟨by decide,
    applyTextChange_replaces_span (ofAscii "foo\nbar\n") ⟨⟨0, 0⟩, ⟨1, 0⟩⟩ (ofAscii "baz\n") 0 4
      (by decide) (by decide)⟩

/-- Claim C9: `applyTextChange` always returns; with `se` and `ee` the errors of `getOffset`
on the start and on the end of the range, it fails if and only if one of them is an error, the
error it returns is `se` when the start fails and otherwise `ee`, and on failure the returned
string is empty. -/
theorem applyTextChange_fails_iff (text : GoString) (rang : Range) (insertText : GoString) :
    ∃ (s e : Int) (se ee : Option OutOfRangeError) (res : GoString)
      (err : Option OutOfRangeError),
      getOffset text rang.Start = some (s, se) ∧
      getOffset text rang.End = some (e, ee) ∧
      applyTextChange text rang insertText = some (res, err) ∧
      (err ≠ none ↔ (se ≠ none ∨ ee ≠ none)) ∧
      err = (if se.isSome then se else ee) ∧
      (err ≠ none → res = []) := by
  obtain ⟨s, se, hs⟩ := getOffset_total text rang.Start
  obtain ⟨e, ee, he⟩ := getOffset_total text rang.End
  cases se with
  | some x =>
    refine ⟨s, e, some x, ee, [], some x, hs, he, ?_, by simp, by simp, fun _ => rfl⟩
    simp only [applyTextChange, hs]
  | none =>
    cases ee with
    | some y =>
      refine ⟨s, e, none, some y, [], some y, hs, he, ?_, by simp, by simp, fun _ => rfl⟩
      simp only [applyTextChange, hs, he]
    | none =>
      exact ⟨s, e, none, none, _, none, hs, he,
        applyTextChange_of_offsets text rang insertText s e hs he, by simp, by simp,
        fun h => absurd rfl h⟩

/-! ## Maps, numerals and the scanning loop of `createSourceMaps` -/

theorem lookup_filter_ne (m : IntMap) (k k1 : Int) (h : k1 ≠ k) :
    (m.filter (fun p => p.1 ≠ k)).lookup k1 = m.lookup k1 := by
  induction m with
  | nil => rfl
  | cons p rest ih =>
    obtain ⟨a, b⟩ := p
    by_cases ha : a = k
    · subst ha
      have hne : (k1 == a) = false := by simpa using h
      simp only [List.filter_cons, List.lookup_cons, hne, ne_eq, not_true_eq_false,
        decide_False, Bool.false_eq_true, if_false]
      exact ih
    · by_cases hk1 : k1 = a
      · subst hk1
        simp [List.filter_cons, List.lookup_cons, ha]
      · have hne : (k1 == a) = false := by simpa using hk1
        simp only [List.filter_cons, List.lookup_cons, hne, ne_eq, ha, not_false_eq_true,
          decide_True, if_true]
        exact ih

theorem mapFind_mapSet (m : IntMap) (k v k1 : Int) :
    mapFind (mapSet m k v) k1 = if k1 = k then some v else mapFind m k1 := by
  by_cases h : k1 = k
  · subst h
    simp [mapFind, mapSet, List.lookup_cons]
  · have hne : (k1 == k) = false := by simpa using h
    simp only [mapFind, mapSet, List.lookup_cons, hne, if_neg h]
    exact lookup_filter_ne m k k1 h

theorem parseDigits_append (xs ys : GoString) :
    ∀ n : Nat, parseDigits (xs ++ ys) n = (parseDigits xs n).bind (parseDigits ys) := by
  induction xs with
  | nil => intro n; rfl
  | cons ch rest ih =>
    intro n
    by_cases hd : 48 ≤ ch ∧ ch ≤ 57
    · simp only [List.cons_append, parseDigits, if_pos hd]
      exact ih _
    · simp only [List.cons_append, parseDigits, if_neg hd, Option.none_bind]

theorem decimalAux_acc (fuel : Nat) :
    ∀ (n : Nat) (acc : GoString), decimalAux fuel n acc = decimalAux fuel n [] ++ acc := by
  induction fuel with
  | zero => intro n acc; rfl
  | succ fuel ih =>
    intro n acc
    by_cases hn : n < 10
    · simp only [decimalAux, if_pos hn, List.singleton_append]
    · simp only [decimalAux, if_neg hn]
      rw [ih (n / 10) ((48 + n % 10) :: acc), ih (n / 10) [48 + n % 10]]
      simp

theorem parseDigits_decimalAux (fuel : Nat) :
    ∀ n : Nat, n < fuel → parseDigits (decimalAux fuel n []) 0 = some n := by
  induction fuel with
  | zero => intro n h; omega
  | succ fuel ih =>
    intro n h
    by_cases hn : n < 10
    · have hd : 48 ≤ 48 + n ∧ 48 + n ≤ 57 := by omega
      simp only [decimalAux, if_pos hn, parseDigits, if_pos hd]
      congr 1; omega
    · have hd : 48 ≤ 48 + n % 10 ∧ 48 + n % 10 ≤ 57 := by omega
      simp only [decimalAux, if_neg hn]
      rw [decimalAux_acc, parseDigits_append, ih (n / 10) (by omega)]
      simp only [Option.some_bind, parseDigits, if_pos hd]
      congr 1; omega

theorem decimalAux_digits (fuel : Nat) :
    ∀ (n : Nat) (acc : GoString) (b : Nat), b ∈ decimalAux fuel n acc →
      (48 ≤ b ∧ b ≤ 57) ∨ b ∈ acc := by
  induction fuel with
  | zero => intro n acc b h; exact Or.inr h
  | succ fuel ih =>
    intro n acc b h
    by_cases hn : n < 10
    · simp only [decimalAux, if_pos hn, List.mem_cons] at h
      rcases h with h | h
      · left; omega
      · exact Or.inr h
    · simp only [decimalAux, if_neg hn] at h
      rcases ih _ _ b h with h1 | h1
      · exact Or.inl h1
      · simp only [List.mem_cons] at h1
        rcases h1 with h1 | h1
        · left; omega
        · exact Or.inr h1

theorem decimal_digits (n b : Nat) (h : b ∈ decimal n) : 48 ≤ b ∧ b ≤ 57 := by
  rcases decimalAux_digits (n + 1) n [] b h with h1 | h1
  · exact h1
  · simp at h1

theorem decimal_ne_nil (n : Nat) : decimal n ≠ [] := by
  by_cases hn : n < 10
  · simp [decimal, decimalAux, hn]
  · simp only [decimal, decimalAux, if_neg hn]
    rw [decimalAux_acc]
    simp

theorem Atoi_decimal (n : Nat) (h : n < 2 ^ 63) : Atoi (decimal n) = some (n : Int) := by
  have hparse : parseDigits (decimal n) 0 = some n :=
    parseDigits_decimalAux (n + 1) n (by omega)
  have hdig := decimal_digits n
  cases hdec : decimal n with
  | nil => exact absurd hdec (decimal_ne_nil n)
  | cons c rest =>
    rw [hdec] at hparse hdig
    have hc := hdig c (by simp)
    have h45 : ¬ c = 45 := by omega
    have h43 : ¬ c = 43 := by omega
    simp only [Atoi, if_neg h45, if_neg h43, hparse, Option.some_bind, if_pos h]

/-! ## Go integer arithmetic -/

theorem maxInt_eq : maxInt = 9223372036854775807 := rfl

theorem minInt_eq : minInt = -9223372036854775808 := rfl

theorem wrapInt_eq (x : Int) (h1 : minInt ≤ x) (h2 : x ≤ maxInt) : wrapInt x = x := by
  have hM := maxInt_eq
  have hm := minInt_eq
  unfold wrapInt
  omega

theorem wrapInt_range (x : Int) : minInt ≤ wrapInt x ∧ wrapInt x ≤ maxInt := by
  have hM := maxInt_eq
  have hm := minInt_eq
  unfold wrapInt
  omega

theorem wrapInt_succ (x : Int) (h1 : 0 ≤ x) (h2 : x ≤ maxInt) :
    (wrapInt (x + 1) = x + 1 ∧ x < maxInt) ∨ (wrapInt (x + 1) = minInt ∧ x = maxInt) := by
  have hM := maxInt_eq
  have hm := minInt_eq
  unfold wrapInt
  omega

/-! ## The scanning loop of `createSourceMaps` on a single directive -/

theorem scanStep_directive (st : ScanState) (k : Nat) (hk : 1 ≤ k) (hk64 : k < 2 ^ 63) :
    scanStep st (ofAscii "#line " ++ decimal k)
      = some { st with sourceLine := (k : Int) - 1,
                       targetLine := wrapInt (st.targetLine + 1) } := by
  have hlit : ofAscii "#line " = [35, 108, 105, 110, 101, 32] := by decide
  have hpre : ofAscii "#line" = [35, 108, 105, 110, 101] := by decide
  have hspace : ¬ 32 ∈ decimal k := fun hmem => by
    have := decimal_digits k 32 hmem; omega
  have hidx : ¬ (Index (decimal k) 32 > 0) := by
    simp only [Index, if_neg hspace]; omega
  have hpos : ((k : Int) > 0) := by omega
  have hhas : HasPrefix (ofAscii "#line " ++ decimal k) (ofAscii "#line") = true := by
    simp [HasPrefix, hlit, hpre, List.isPrefixOf]
  have hbound : (0 : Int) ≤ 6 ∧ (6 : Int) ≤ ((ofAscii "#line " ++ decimal k).length : Nat) := by
    rw [hlit]; simp only [List.length_append, List.length_cons, List.length_nil]; omega
  have hslice : sliceFrom (ofAscii "#line " ++ decimal k) 6 = some (decimal k) := by
    simp only [sliceFrom, if_pos hbound]
    rw [hlit]; rfl
  simp only [scanStep, hhas, if_true, hslice, if_neg hidx, Atoi_decimal k hk64, if_pos hpos]

theorem scanStep_plain (st : ScanState) (lineStr : GoString)
    (hplain : HasPrefix lineStr (ofAscii "#line") = false) (hs : 0 ≤ st.sourceLine) :
    scanStep st lineStr
      = some { sourceLine := wrapInt (st.sourceLine + 1)
               targetLine := wrapInt (st.targetLine + 1)
               sourceLineMap := mapSet st.sourceLineMap st.targetLine st.sourceLine
               targetLineMap := mapSet st.targetLineMap st.sourceLine st.targetLine } := by
  have hs1 : st.sourceLine ≥ 0 := hs
  simp [scanStep, hplain, hs1]

/-- The scanning loop over plain lines, entered with a running source line that is set: the
lines receive consecutive numbers as long as the number of the last of them fits an `int`;
only the two counters left by the loop may have wrapped around. -/
theorem scanLoop_plain (plains : List GoString) :
    ∀ st : ScanState, (∀ l ∈ plains, HasPrefix l (ofAscii "#line") = false) →
      0 ≤ st.sourceLine → st.sourceLine ≤ maxInt →
      0 ≤ st.targetLine → st.targetLine ≤ maxInt →
      st.sourceLine + (plains.length : Nat) ≤ maxInt + 1 →
      st.targetLine + (plains.length : Nat) ≤ maxInt + 1 →
      ∃ st1 : ScanState, scanLoop plains st = some st1 ∧
        st1.sourceLine = wrapInt (st.sourceLine + (plains.length : Nat)) ∧
        st1.targetLine = wrapInt (st.targetLine + (plains.length : Nat)) ∧
        (∀ t : Int, mapFind st1.sourceLineMap t =
          if st.targetLine ≤ t ∧ t < st.targetLine + (plains.length : Nat) then
            some (t - st.targetLine + st.sourceLine)
          else mapFind st.sourceLineMap t) ∧
        (∀ s : Int, mapFind st1.targetLineMap s =
          if st.sourceLine ≤ s ∧ s < st.sourceLine + (plains.length : Nat) then
            some (s - st.sourceLine + st.targetLine)
          else mapFind st.targetLineMap s) := by
  have hM := maxInt_eq
  have hm := minInt_eq
  induction plains with
  | nil =>
    intro st _ hs0 hs1 ht0 ht1 _ _
    refine ⟨st, rfl, ?_, ?_, fun t => ?_, fun t => ?_⟩
    · simp only [List.length_nil, Nat.cast_zero, add_zero]
      exact (wrapInt_eq _ (by omega) hs1).symm
    · simp only [List.length_nil, Nat.cast_zero, add_zero]
      exact (wrapInt_eq _ (by omega) ht1).symm
    · rw [if_neg]; simp only [List.length_nil, Nat.cast_zero]; omega
    · rw [if_neg]; simp only [List.length_nil, Nat.cast_zero]; omega
  | cons l rest ih =>
    intro st hplain hs0 hs1 ht0 ht1 hsb htb
    have hstep := scanStep_plain st l (hplain l (by simp)) hs0
    simp only [List.length_cons, Nat.cast_add, Nat.cast_one] at hsb htb
    by_cases hrest : rest = []
    · subst hrest
      refine ⟨{ sourceLine := wrapInt (st.sourceLine + 1)
                targetLine := wrapInt (st.targetLine + 1)
                sourceLineMap := mapSet st.sourceLineMap st.targetLine st.sourceLine
                targetLineMap := mapSet st.targetLineMap st.sourceLine st.targetLine },
        by simp only [scanLoop, hstep], ?_, ?_, fun t => ?_, fun t => ?_⟩
      · simp
      · simp
      · rw [mapFind_mapSet]
        simp only [List.length_cons, List.length_nil, Nat.cast_add, Nat.cast_one, Nat.cast_zero]
        split_ifs <;> first | rfl | omega | (congr 1; omega)
      · rw [mapFind_mapSet]
        simp only [List.length_cons, List.length_nil, Nat.cast_add, Nat.cast_one, Nat.cast_zero]
        split_ifs <;> first | rfl | omega | (congr 1; omega)
    · have hlen : 1 ≤ rest.length := by
        cases rest with
        | nil => exact absurd rfl hrest
        | cons _ _ => simp
      have hws : wrapInt (st.sourceLine + 1) = st.sourceLine + 1 :=
        wrapInt_eq _ (by omega) (by omega)
      have hwt : wrapInt (st.targetLine + 1) = st.targetLine + 1 :=
        wrapInt_eq _ (by omega) (by omega)
      rw [hws, hwt] at hstep
      obtain ⟨st1, hloop, hsl, htl, hsm, htm⟩ :=
        ih { sourceLine := st.sourceLine + 1
             targetLine := st.targetLine + 1
             sourceLineMap := mapSet st.sourceLineMap st.targetLine st.sourceLine
             targetLineMap := mapSet st.targetLineMap st.sourceLine st.targetLine }
          (fun x hx => hplain x (by simp [hx]))
          (show (0 : Int) ≤ st.sourceLine + 1 by omega)
          (show st.sourceLine + 1 ≤ maxInt by omega)
          (show (0 : Int) ≤ st.targetLine + 1 by omega)
          (show st.targetLine + 1 ≤ maxInt by omega)
          (show st.sourceLine + 1 + (rest.length : Nat) ≤ maxInt + 1 by omega)
          (show st.targetLine + 1 + (rest.length : Nat) ≤ maxInt + 1 by omega)
      simp only at hsl htl hsm htm
      refine ⟨st1, by simp only [scanLoop, hstep, hloop], ?_, ?_, fun t => ?_, fun t => ?_⟩
      · rw [hsl]; simp only [List.length_cons]; push_cast; congr 1; omega
      · rw [htl]; simp only [List.length_cons]; push_cast; congr 1; omega
      · rw [hsm t, mapFind_mapSet]
        simp only [List.length_cons]; push_cast
        split_ifs <;> first | rfl | omega | (congr 1; omega)
      · rw [htm t, mapFind_mapSet]
        simp only [List.length_cons]; push_cast
        split_ifs <;> first | rfl | omega | (congr 1; omega)

/-! ## The claim about `createSourceMaps` on a single directive -/
/-- Claim C10 as stated fails on the code: for the target document made of the directive
`#line 2` followed by one plain line, target line 0 is the directive itself and has no entry,
so `sourceLineMap[0]` reads 0 and not `0 + (2 - 1)`.  With the plain lines counted from target
line 1 the claim still fails where a source line number leaves the range of `int`: after
`#line 9223372036854775807` the third plain line, target line 3, would have the source line
`2 + (k - 1) = 2^63`, and it has no entry at all, the running source line having wrapped around
to `-2^63`. -/
theorem createSourceMaps_directive_line_unmapped :
    (∃ sm tm, createSourceMaps [ofAscii "#line " ++ decimal 2, ofAscii "a"] = some (sm, tm) ∧
      ¬ (∀ t : Int, 0 ≤ t → t < 1 →
          mapGet sm t = t + (2 - 1) ∧ mapGet tm (mapGet sm t) = t)) ∧
    createSourceMaps (scanLines (ofAscii "#line 9223372036854775807\na\nb\nc\n"))
      = some ([(4, -9223372036854775808), (2, 9223372036854775807), (1, 9223372036854775806)],
              [(-9223372036854775808, 4), (9223372036854775807, 2),
                (9223372036854775806, 1)]) ∧
    mapFind [(4, -9223372036854775808), (2, 9223372036854775807), (1, 9223372036854775806)]
      (2 + 1) = none := by
  refine ⟨⟨[(2, 2), (1, 1)], [(2, 2), (1, 1)], by decide, fun h => ?_⟩, by decide, by decide⟩
  have h0 := (h 0 (by decide) (by decide)).1
  revert h0
  decide

/-- Claim C10 as amended: for every `k` with `1 ≤ k < 2^63` and every `N < 2^63` such that the
source line of the last plain line, `k + N - 2`, is at most `2^63 - 1`, when the lines that
`createSourceMaps` reads from the target document are the directive line `#line k` (target
line 0) followed by `N` lines that do not start with `#line` (target lines `1 .. N`), the maps
it returns have no entry for the directive line and, for every `t` in `[0, N)`,
`sourceLineMap[t + 1] = t + (k - 1)` and `targetLineMap[sourceLineMap[t + 1]] = t + 1`. -/
theorem createSourceMaps_single_directive (text : GoString) (k : Nat) (plains : List GoString)
    (hscan : scanLines text = (ofAscii "#line " ++ decimal k) :: plains)
    (hk : 1 ≤ k) (hk64 : k < 2 ^ 63)
    (hN : ((plains.length : Nat) : Int) ≤ maxInt)
    (hfit : (k : Int) + ((plains.length : Nat) : Int) - 2 ≤ maxInt)
    (hplain : ∀ l ∈ plains, HasPrefix l (ofAscii "#line") = false) :
    ∃ sm tm, createSourceMaps (scanLines text) = some (sm, tm) ∧
      mapFind sm 0 = none ∧
      ∀ t : Nat, t < plains.length →
        mapFind sm ((t : Int) + 1) = some ((t : Int) + ((k : Int) - 1)) ∧
        mapGet sm ((t : Int) + 1) = (t : Int) + ((k : Int) - 1) ∧
        mapGet tm (mapGet sm ((t : Int) + 1)) = (t : Int) + 1 := by
  have hM := maxInt_eq
  have hm := minInt_eq
  have h1 : wrapInt ((0 : Int) + 1) = 1 := by decide
  obtain ⟨st1, hloop, hsl, htl, hsm, htm⟩ :=
    scanLoop_plain plains ⟨(k : Int) - 1, wrapInt (0 + 1), [], []⟩ hplain
      (show (0 : Int) ≤ (k : Int) - 1 by omega)
      (show (k : Int) - 1 ≤ maxInt by omega)
      (show (0 : Int) ≤ wrapInt (0 + 1) by rw [h1]; omega)
      (show wrapInt (0 + 1) ≤ maxInt by rw [h1]; omega)
      (show (k : Int) - 1 + (plains.length : Nat) ≤ maxInt + 1 by omega)
      (show wrapInt (0 + 1) + (plains.length : Nat) ≤ maxInt + 1 by rw [h1]; omega)
  simp only [h1] at hsl htl hsm htm
  have hcreate : createSourceMaps (scanLines text)
      = some (mapSet st1.sourceLineMap st1.targetLine st1.sourceLine,
              mapSet st1.targetLineMap st1.sourceLine st1.targetLine) := by
    simp only [hscan, createSourceMaps, scanLoop, scanStep_directive _ k hk hk64, hloop]
  have hkey : st1.targetLine ≤ 0 ∨ (plains.length : Int) < st1.targetLine := by
    rw [htl]; unfold wrapInt; omega
  have hval : st1.sourceLine < 0 ∨ (k : Int) - 1 + (plains.length : Int) ≤ st1.sourceLine := by
    rw [hsl]; unfold wrapInt; omega
  have hkey0 : st1.targetLine ≠ 0 := by
    rw [htl]; unfold wrapInt; omega
  have hfind : ∀ t : Nat, t < plains.length →
      mapFind (mapSet st1.sourceLineMap st1.targetLine st1.sourceLine) ((t : Int) + 1)
        = some ((t : Int) + ((k : Int) - 1)) := by
    intro t ht
    rw [mapFind_mapSet, if_neg (by omega), hsm, if_pos (by omega)]
    congr 1; omega
  refine ⟨_, _, hcreate, ?_, fun t ht => ⟨hfind t ht, ?_, ?_⟩⟩
  · rw [mapFind_mapSet, if_neg (fun h => hkey0 h.symm), hsm, if_neg (by omega)]
    rfl
  · simp only [mapGet, hfind t ht, Option.getD_some]
  · simp only [mapGet, hfind t ht, Option.getD_some]
    rw [mapFind_mapSet, if_neg (by omega), htm, if_pos (by omega)]
    simp only [Option.getD_some]; omega

/-- Claim C10 as amended, applied to the document `#line 2` followed by the three plain lines
`a`, `b`, `c`, together with the maps the code builds for it. -/
theorem createSourceMaps_single_directive_witness :
    createSourceMaps (scanLines (ofAscii "#line 2\na\nb\nc\n"))
      = some ([(4, 4), (3, 3), (2, 2), (1, 1)], [(4, 4), (3, 3), (2, 2), (1, 1)]) ∧
    scanLines (ofAscii "#line 2\na\nb\nc\n")
      = (ofAscii "#line " ++ decimal 2) :: [ofAscii "a", ofAscii "b", ofAscii "c"] ∧
    ∃ sm tm, createSourceMaps (scanLines (ofAscii "#line 2\na\nb\nc\n")) = some (sm, tm) ∧
      mapFind sm 0 = none ∧
      ∀ t : Nat, t < [ofAscii "a", ofAscii "b", ofAscii "c"].length →
        mapFind sm ((t : Int) + 1) = some ((t : Int) + (((2 : Nat) : Int) - 1)) ∧
        mapGet sm ((t : Int) + 1) = (t : Int) + (((2 : Nat) : Int) - 1) ∧
        mapGet tm (mapGet sm ((t : Int) + 1)) = (t : Int) + 1 :=
  ⟨by decide, by decide,
    createSourceMaps_single_directive (ofAscii "#line 2\na\nb\nc\n") 2
      [ofAscii "a", ofAscii "b", ofAscii "c"]
      (by decide) (by decide) (by norm_num) (by decide) (by decide) (by decide)⟩

/-! ## Offsets stay inside the text -/

/-- Claim C20: every offset returned by a successful `getLineOffset` or `getOffset` lies in
`[0, len(text)]`, and `applyTextChange` never panics, whatever the range (the end may precede
the start): it always returns a string together with an error or `nil`. -/
theorem applyTextChange_never_faults (text : GoString) (rang : Range) (insertText : GoString) :
    (∀ line v, getLineOffset text line = (v, none) → 0 ≤ v ∧ v ≤ (text.length : Int)) ∧
    (∀ pos v, getOffset text pos = some (v, none) → 0 ≤ v ∧ v ≤ (text.length : Int)) ∧
    (∀ pos, getOffset text pos ≠ none) ∧
    (∀ start stop, getOffset text rang.Start = some (start, none) →
      getOffset text rang.End = some (stop, none) →
      sliceTo text start ≠ none ∧ sliceFrom text stop ≠ none) ∧
    ∃ res err, applyTextChange text rang insertText = some (res, err) := by
  refine ⟨fun line v h => ?_, fun pos v h => getOffset_ok_bounds text pos v h, fun pos => ?_,
    fun start stop hs he => ?_, ?_⟩
  · obtain ⟨r, rfl, hr⟩ := getLineOffset_ok_bounds text line v h
    omega
  · obtain ⟨v, e, h⟩ := getOffset_total text pos
    rw [h]; simp
  · have hbs := getOffset_ok_bounds text rang.Start start hs
    have hbe := getOffset_ok_bounds text rang.End stop he
    simp [sliceTo, sliceFrom, hbs, hbe]
  · obtain ⟨s, se, hs⟩ := getOffset_total text rang.Start
    obtain ⟨e, ee, he⟩ := getOffset_total text rang.End
    cases se with
    | some x => exact ⟨[], some x, by simp only [applyTextChange, hs]⟩
    | none =>
      cases ee with
      | some y => exact ⟨[], some y, by simp only [applyTextChange, hs, he]⟩
      | none => exact ⟨_, none, applyTextChange_of_offsets text rang insertText s e hs he⟩

/-! ## The scanning loop of `createSourceMaps` on arbitrary lines -/

theorem hasPrefix_length (l : GoString) (hp : HasPrefix l (ofAscii "#line") = true)
    (hne : l ≠ ofAscii "#line") : 6 ≤ l.length := by
  have hpre : ofAscii "#line" = [35, 108, 105, 110, 101] := by decide
  rw [hpre] at hp hne
  simp only [HasPrefix, List.isPrefixOf_iff_prefix] at hp
  obtain ⟨rest, rfl⟩ := hp
  cases rest with
  | nil => simp at hne
  | cons b rest => simp

theorem scanStep_directive_line (st : ScanState) (l : GoString)
    (hp : HasPrefix l (ofAscii "#line") = true) (hlen : 6 ≤ l.length) :
    scanStep st l = some { st with sourceLine := stepSource st.sourceLine l,
                                   targetLine := wrapInt (st.targetLine + 1) } := by
  have hbound : (0 : Int) ≤ 6 ∧ (6 : Int) ≤ ((l.length : Nat) : Int) := by omega
  have hslice : sliceFrom l 6 = some (l.drop 6) := by
    simp only [sliceFrom, if_pos hbound]; rfl
  simp only [scanStep, stepSource, directiveNumber, hp, if_true, hslice]
  by_cases hidx : Index (l.drop 6) 32 > 0
  · have hmem : 32 ∈ l.drop 6 := by
      by_contra hm
      simp only [Index, if_neg hm] at hidx
      omega
    have hlt : List.indexOf 32 (l.drop 6) < (l.drop 6).length := List.indexOf_lt_length.2 hmem
    have hval : Index (l.drop 6) 32 = ((List.indexOf 32 (l.drop 6) : Nat) : Int) := by
      simp only [Index, if_pos hmem]
    have hb2 : (0 : Int) ≤ 6 ∧ (6 : Int) ≤ Index (l.drop 6) 32 + 6 ∧
        Index (l.drop 6) 32 + 6 ≤ ((l.length : Nat) : Int) := by
      rw [hval]; simp only [List.length_drop] at hlt; omega
    simp only [if_pos hidx, slice, if_pos hb2, Option.map_some', Option.some_bind]
    cases Atoi (List.drop (6 : Int).toNat (List.take (Index (l.drop 6) 32 + 6).toNat l)) with
    | none => rfl
    | some v => by_cases hv : v > 0 <;> simp only [hv, if_true, if_false]
  · simp only [if_neg hidx]
    cases Atoi (l.drop 6) with
    | none => rfl
    | some v => by_cases hv : v > 0 <;> simp only [hv, if_true, if_false]

theorem scanStep_plain_skip (st : ScanState) (l : GoString)
    (hp : HasPrefix l (ofAscii "#line") = false) (hs : st.sourceLine < 0) :
    scanStep st l = some { st with targetLine := wrapInt (st.targetLine + 1) } := by
  have hs1 : ¬ st.sourceLine ≥ 0 := by omega
  simp [scanStep, hp, hs1]

theorem scanStep_spec (st : ScanState) (l : GoString) (hne : l ≠ ofAscii "#line") :
    ∃ st1, scanStep st l = some st1 ∧
      st1.sourceLine = stepSource st.sourceLine l ∧
      st1.targetLine = wrapInt (st.targetLine + 1) ∧
      ((HasPrefix l (ofAscii "#line") = false ∧ 0 ≤ st.sourceLine ∧
          st1.sourceLineMap = mapSet st.sourceLineMap st.targetLine st.sourceLine ∧
          st1.targetLineMap = mapSet st.targetLineMap st.sourceLine st.targetLine) ∨
       (¬ (HasPrefix l (ofAscii "#line") = false ∧ 0 ≤ st.sourceLine) ∧
          st1.sourceLineMap = st.sourceLineMap ∧ st1.targetLineMap = st.targetLineMap)) := by
  by_cases hp : HasPrefix l (ofAscii "#line") = true
  · refine ⟨_, scanStep_directive_line st l hp (hasPrefix_length l hp hne), rfl, rfl,
      Or.inr ⟨?_, rfl, rfl⟩⟩
    simp [hp]
  · have hp : HasPrefix l (ofAscii "#line") = false := by simpa using hp
    by_cases hs : 0 ≤ st.sourceLine
    · refine ⟨_, scanStep_plain st l hp hs, ?_, rfl, Or.inl ⟨hp, hs, rfl, rfl⟩⟩
      have hs1 : st.sourceLine ≥ 0 := hs
      simp [stepSource, hp, hs1]
    · refine ⟨_, scanStep_plain_skip st l hp (by omega), ?_, rfl, Or.inr ⟨?_, rfl, rfl⟩⟩
      · have hs1 : ¬ st.sourceLine ≥ 0 := hs
        simp [stepSource, hp, hs1]
      · exact fun h => hs h.2

theorem Inverse_mono {sm tm : IntMap} {b b1 : Int} (h : Inverse sm tm b) (hb : b ≤ b1) :
    Inverse sm tm b1 :=
  ⟨fun x hx => h.1 x (by omega), h.2.1, h.2.2⟩

theorem Inverse_set {sm tm : IntMap} {T : Int} (h : Inverse sm tm T) (S : Int) :
    Inverse (mapSet sm T S) (mapSet tm S T) (T + 1) := by
  obtain ⟨h1, h2, h3⟩ := h
  have hlt : ∀ t s, mapFind sm t = some s → t < T := by
    intro t s hts
    by_contra hge
    rw [h1 t (by omega)] at hts
    simp at hts
  refine ⟨fun x hx => ?_, fun s t hst => ?_, fun t s hts => ?_⟩
  · rw [mapFind_mapSet, if_neg (by omega)]
    exact h1 x (by omega)
  · rw [mapFind_mapSet] at hst
    by_cases hs : s = S
    · rw [if_pos hs] at hst
      have ht : T = t := by simpa using hst
      subst ht; subst hs
      refine ⟨by rw [mapFind_mapSet, if_pos rfl], fun t1 ht1 => ?_⟩
      rw [mapFind_mapSet] at ht1
      by_cases h1T : t1 = T
      · omega
      · rw [if_neg h1T] at ht1
        have := hlt t1 s ht1
        omega
    · rw [if_neg hs] at hst
      obtain ⟨ha, hb⟩ := h2 s t hst
      have htT := hlt t s ha
      refine ⟨by rw [mapFind_mapSet, if_neg (by omega)]; exact ha, fun t1 ht1 => ?_⟩
      rw [mapFind_mapSet] at ht1
      by_cases h1T : t1 = T
      · rw [if_pos h1T] at ht1
        exact absurd (by simpa using ht1 : S = s).symm hs
      · rw [if_neg h1T] at ht1
        exact hb t1 ht1
  · rw [mapFind_mapSet] at hts
    rw [mapFind_mapSet]
    by_cases hs : s = S
    · rw [if_pos hs]; simp
    · rw [if_neg hs]
      by_cases htT : t = T
      · rw [if_pos htT] at hts
        exact absurd (by simpa using hts : S = s).symm hs
      · rw [if_neg htT] at hts
        exact h3 t s hts

theorem scanLoop_spec (lines : List GoString) :
    ∀ st : ScanState, (∀ l ∈ lines, l ≠ ofAscii "#line") →
      0 ≤ st.targetLine → st.targetLine + (lines.length : Nat) ≤ maxInt →
      Inverse st.sourceLineMap st.targetLineMap st.targetLine →
      ∃ st1, scanLoop lines st = some st1 ∧
        st1.sourceLine = runSource st.sourceLine lines ∧
        st1.targetLine = st.targetLine + (lines.length : Nat) ∧
        Inverse st1.sourceLineMap st1.targetLineMap st1.targetLine ∧
        (∀ x, x < st.targetLine → mapFind st1.sourceLineMap x = mapFind st.sourceLineMap x) ∧
        (∀ (j : Nat) (l : GoString), lines[j]? = some l →
          mapFind st1.sourceLineMap (st.targetLine + (j : Nat)) =
            if HasPrefix l (ofAscii "#line") = false ∧
                0 ≤ runSource st.sourceLine (lines.take j) then
              some (runSource st.sourceLine (lines.take j))
            else none) := by
  have hM := maxInt_eq
  have hm := minInt_eq
  induction lines with
  | nil =>
    intro st _ _ _ hinv
    exact ⟨st, rfl, rfl, by simp, hinv, fun _ _ => rfl, fun j l h => by simp at h⟩
  | cons l rest ih =>
    intro st hne ht0 htb hinv
    simp only [List.length_cons, Nat.cast_add, Nat.cast_one] at htb
    obtain ⟨st1, hstep, hsrc, htl, hmaps⟩ := scanStep_spec st l (hne l (by simp))
    rw [wrapInt_eq _ (by omega) (by omega)] at htl
    have hinv1 : Inverse st1.sourceLineMap st1.targetLineMap st1.targetLine := by
      rcases hmaps with ⟨_, _, hsm, htm⟩ | ⟨_, hsm, htm⟩
      · rw [hsm, htm, htl]; exact Inverse_set hinv _
      · rw [hsm, htm, htl]; exact Inverse_mono hinv (by omega)
    have hhead : mapFind st1.sourceLineMap st.targetLine =
        if HasPrefix l (ofAscii "#line") = false ∧ 0 ≤ st.sourceLine then some st.sourceLine
        else none := by
      rcases hmaps with ⟨hp, hs, hsm, _⟩ | ⟨hn, hsm, _⟩
      · rw [hsm, mapFind_mapSet, if_pos rfl, if_pos ⟨hp, hs⟩]
      · rw [hsm, if_neg hn]; exact hinv.1 _ (le_refl _)
    have hlow : ∀ x, x < st.targetLine →
        mapFind st1.sourceLineMap x = mapFind st.sourceLineMap x := by
      intro x hx
      rcases hmaps with ⟨_, _, hsm, _⟩ | ⟨_, hsm, _⟩
      · rw [hsm, mapFind_mapSet, if_neg (by omega)]
      · rw [hsm]
    obtain ⟨st2, hloop, hsrc2, htl2, hinv2, hlow2, hat2⟩ :=
      ih st1 (fun x hx => hne x (by simp [hx])) (by rw [htl]; omega) (by rw [htl]; omega) hinv1
    refine ⟨st2, by simp only [scanLoop, hstep, hloop], ?_, ?_, hinv2, fun x hx => ?_,
      fun j lj hj => ?_⟩
    · rw [hsrc2, hsrc]; rfl
    · rw [htl2, htl]; simp only [List.length_cons]; push_cast; omega
    · rw [hlow2 x (by omega), hlow x hx]
    · cases j with
      | zero =>
        simp only [List.getElem?_cons_zero, Option.some.injEq] at hj
        subst hj
        simp only [Nat.cast_zero, add_zero, List.take_zero, runSource]
        rw [hlow2 _ (by omega), hhead]
      | succ j =>
        simp only [List.getElem?_cons_succ] at hj
        have := hat2 j lj hj
        rw [htl, hsrc] at this
        simp only [List.take_succ_cons, runSource]
        rw [← this]
        congr 1
        push_cast; omega

theorem createSourceMaps_spec (lines : List GoString)
    (hne : ∀ l ∈ lines, l ≠ ofAscii "#line")
    (hlen : ((lines.length : Nat) : Int) ≤ maxInt) :
    ∃ st, scanLoop lines ⟨-1, 0, [], []⟩ = some st ∧
      createSourceMaps lines
        = some (mapSet st.sourceLineMap st.targetLine st.sourceLine,
                mapSet st.targetLineMap st.sourceLine st.targetLine) ∧
      st.sourceLine = runSource (-1) lines ∧
      st.targetLine = (lines.length : Nat) ∧
      Inverse (mapSet st.sourceLineMap st.targetLine st.sourceLine)
        (mapSet st.targetLineMap st.sourceLine st.targetLine) (st.targetLine + 1) ∧
      (∀ (j : Nat) (l : GoString), lines[j]? = some l →
        mapFind (mapSet st.sourceLineMap st.targetLine st.sourceLine) (j : Nat) =
          if HasPrefix l (ofAscii "#line") = false ∧ 0 ≤ runSource (-1) (lines.take j) then
            some (runSource (-1) (lines.take j))
          else none) := by
  have hinit : Inverse ([] : IntMap) ([] : IntMap) 0 :=
    ⟨fun _ _ => rfl, fun s t h => by simp [mapFind] at h, fun t s h => by simp [mapFind] at h⟩
  obtain ⟨st, hloop, hsrc, htl, hinv, -, hat⟩ :=
    scanLoop_spec lines ⟨-1, 0, [], []⟩ hne (le_refl _) (by simpa using hlen) hinit
  simp only [zero_add] at htl hat
  refine ⟨st, hloop, by simp only [createSourceMaps, hloop], hsrc, htl, Inverse_set hinv _,
    fun j l hj => ?_⟩
  have hlt : j < lines.length := by
    by_contra hge
    rw [List.getElem?_eq_none (by omega)] at hj
    simp at hj
  rw [mapFind_mapSet, if_neg (by rw [htl]; omega)]
  exact hat j l hj

/-! ## The running source line -/

theorem directiveNumber_pos (l : GoString) (N : Int) (h : directiveNumber l = some N) :
    0 < N := by
  simp only [directiveNumber] at h
  split_ifs at h
  split at h
  · simp at h
  · split at h
    · split_ifs at h with hpos
      simp only [Option.some.injEq] at h
      omega
    · simp at h

theorem directiveNumber_hasPrefix (l : GoString) (N : Int) (h : directiveNumber l = some N) :
    HasPrefix l (ofAscii "#line") = true := by
  by_contra hp
  simp [directiveNumber, hp] at h

theorem stepSource_plain (src : Int) (l : GoString)
    (hp : HasPrefix l (ofAscii "#line") = false) :
    stepSource src l = if 0 ≤ src then wrapInt (src + 1) else src := by
  simp [stepSource, hp]

theorem stepSource_valid (src : Int) (l : GoString) (N : Int)
    (h : directiveNumber l = some N) : stepSource src l = N - 1 := by
  simp [stepSource, directiveNumber_hasPrefix l N h, h]

theorem stepSource_invalid (src : Int) (l : GoString)
    (hp : HasPrefix l (ofAscii "#line") = true) (h : directiveNumber l = none) :
    stepSource src l = src := by
  simp [stepSource, hp, h]

theorem runSource_append (a b : List GoString) :
    ∀ src : Int, runSource src (a ++ b) = runSource (runSource src a) b := by
  induction a with
  | nil => intro src; rfl
  | cons l rest ih => intro src; exact ih (stepSource src l)

theorem runSource_no_directive (lines : List GoString) :
    ∀ src : Int, (∀ l ∈ lines, directiveNumber l = none) →
      (0 ≤ src → src + (countPlain lines : Nat) ≤ maxInt) →
      runSource src lines = if 0 ≤ src then src + (countPlain lines : Nat) else src := by
  have hM := maxInt_eq
  have hm := minInt_eq
  induction lines with
  | nil => intro src _ _; simp [runSource, countPlain]
  | cons l rest ih =>
    intro src h hfit
    have hl := h l (by simp)
    simp only [runSource]
    by_cases hp : HasPrefix l (ofAscii "#line") = true
    · have hc : countPlain (l :: rest) = countPlain rest := by
        simp [countPlain, List.countP_cons, hp]
      rw [hc] at hfit ⊢
      rw [stepSource_invalid src l hp hl]
      exact ih _ (fun x hx => h x (by simp [hx])) hfit
    · have hp : HasPrefix l (ofAscii "#line") = false := by simpa using hp
      have hc : countPlain (l :: rest) = countPlain rest + 1 := by
        simp [countPlain, List.countP_cons, hp]
      rw [hc] at hfit ⊢
      rw [stepSource_plain src l hp]
      by_cases hs : 0 ≤ src
      · have hb := hfit hs
        push_cast at hb
        rw [if_pos hs, if_pos hs, wrapInt_eq _ (by omega) (by omega),
          ih _ (fun x hx => h x (by simp [hx])) (fun _ => by omega), if_pos (by omega)]
        push_cast; omega
      · rw [if_neg hs, if_neg hs,
          ih _ (fun x hx => h x (by simp [hx])) (fun h0 => absurd h0 hs), if_neg hs]

/-- Among the lines before line `t`, a valid directive is followed by a last one. -/
theorem exists_last_directive (lines : List GoString) (t : Nat) :
    (∃ d ld, d < t ∧ lines[d]? = some ld ∧ directiveNumber ld ≠ none) →
    ∃ d ld N, d < t ∧ lines[d]? = some ld ∧ directiveNumber ld = some N ∧
      ∀ j l, d < j → j < t → lines[j]? = some l → directiveNumber l = none := by
  induction t with
  | zero => rintro ⟨d, _, hd, _⟩; omega
  | succ t ih =>
    rintro ⟨d0, ld0, hd0, hget0, hvalid0⟩
    by_cases ht : ∃ lt N, lines[t]? = some lt ∧ directiveNumber lt = some N
    · obtain ⟨lt, N, hget, hN⟩ := ht
      exact ⟨t, lt, N, by omega, hget, hN, fun j l hj1 hj2 _ => by omega⟩
    · have hd0t : d0 < t := by
        rcases Nat.lt_or_ge d0 t with h | h
        · exact h
        · have hdt : d0 = t := by omega
          subst hdt
          cases hN : directiveNumber ld0 with
          | none => exact absurd hN hvalid0
          | some N => exact absurd ⟨ld0, N, hget0, hN⟩ ht
      obtain ⟨d, ld, N, hd, hget, hN, hlast⟩ := ih ⟨d0, ld0, hd0t, hget0, hvalid0⟩
      refine ⟨d, ld, N, by omega, hget, hN, fun j l hj1 hj2 hgetj => ?_⟩
      rcases Nat.lt_or_ge j t with h | h
      · exact hlast j l hj1 h hgetj
      · have hjt : j = t := by omega
        subst hjt
        cases hNj : directiveNumber l with
        | none => rfl
        | some Nj => exact absurd ⟨l, Nj, hgetj, hNj⟩ ht

theorem mem_take_iff_getElem (lines : List GoString) (t : Nat) (l : GoString) :
    l ∈ lines.take t ↔ ∃ d, d < t ∧ lines[d]? = some l := by
  constructor
  · intro h
    obtain ⟨d, hd, hget⟩ := List.mem_iff_getElem.1 h
    simp only [List.length_take] at hd
    refine ⟨d, by omega, ?_⟩
    rw [List.getElem_take] at hget
    rw [← hget]
    exact List.getElem?_eq_getElem (by omega)
  · rintro ⟨d, hd, hget⟩
    have hlt : d < lines.length := by
      by_contra hge
      rw [List.getElem?_eq_none (by omega)] at hget
      simp at hget
    rw [List.getElem?_eq_getElem hlt] at hget
    simp only [Option.some.injEq] at hget
    rw [← hget]
    exact List.mem_iff_getElem.2 ⟨d, by simp only [List.length_take]; omega,
      by rw [List.getElem_take]⟩

theorem runSource_after_directive (lines : List GoString) (t d : Nat) (ld : GoString) (N : Int)
    (hdt : d < t) (hld : lines[d]? = some ld) (hN : directiveNumber ld = some N)
    (hlast : ∀ j l, d < j → j < t → lines[j]? = some l → directiveNumber l = none)
    (hfit : N - 1 + (countPlain ((lines.take t).drop (d + 1)) : Nat) ≤ maxInt) :
    runSource (-1) (lines.take t) = N - 1 + (countPlain ((lines.take t).drop (d + 1)) : Nat) := by
  have hlt : d < lines.length := by
    by_contra hge
    rw [List.getElem?_eq_none (by omega)] at hld
    simp at hld
  have hd1 : d < (lines.take t).length := by simp only [List.length_take]; omega
  have hget : (lines.take t)[d] = ld := by
    rw [List.getElem_take]
    rw [List.getElem?_eq_getElem hlt] at hld
    simpa using hld
  have hsplit : lines.take t
      = (lines.take t).take d ++ ld :: (lines.take t).drop (d + 1) := by
    conv_lhs => rw [← List.take_append_drop d (lines.take t)]
    rw [List.drop_eq_getElem_cons hd1, hget]
  have hbetween : ∀ l ∈ (lines.take t).drop (d + 1), directiveNumber l = none := by
    intro l hl
    obtain ⟨i, hi, hgeti⟩ := List.mem_iff_getElem.1 hl
    simp only [List.length_drop, List.length_take] at hi
    rw [List.getElem_drop, List.getElem_take] at hgeti
    exact hlast (d + 1 + i) l (by omega) (by omega)
      (by rw [← hgeti]; exact List.getElem?_eq_getElem (by omega))
  have hpos := directiveNumber_pos ld N hN
  conv_lhs => rw [hsplit]
  rw [runSource_append]
  simp only [runSource]
  rw [stepSource_valid _ ld N hN, runSource_no_directive _ _ hbetween (fun _ => hfit),
    if_pos (by omega)]

theorem runSource_before_directive (lines : List GoString) (t : Nat)
    (hnone : ∀ d ld, d < t → lines[d]? = some ld → directiveNumber ld = none) :
    runSource (-1) (lines.take t) = -1 := by
  rw [runSource_no_directive _ _
    (fun l hl => by
      obtain ⟨d, hd, hget⟩ := (mem_take_iff_getElem lines t l).1 hl
      exact hnone d l hd hget)
    (fun h0 => by omega), if_neg (by omega)]

/-! ## The lines read by the scanner -/

theorem scanLinesFrom_line (l rest : GoString) (hl : NL ∉ l) :
    ∀ cur : GoString, scanLinesFrom (l ++ NL :: rest) cur =
      if (cur ++ l).length < MaxScanTokenSize then dropCR (cur ++ l) :: scanLinesFrom rest []
      else [] := by
  induction l with
  | nil =>
    intro cur
    simp only [List.nil_append, List.append_nil, scanLinesFrom, if_true]
  | cons b l ih =>
    intro cur
    have hb : ¬ b = NL := fun h => hl (by simp [h])
    have hl1 : NL ∉ l := fun h => hl (by simp [h])
    simp only [List.cons_append, scanLinesFrom, if_neg hb]
    have h := ih hl1 (cur ++ [b])
    simp only [List.append_assoc, List.singleton_append] at h
    exact h

/-- A text all of whose lines are shorter than `MaxScanTokenSize` is read line by line, each
line without its trailing carriage return. -/
theorem scanLines_joinLines (lines : List GoString)
    (h : ∀ l ∈ lines, NL ∉ l ∧ l.length < MaxScanTokenSize) :
    scanLines (joinLines lines) = lines.map dropCR := by
  unfold scanLines
  induction lines with
  | nil => rfl
  | cons l rest ih =>
    have hl := h l (by simp)
    simp only [joinLines, List.map_cons]
    rw [scanLinesFrom_line l _ hl.1 [], List.nil_append, if_pos hl.2,
      ih (fun x hx => h x (by simp [hx]))]

/-- The scanner stops at a line of `MaxScanTokenSize` bytes or more: that line and all the lines
after it are not read. -/
theorem scanLines_long_line (lines : List GoString) (l rest : GoString)
    (h : ∀ x ∈ lines, NL ∉ x ∧ x.length < MaxScanTokenSize)
    (hl : NL ∉ l) (hlong : MaxScanTokenSize ≤ l.length) :
    scanLines (joinLines lines ++ (l ++ NL :: rest)) = lines.map dropCR := by
  unfold scanLines
  induction lines with
  | nil =>
    simp only [joinLines, List.nil_append, List.map_nil]
    rw [scanLinesFrom_line l rest hl [], List.nil_append, if_neg (by omega)]
  | cons x xs ih =>
    have hx := h x (by simp)
    simp only [joinLines, List.map_cons, List.append_assoc, List.cons_append]
    rw [scanLinesFrom_line x _ hx.1 [], List.nil_append, if_pos hx.2]
    have := ih (fun y hy => h y (by simp [hy]))
    simp only [List.append_assoc] at this
    rw [this]

theorem decimalAux_length (fuel : Nat) :
    ∀ (n : Nat) (acc : GoString) (m : Nat), 1 ≤ m → n < 10 ^ m →
      (decimalAux fuel n acc).length ≤ m + acc.length := by
  induction fuel with
  | zero => intro n acc m _ _; simp only [decimalAux]; omega
  | succ fuel ih =>
    intro n acc m hm hn
    by_cases h10 : n < 10
    · simp only [decimalAux, if_pos h10, List.length_cons]; omega
    · simp only [decimalAux, if_neg h10]
      cases m with
      | zero => omega
      | succ m =>
        have hm1 : 1 ≤ m := by
          rcases Nat.eq_zero_or_pos m with h0 | h0
          · subst h0; simp at hn; omega
          · exact h0
        have hdiv : n / 10 < 10 ^ m := by
          rw [Nat.div_lt_iff_lt_mul (by decide)]
          rw [pow_succ] at hn
          exact hn
        have := ih (n / 10) ((48 + n % 10) :: acc) m hm1 hdiv
        simp only [List.length_cons] at this
        omega

theorem decimal_length (n : Nat) (h : n < 2 ^ 63) : (decimal n).length ≤ 19 := by
  have := decimalAux_length (n + 1) n [] 19 (by decide) (by
    have : (2 : Nat) ^ 63 < 10 ^ 19 := by norm_num
    omega)
  simpa [decimal] using this

theorem dropCR_plain (l pre : GoString) (h : HasPrefix l pre = false) :
    HasPrefix (dropCR l) pre = false := by
  unfold dropCR
  split_ifs
  · by_contra hc
    have hc1 : HasPrefix l.dropLast pre = true := by simpa using hc
    simp only [HasPrefix, List.isPrefixOf_iff_prefix] at hc1
    have : pre <+: l := hc1.trans (List.dropLast_prefix l)
    have h2 : HasPrefix l pre = true := by
      simp only [HasPrefix, List.isPrefixOf_iff_prefix]; exact this
    rw [h] at h2
    exact absurd h2 (by decide)
  · exact h

theorem dropCR_directive (k : Nat) :
    dropCR (ofAscii "#line " ++ decimal k) = ofAscii "#line " ++ decimal k := by
  unfold dropCR
  rw [if_neg]
  intro h
  rw [List.getLast?_append_of_ne_nil _ (decimal_ne_nil k)] at h
  have hmem : 13 ∈ decimal k := List.mem_of_getLast?_eq_some h
  have := decimal_digits k 13 hmem
  omega

/-- The lines read from the text made of the directive `#line k` and the lines `plains`, each
followed by a line break, when no line contains a line break and each has fewer than
`MaxScanTokenSize` bytes: the directive and the lines, without their trailing carriage
returns. -/
theorem scanLines_directive_document (k : Nat) (plains : List GoString) (hk64 : k < 2 ^ 63)
    (h : ∀ l ∈ plains, NL ∉ l ∧ l.length < MaxScanTokenSize) :
    scanLines (joinLines ((ofAscii "#line " ++ decimal k) :: plains))
      = (ofAscii "#line " ++ decimal k) :: plains.map dropCR := by
  have hlit : ofAscii "#line " = [35, 108, 105, 110, 101, 32] := by decide
  rw [scanLines_joinLines _ (fun l hl => by
    rcases List.mem_cons.1 hl with rfl | hl
    · constructor
      · intro hmem
        rcases List.mem_append.1 hmem with h1 | h1
        · rw [hlit] at h1; revert h1; decide
        · have := decimal_digits k 10 h1; omega
      · have := decimal_length k hk64
        rw [List.length_append, hlit]
        simp only [List.length_cons, List.length_nil, MaxScanTokenSize]
        omega
    · exact h l hl)]
  simp only [List.map_cons, dropCR_directive]

/-! ## The claims about the maps `createSourceMaps` returns -/

/-- Claim C11 as stated fails on the code: in the target text made of the directive
`#line 9223372036854775807` and the plain lines `a`, `b`, `c`, line 3 does not start with
`#line` and follows a valid directive, yet 3 is not a key of `sourceLineMap`: the running source
line wrapped around to `-2^63` after line 2, and a negative running source line maps
nothing. -/
theorem createSourceMaps_source_line_wraps :
    scanLines (ofAscii "#line 9223372036854775807\na\nb\nc\n")
      = [ofAscii "#line 9223372036854775807", ofAscii "a", ofAscii "b", ofAscii "c"] ∧
    directiveNumber (ofAscii "#line 9223372036854775807") = some 9223372036854775807 ∧
    HasPrefix (ofAscii "c") (ofAscii "#line") = false ∧
    createSourceMaps (scanLines (ofAscii "#line 9223372036854775807\na\nb\nc\n"))
      = some ([(4, -9223372036854775808), (2, 9223372036854775807), (1, 9223372036854775806)],
              [(-9223372036854775808, 4), (9223372036854775807, 2),
                (9223372036854775806, 1)]) ∧
    mapFind [(4, -9223372036854775808), (2, 9223372036854775807), (1, 9223372036854775806)] 3
      = none := by
  decide

/-- Claim C11 as amended: for every target text from which `createSourceMaps` reads the lines
`l_0 .. l_(n-1)`, with `n < 2^63` and none of the lines exactly `#line`, the function returns
maps such that for every `t < n`:
when no source line number `(N - 1) + count` as below exceeds `2^63 - 1`, `t` is a key of
`sourceLineMap` if and only if `l_t` does not start with `#line` and some earlier line is a
valid directive; and if `l_t` does not start with `#line`, `d` is the last valid directive
before `t`, `N` its number and `(N - 1) + count ≤ 2^63 - 1`, where `count` is the number of lines
not starting with `#line` strictly between `d` and `t`, then
`sourceLineMap[t] = (N - 1) + count`. -/
theorem createSourceMaps_sourceLineMap (text : GoString) (lines : List GoString)
    (hscan : scanLines text = lines)
    (hne : ∀ l ∈ lines, l ≠ ofAscii "#line")
    (hlen : ((lines.length : Nat) : Int) ≤ maxInt) :
    ∃ sm tm, createSourceMaps (scanLines text) = some (sm, tm) ∧
      ∀ (t : Nat) (lt : GoString), lines[t]? = some lt →
        ((∀ (d : Nat) (ld : GoString) (N : Int), d < t → lines[d]? = some ld →
            directiveNumber ld = some N →
            (∀ j l, d < j → j < t → lines[j]? = some l → directiveNumber l = none) →
            N - 1 + (countPlain ((lines.take t).drop (d + 1)) : Nat) ≤ maxInt) →
          (mapFind sm (t : Nat) ≠ none ↔
            (HasPrefix lt (ofAscii "#line") = false ∧
              ∃ d ld, d < t ∧ lines[d]? = some ld ∧ directiveNumber ld ≠ none))) ∧
        (HasPrefix lt (ofAscii "#line") = false →
          ∀ (d : Nat) (ld : GoString) (N : Int), d < t → lines[d]? = some ld →
            directiveNumber ld = some N →
            (∀ j l, d < j → j < t → lines[j]? = some l → directiveNumber l = none) →
            N - 1 + (countPlain ((lines.take t).drop (d + 1)) : Nat) ≤ maxInt →
            mapFind sm (t : Nat)
              = some (N - 1 + (countPlain ((lines.take t).drop (d + 1)) : Nat))) := by
  subst hscan
  obtain ⟨st, -, hcreate, -, -, -, hat⟩ := createSourceMaps_spec (scanLines text) hne hlen
  refine ⟨_, _, hcreate, fun t lt hlt =>
    ⟨fun hfit => ?_, fun hp d ld N hdt hld hN hlast hfit => ?_⟩⟩
  · rw [hat t lt hlt]
    constructor
    · intro h
      by_cases hc : HasPrefix lt (ofAscii "#line") = false ∧
          0 ≤ runSource (-1) ((scanLines text).take t)
      · refine ⟨hc.1, ?_⟩
        by_contra hnone
        have hrun := runSource_before_directive (scanLines text) t (fun d ld hd hget => by
          by_contra hv
          exact hnone ⟨d, ld, hd, hget, hv⟩)
        have := hc.2
        omega
      · rw [if_neg hc] at h
        exact absurd rfl h
    · rintro ⟨hp, hex⟩
      obtain ⟨d, ld, N, hd, hget, hN, hlast⟩ := exists_last_directive (scanLines text) t hex
      have hval := runSource_after_directive (scanLines text) t d ld N hd hget hN hlast
        (hfit d ld N hd hget hN hlast)
      have hpos := directiveNumber_pos ld N hN
      rw [if_pos ⟨hp, by rw [hval]; omega⟩]
      simp
  · have hval := runSource_after_directive (scanLines text) t d ld N hdt hld hN hlast hfit
    have hpos := directiveNumber_pos ld N hN
    rw [hat t lt hlt, if_pos ⟨hp, by rw [hval]; omega⟩, hval]

/-- Claim C11 as amended on a document whose plain line 0 precedes every directive, whose
directive `#line 3 "a.ino"` is followed by the plain line 2, the malformed directive `#line x`
and the plain line 4: the map has the keys 2 and 4 (and the sentinel 5) only. -/
theorem createSourceMaps_sourceLineMap_witness :
    createSourceMaps (scanLines (ofAscii "x\n#line 3 \"a.ino\"\na\n#line x\nb\n"))
      = some ([(5, 4), (4, 3), (2, 2)], [(4, 5), (3, 4), (2, 2)]) ∧
    ∃ sm tm, createSourceMaps (scanLines (ofAscii "x\n#line 3 \"a.ino\"\na\n#line x\nb\n"))
        = some (sm, tm) ∧
      ∀ (t : Nat) (lt : GoString),
        [ofAscii "x", ofAscii "#line 3 \"a.ino\"", ofAscii "a", ofAscii "#line x",
          ofAscii "b"][t]? = some lt →
        ((∀ (d : Nat) (ld : GoString) (N : Int), d < t →
            [ofAscii "x", ofAscii "#line 3 \"a.ino\"", ofAscii "a", ofAscii "#line x",
              ofAscii "b"][d]? = some ld →
            directiveNumber ld = some N →
            (∀ j l, d < j → j < t →
              [ofAscii "x", ofAscii "#line 3 \"a.ino\"", ofAscii "a", ofAscii "#line x",
                ofAscii "b"][j]? = some l → directiveNumber l = none) →
            N - 1 + (countPlain (([ofAscii "x", ofAscii "#line 3 \"a.ino\"",
                ofAscii "a", ofAscii "#line x", ofAscii "b"].take t).drop (d + 1)) : Nat)
              ≤ maxInt) →
          (mapFind sm (t : Nat) ≠ none ↔
            (HasPrefix lt (ofAscii "#line") = false ∧
              ∃ d ld, d < t ∧
                [ofAscii "x", ofAscii "#line 3 \"a.ino\"", ofAscii "a", ofAscii "#line x",
                  ofAscii "b"][d]? = some ld ∧ directiveNumber ld ≠ none))) ∧
        (HasPrefix lt (ofAscii "#line") = false →
          ∀ (d : Nat) (ld : GoString) (N : Int), d < t →
            [ofAscii "x", ofAscii "#line 3 \"a.ino\"", ofAscii "a", ofAscii "#line x",
              ofAscii "b"][d]? = some ld →
            directiveNumber ld = some N →
            (∀ j l, d < j → j < t →
              [ofAscii "x", ofAscii "#line 3 \"a.ino\"", ofAscii "a", ofAscii "#line x",
                ofAscii "b"][j]? = some l → directiveNumber l = none) →
            N - 1 + (countPlain (([ofAscii "x", ofAscii "#line 3 \"a.ino\"",
                ofAscii "a", ofAscii "#line x", ofAscii "b"].take t).drop (d + 1)) : Nat)
              ≤ maxInt →
            mapFind sm (t : Nat)
              = some (N - 1 + (countPlain (([ofAscii "x", ofAscii "#line 3 \"a.ino\"",
                  ofAscii "a", ofAscii "#line x", ofAscii "b"].take t).drop (d + 1)) : Nat))) :=
  ⟨by decide,
    createSourceMaps_sourceLineMap (ofAscii "x\n#line 3 \"a.ino\"\na\n#line x\nb\n")
      [ofAscii "x", ofAscii "#line 3 \"a.ino\"", ofAscii "a", ofAscii "#line x", ofAscii "b"]
      (by decide) (by decide) (by decide)⟩

/-- What holds of claim C12: the sentinel pair of the maps returned for lines none of which is
exactly `#line`, fewer than `2^63` of them.  With `n` the number of lines read and `S` the
final value of the running source line, `sourceLineMap[n] = S` and `targetLineMap[S] = n`; `n`
is the greatest key of `sourceLineMap`; and when no line is a valid directive the pair is
`(n, -1)`. -/
theorem createSourceMaps_sentinel (lines : List GoString)
    (hne : ∀ l ∈ lines, l ≠ ofAscii "#line")
    (hlen : ((lines.length : Nat) : Int) ≤ maxInt) :
    ∃ st sm tm, scanLoop lines ⟨-1, 0, [], []⟩ = some st ∧
      createSourceMaps lines = some (sm, tm) ∧
      st.targetLine = (lines.length : Nat) ∧
      mapFind sm (lines.length : Nat) = some st.sourceLine ∧
      mapFind tm st.sourceLine = some ((lines.length : Nat) : Int) ∧
      (∀ x, mapFind sm x ≠ none → x ≤ ((lines.length : Nat) : Int)) ∧
      ((∀ l ∈ lines, directiveNumber l = none) → st.sourceLine = -1) := by
  obtain ⟨st, hloop, hcreate, hsrc, htl, hinv, -⟩ := createSourceMaps_spec lines hne hlen
  refine ⟨st, _, _, hloop, hcreate, htl, ?_, ?_, fun x hx => ?_, fun hnone => ?_⟩
  · rw [← htl, mapFind_mapSet, if_pos rfl]
  · rw [← htl, mapFind_mapSet, if_pos rfl]
  · by_contra hgt
    exact hx (hinv.1 x (by omega))
  · rw [hsrc, runSource_no_directive lines (-1) hnone (fun h0 => by omega), if_neg (by omega)]

/-- What fails of claim C12 besides: a line of 64 KiB or more cuts the maps short.  After the
lines `#line 4` and `a`, a line of `MaxScanTokenSize` bytes or more and all the text that
follows it leave the maps as they are for the two lines alone, with the sentinel at target
line 2. -/
theorem createSourceMaps_long_line (l rest : GoString)
    (hl : NL ∉ l) (hlong : MaxScanTokenSize ≤ l.length) :
    createSourceMaps (scanLines (ofAscii "#line 4\na\n" ++ (l ++ NL :: rest)))
      = some ([(2, 4), (1, 3)], [(4, 2), (3, 1)]) := by
  have hjoin : ofAscii "#line 4\na\n" = joinLines [ofAscii "#line 4", ofAscii "a"] := by decide
  rw [hjoin, scanLines_long_line _ l rest (by decide) hl hlong]
  decide

/-- Claim C12 fails on the code: the target text `"a\n#line\n"` has two lines and no valid
directive, a case for which the claim promises the sentinel pair; its second line is exactly
`#line`, on which the slice `lineStr[6:]` is out of bounds, so `createSourceMaps` panics and
returns no maps at all, hence no sentinel pair. -/
theorem createSourceMaps_sentinel_missing :
    scanLines (ofAscii "a\n#line\n") = [ofAscii "a", ofAscii "#line"] ∧
    (∀ l ∈ scanLines (ofAscii "a\n#line\n"), directiveNumber l = none) ∧
    scanStep ⟨-1, 1, [], []⟩ (ofAscii "#line") = none ∧
    createSourceMaps (scanLines (ofAscii "a\n#line\n")) = none := by
  decide

/-- What holds of claim C13: the inverse relation between the maps returned for lines none of
which is exactly `#line`, fewer than `2^63` of them.  The keys of `targetLineMap` are exactly
the values of `sourceLineMap`, and for every key `s`, `targetLineMap[s]` is the greatest target
line `t` with `sourceLineMap[t] = s`. -/
theorem createSourceMaps_targetLineMap (lines : List GoString)
    (hne : ∀ l ∈ lines, l ≠ ofAscii "#line")
    (hlen : ((lines.length : Nat) : Int) ≤ maxInt) :
    ∃ sm tm, createSourceMaps lines = some (sm, tm) ∧
      (∀ s, mapFind tm s ≠ none ↔ ∃ t, mapFind sm t = some s) ∧
      (∀ s t, mapFind tm s = some t →
        mapFind sm t = some s ∧ ∀ t1, mapFind sm t1 = some s → t1 ≤ t) := by
  obtain ⟨st, -, hcreate, -, -, hinv, -⟩ := createSourceMaps_spec lines hne hlen
  refine ⟨_, _, hcreate, fun s => ⟨fun h => ?_, fun h => ?_⟩, hinv.2.1⟩
  · cases hf : mapFind (mapSet st.targetLineMap st.sourceLine st.targetLine) s with
    | none => exact absurd hf h
    | some t => exact ⟨t, (hinv.2.1 s t hf).1⟩
  · obtain ⟨t, ht⟩ := h
    exact hinv.2.2 t s ht

/-- Claim C13 fails on the code: the target text `"#line 1\np\n#line 1\na\n#line\n"` rewinds
to source line 0, the case the claim names, and ends with a line that is exactly `#line`; on
that line the slice `lineStr[6:]` is out of bounds, so `createSourceMaps` panics and returns no
`targetLineMap`, although up to that line the two maps are inverse to each other. -/
theorem createSourceMaps_inverse_missing :
    scanLines (ofAscii "#line 1\np\n#line 1\na\n#line\n")
      = [ofAscii "#line 1", ofAscii "p", ofAscii "#line 1", ofAscii "a", ofAscii "#line"] ∧
    scanLoop [ofAscii "#line 1", ofAscii "p", ofAscii "#line 1", ofAscii "a"] ⟨-1, 0, [], []⟩
      = some ⟨1, 4, [(3, 0), (1, 0)], [(0, 3)]⟩ ∧
    scanStep ⟨1, 4, [(3, 0), (1, 0)], [(0, 3)]⟩ (ofAscii "#line") = none ∧
    createSourceMaps (scanLines (ofAscii "#line 1\np\n#line 1\na\n#line\n")) = none := by
  decide

/-- Claim C14 fails on the code: the target text `"#line\n"` has the single line `#line`, which
starts with `#line` and has only five bytes, so the slice `lineStr[6:]` is out of bounds and
`createSourceMaps` panics instead of skipping the malformed directive; the same happens when
such a line follows other lines. -/
theorem createSourceMaps_bare_directive_panics :
    scanLines (ofAscii "#line\n") = [ofAscii "#line"] ∧
    HasPrefix (ofAscii "#line") (ofAscii "#line") = true ∧
    sliceFrom (ofAscii "#line") 6 = none ∧
    createSourceMaps (scanLines (ofAscii "#line\n")) = none ∧
    createSourceMaps (scanLines (ofAscii "#line 1\na\n#line\nb\n")) = none := by
  decide

/-- A malformed directive that can be sliced is skipped: a line of at least six bytes that
starts with `#line` and declares no positive number only advances the target line. -/
theorem scanStep_malformed_skipped (st : ScanState) (l : GoString)
    (hp : HasPrefix l (ofAscii "#line") = true) (hlen : 6 ≤ l.length)
    (hbad : directiveNumber l = none) :
    scanStep st l = some { st with targetLine := wrapInt (st.targetLine + 1) } := by
  rw [scanStep_directive_line st l hp hlen, stepSource_invalid st.sourceLine l hp hbad]

/-! ## Maps as lists of entries -/

theorem mapFind_mapDelete (m : IntMap) (k x : Int) :
    mapFind (mapDelete m k) x = if x = k then none else mapFind m x := by
  by_cases h : x = k
  · subst h
    rw [if_pos rfl]
    simp only [mapFind, mapDelete, List.lookup_eq_none_iff, List.mem_filter]
    rintro ⟨a, b⟩ ⟨_, hp⟩
    simp only [ne_eq, decide_not, Bool.not_eq_true', decide_eq_false_iff_not] at hp
    simpa using fun hx => hp hx.symm
  · rw [if_neg h]
    exact lookup_filter_ne m k x h

theorem mem_mapSet_iff (m : IntMap) (k v : Int) (p : Int × Int) :
    p ∈ mapSet m k v ↔ p = (k, v) ∨ (p ∈ m ∧ p.1 ≠ k) := by
  simp [mapSet, List.mem_filter]

theorem mem_mapDelete_iff (m : IntMap) (k : Int) (p : Int × Int) :
    p ∈ mapDelete m k ↔ p ∈ m ∧ p.1 ≠ k := by
  simp [mapDelete, List.mem_filter]

theorem keysNodup_mapDelete (m : IntMap) (k : Int) (h : KeysNodup m) :
    KeysNodup (mapDelete m k) :=
  List.Nodup.sublist (List.Sublist.map Prod.fst (List.filter_sublist m)) h

theorem keysNodup_mapSet (m : IntMap) (k v : Int) (h : KeysNodup m) :
    KeysNodup (mapSet m k v) := by
  have hd := keysNodup_mapDelete m k h
  simp only [KeysNodup, mapSet, List.map_cons, List.nodup_cons]
  refine ⟨?_, hd⟩
  simp only [List.mem_map, List.mem_filter, not_exists, not_and]
  rintro ⟨a, b⟩ ⟨_, hp⟩ hk
  simp only [ne_eq, decide_not, Bool.not_eq_true', decide_eq_false_iff_not] at hp
  exact hp hk

theorem keysNodup_nil : KeysNodup ([] : IntMap) := by
  simp [KeysNodup]

theorem mem_of_mapFind (m : IntMap) (x v : Int) (h : mapFind m x = some v) : (x, v) ∈ m := by
  induction m with
  | nil => simp [mapFind] at h
  | cons p rest ih =>
    obtain ⟨a, b⟩ := p
    simp only [mapFind, List.lookup_cons] at h
    by_cases hxa : x = a
    · subst hxa
      simp only [beq_self_eq_true, Option.some.injEq] at h
      subst h
      simp
    · have hne : (x == a) = false := by simpa using hxa
      simp only [hne] at h
      exact List.mem_cons_of_mem _ (ih h)

theorem mapFind_isSome_of_mem (m : IntMap) (x v : Int) (h : (x, v) ∈ m) :
    ∃ v1, mapFind m x = some v1 := by
  cases hf : mapFind m x with
  | some v1 => exact ⟨v1, rfl⟩
  | none =>
    simp only [mapFind, List.lookup_eq_none_iff] at hf
    have := hf (x, v) h
    simp at this

theorem mapFind_of_mem (m : IntMap) (x v : Int) (hm : KeysNodup m) (h : (x, v) ∈ m) :
    mapFind m x = some v := by
  induction m with
  | nil => simp at h
  | cons p rest ih =>
    obtain ⟨a, b⟩ := p
    simp only [KeysNodup, List.map_cons, List.nodup_cons] at hm
    simp only [mapFind, List.lookup_cons]
    rcases List.mem_cons.1 h with heq | hrest
    · simp only [Prod.mk.injEq] at heq
      obtain ⟨rfl, rfl⟩ := heq
      simp
    · have hxa : x ≠ a := by
        rintro rfl
        exact hm.1 (List.mem_map.2 ⟨(x, v), hrest, rfl⟩)
      have hne : (x == a) = false := by simpa using hxa
      simp only [hne]
      exact ih hm.2 hrest

theorem mem_iff_mapFind (m : IntMap) (hm : KeysNodup m) (x v : Int) :
    (x, v) ∈ m ↔ mapFind m x = some v :=
  ⟨mapFind_of_mem m x v hm, mem_of_mapFind m x v⟩

theorem valid_mem_iff {ord : RangeOrder} (hord : ord.Valid) (n : Nat) (m : IntMap)
    (p : Int × Int) : p ∈ ord n m ↔ p ∈ m :=
  (hord n m).mem_iff

theorem listOrder_valid : listOrder.Valid := fun _ m => List.Perm.refl m

theorem reverseOrder_valid : reverseOrder.Valid := fun _ m => List.reverse_perm m

/-! ## The two loops of `copyMappings` -/

theorem copyFirst_source_other (it : List (Int × Int)) (x : Int) :
    ∀ sm tm : IntMap, (∀ p ∈ it, p.1 ≠ x) →
      mapFind (copyFirst it sm tm).1 x = mapFind sm x := by
  induction it with
  | nil => intro sm tm _; rfl
  | cons p rest ih =>
    intro sm tm h
    obtain ⟨t, s⟩ := p
    have ht : x ≠ t := fun hx => h (t, s) (by simp) hx.symm
    simp only [copyFirst]
    rw [ih _ _ (fun q hq => h q (by simp [hq])), mapFind_mapSet, if_neg ht]

theorem copyFirst_source_key (it : List (Int × Int)) (x : Int) :
    ∀ sm tm : IntMap, (∃ p ∈ it, p.1 = x) →
      ∃ v, (x, v) ∈ it ∧ mapFind (copyFirst it sm tm).1 x = some v := by
  induction it with
  | nil => intro sm tm h; simp at h
  | cons p rest ih =>
    intro sm tm h
    obtain ⟨t, s⟩ := p
    simp only [copyFirst]
    by_cases hrest : ∃ q ∈ rest, q.1 = x
    · obtain ⟨v, hv, hf⟩ := ih (mapSet sm t s) (mapSet tm s t) hrest
      exact ⟨v, by simp [hv], hf⟩
    · have hnot : ∀ q ∈ rest, q.1 ≠ x := fun q hq hx => hrest ⟨q, hq, hx⟩
      obtain ⟨q, hq, hqx⟩ := h
      rcases List.mem_cons.1 hq with rfl | hq
      · simp only at hqx
        subst hqx
        refine ⟨s, by simp, ?_⟩
        rw [copyFirst_source_other rest _ _ _ hnot, mapFind_mapSet, if_pos rfl]
      · exact absurd hqx (hnot q hq)

theorem copyFirst_target_other (it : List (Int × Int)) (y : Int) :
    ∀ sm tm : IntMap, (∀ p ∈ it, p.2 ≠ y) →
      mapFind (copyFirst it sm tm).2 y = mapFind tm y := by
  induction it with
  | nil => intro sm tm _; rfl
  | cons p rest ih =>
    intro sm tm h
    obtain ⟨t, s⟩ := p
    have hs : y ≠ s := fun hy => h (t, s) (by simp) hy.symm
    simp only [copyFirst]
    rw [ih _ _ (fun q hq => h q (by simp [hq])), mapFind_mapSet, if_neg hs]

theorem copyFirst_target_value (it : List (Int × Int)) (y : Int) :
    ∀ sm tm : IntMap, (∃ p ∈ it, p.2 = y) →
      ∃ t, (t, y) ∈ it ∧ mapFind (copyFirst it sm tm).2 y = some t := by
  induction it with
  | nil => intro sm tm h; simp at h
  | cons p rest ih =>
    intro sm tm h
    obtain ⟨t, s⟩ := p
    simp only [copyFirst]
    by_cases hrest : ∃ q ∈ rest, q.2 = y
    · obtain ⟨t1, ht1, hf⟩ := ih (mapSet sm t s) (mapSet tm s t) hrest
      exact ⟨t1, by simp [ht1], hf⟩
    · have hnot : ∀ q ∈ rest, q.2 ≠ y := fun q hq hy => hrest ⟨q, hq, hy⟩
      obtain ⟨q, hq, hqy⟩ := h
      rcases List.mem_cons.1 hq with rfl | hq
      · simp only at hqy
        subst hqy
        refine ⟨t, by simp, ?_⟩
        rw [copyFirst_target_other rest _ _ _ hnot, mapFind_mapSet, if_pos rfl]
      · exact absurd hqy (hnot q hq)

theorem copySecond_other (it : List (Int × Int)) (y : Int) :
    ∀ tm : IntMap, (∀ p ∈ it, p.2 ≠ y) → mapFind (copySecond it tm) y = mapFind tm y := by
  induction it with
  | nil => intro tm _; rfl
  | cons p rest ih =>
    intro tm h
    obtain ⟨t, s⟩ := p
    have hs : y ≠ s := fun hy => h (t, s) (by simp) hy.symm
    simp only [copySecond]
    rw [ih _ (fun q hq => h q (by simp [hq]))]
    split_ifs
    · rw [mapFind_mapSet, if_neg hs]
    · rfl

theorem copySecond_greatest (it : List (Int × Int)) (y : Int) :
    ∀ (tm : IntMap) (t0 : Int), mapFind tm y = some t0 →
      ∃ m, mapFind (copySecond it tm) y = some m ∧ t0 ≤ m ∧
        (∀ t, (t, y) ∈ it → t ≤ m) ∧ (m = t0 ∨ (m, y) ∈ it) := by
  induction it with
  | nil =>
    intro tm t0 h
    exact ⟨t0, h, le_refl _, fun t ht => by simp at ht, Or.inl rfl⟩
  | cons p rest ih =>
    intro tm t0 h
    obtain ⟨t, s⟩ := p
    simp only [copySecond]
    by_cases hs : s = y
    · subst hs
      have hget : mapGet tm s = t0 := by simp [mapGet, h]
      by_cases hgt : t > mapGet tm s
      · rw [if_pos hgt]
        obtain ⟨m, hm, hle, hall, hor⟩ :=
          ih (mapSet tm s t) t (by rw [mapFind_mapSet, if_pos rfl])
        refine ⟨m, hm, by omega, fun t1 ht1 => ?_, ?_⟩
        · rcases List.mem_cons.1 ht1 with heq | hmem
          · simp only [Prod.mk.injEq] at heq
            omega
          · exact hall t1 hmem
        · rcases hor with rfl | hmem
          · exact Or.inr (by simp)
          · exact Or.inr (by simp [hmem])
      · rw [if_neg hgt]
        obtain ⟨m, hm, hle, hall, hor⟩ := ih tm t0 h
        refine ⟨m, hm, hle, fun t1 ht1 => ?_, ?_⟩
        · rcases List.mem_cons.1 ht1 with heq | hmem
          · simp only [Prod.mk.injEq] at heq
            omega
          · exact hall t1 hmem
        · rcases hor with rfl | hmem
          · exact Or.inl rfl
          · exact Or.inr (by simp [hmem])
    · have hy : y ≠ s := fun hys => hs hys.symm
      have hkeep : mapFind (if t > mapGet tm s then mapSet tm s t else tm) y = some t0 := by
        split_ifs
        · rw [mapFind_mapSet, if_neg hy]; exact h
        · exact h
      obtain ⟨m, hm, hle, hall, hor⟩ := ih _ t0 hkeep
      refine ⟨m, hm, hle, fun t1 ht1 => ?_, ?_⟩
      · rcases List.mem_cons.1 ht1 with heq | hmem
        · simp only [Prod.mk.injEq] at heq
          exact absurd heq.2.symm hs
        · exact hall t1 hmem
      · rcases hor with rfl | hmem
        · exact Or.inl rfl
        · exact Or.inr (by simp [hmem])

/-- What `copyMappings` does, in terms of the entries of `newMappings`, for every iteration
order. -/
theorem copyMappings_spec (ord : RangeOrder) (hord : ord.Valid) (n : Nat)
    (sm tm new : IntMap) :
    (∀ x, (∀ p ∈ new, p.1 ≠ x) → mapFind (copyMappings ord n sm tm new).1 x = mapFind sm x) ∧
    (∀ x, (∃ p ∈ new, p.1 = x) →
      ∃ v, (x, v) ∈ new ∧ mapFind (copyMappings ord n sm tm new).1 x = some v) ∧
    (∀ y, (∀ p ∈ new, p.2 ≠ y) → mapFind (copyMappings ord n sm tm new).2 y = mapFind tm y) ∧
    (∀ y, (∃ p ∈ new, p.2 = y) →
      ∃ t, (t, y) ∈ new ∧ mapFind (copyMappings ord n sm tm new).2 y = some t ∧
        ∀ t1, (t1, y) ∈ new → t1 ≤ t) := by
  have hm1 : ∀ p, p ∈ ord n new ↔ p ∈ new := valid_mem_iff hord n new
  have hm2 : ∀ p, p ∈ ord (n + 1) new ↔ p ∈ new := valid_mem_iff hord (n + 1) new
  refine ⟨fun x h => ?_, fun x h => ?_, fun y h => ?_, fun y h => ?_⟩
  · exact copyFirst_source_other _ x sm tm (fun p hp => h p ((hm1 p).1 hp))
  · obtain ⟨p, hp, hpx⟩ := h
    obtain ⟨v, hv, hf⟩ := copyFirst_source_key (ord n new) x sm tm ⟨p, (hm1 p).2 hp, hpx⟩
    exact ⟨v, (hm1 _).1 hv, hf⟩
  · simp only [copyMappings]
    rw [copySecond_other _ y _ (fun p hp => h p ((hm2 p).1 hp))]
    exact copyFirst_target_other _ y sm tm (fun p hp => h p ((hm1 p).1 hp))
  · obtain ⟨p, hp, hpy⟩ := h
    obtain ⟨t0, ht0, hf0⟩ :=
      copyFirst_target_value (ord n new) y sm tm ⟨p, (hm1 p).2 hp, hpy⟩
    obtain ⟨m, hm, hle, hall, hor⟩ := copySecond_greatest (ord (n + 1) new) y _ t0 hf0
    refine ⟨m, ?_, hm, fun t1 ht1 => hall t1 ((hm2 _).2 ht1)⟩
    rcases hor with rfl | hmem
    · exact (hm1 _).1 ht0
    · exact (hm2 _).1 hmem

theorem keysNodup_copyFirst (it : List (Int × Int)) :
    ∀ sm tm : IntMap, KeysNodup sm → KeysNodup tm →
      KeysNodup (copyFirst it sm tm).1 ∧ KeysNodup (copyFirst it sm tm).2 := by
  induction it with
  | nil => intro sm tm h1 h2; exact ⟨h1, h2⟩
  | cons p rest ih =>
    intro sm tm h1 h2
    obtain ⟨t, s⟩ := p
    exact ih _ _ (keysNodup_mapSet sm t s h1) (keysNodup_mapSet tm s t h2)

theorem keysNodup_copySecond (it : List (Int × Int)) :
    ∀ tm : IntMap, KeysNodup tm → KeysNodup (copySecond it tm) := by
  induction it with
  | nil => intro tm h; exact h
  | cons p rest ih =>
    intro tm h
    obtain ⟨t, s⟩ := p
    simp only [copySecond]
    split_ifs
    · exact ih _ (keysNodup_mapSet tm s t h)
    · exact ih _ h

theorem keysNodup_copyMappings (ord : RangeOrder) (n : Nat) (sm tm new : IntMap)
    (h1 : KeysNodup sm) (h2 : KeysNodup tm) :
    KeysNodup (copyMappings ord n sm tm new).1 ∧ KeysNodup (copyMappings ord n sm tm new).2 :=
  ⟨(keysNodup_copyFirst _ sm tm h1 h2).1,
    keysNodup_copySecond _ _ (keysNodup_copyFirst _ sm tm h1 h2).2⟩

theorem copyMappings_lookup (ord : RangeOrder) (hord : ord.Valid) (n : Nat)
    (sm tm new : IntMap) (hnew : KeysNodup new) :
    (∀ t s, mapFind new t = some s → mapFind (copyMappings ord n sm tm new).1 t = some s) ∧
    (∀ s, (∃ t, mapFind new t = some s) →
      ∃ t, mapFind (copyMappings ord n sm tm new).2 s = some t ∧ mapFind new t = some s ∧
        ∀ t1, mapFind new t1 = some s → t1 ≤ t) ∧
    (∀ t, mapFind new t = none → mapFind (copyMappings ord n sm tm new).1 t = mapFind sm t) ∧
    (∀ s, (∀ t, mapFind new t ≠ some s) →
      mapFind (copyMappings ord n sm tm new).2 s = mapFind tm s) := by
  obtain ⟨h1, h2, h3, h4⟩ := copyMappings_spec ord hord n sm tm new
  refine ⟨fun t s hts => ?_, fun s hs => ?_, fun t ht => ?_, fun s hs => ?_⟩
  · obtain ⟨v, hv, hf⟩ := h2 t ⟨(t, s), mem_of_mapFind new t s hts, rfl⟩
    rw [mapFind_of_mem new t v hnew hv] at hts
    rw [hf, hts]
  · obtain ⟨t0, ht0⟩ := hs
    obtain ⟨t, ht, hf, hall⟩ := h4 s ⟨(t0, s), mem_of_mapFind new t0 s ht0, rfl⟩
    exact ⟨t, hf, mapFind_of_mem new t s hnew ht,
      fun t1 ht1 => hall t1 (mem_of_mapFind new t1 s ht1)⟩
  · apply h1
    rintro ⟨a, b⟩ hp hx
    simp only at hx
    subst hx
    rw [mapFind_of_mem new a b hnew hp] at ht
    simp at ht
  · apply h3
    rintro ⟨a, b⟩ hp hy
    simp only at hy
    subst hy
    exact hs a (mapFind_of_mem new a b hnew hp)

/-! ## The claim about `copyMappings` -/

/-- Claim C17: for all maps and every iteration order, after `copyMappings` the source map has
`sourceLineMap[t] = newMappings[t]` for every key `t` of `newMappings`; for every value `s` of
`newMappings`, `targetLineMap[s]` is the greatest `t` with `newMappings[t] = s`; every other
key of either map is unchanged; and any other iteration order gives the same two maps. -/
theorem copyMappings_result (ord : RangeOrder) (hord : ord.Valid) (n : Nat)
    (sm tm new : IntMap) (hnew : KeysNodup new) :
    (∀ t s, mapFind new t = some s → mapFind (copyMappings ord n sm tm new).1 t = some s) ∧
    (∀ s, (∃ t, mapFind new t = some s) →
      ∃ t, mapFind (copyMappings ord n sm tm new).2 s = some t ∧ mapFind new t = some s ∧
        ∀ t1, mapFind new t1 = some s → t1 ≤ t) ∧
    (∀ t, mapFind new t = none → mapFind (copyMappings ord n sm tm new).1 t = mapFind sm t) ∧
    (∀ s, (∀ t, mapFind new t ≠ some s) →
      mapFind (copyMappings ord n sm tm new).2 s = mapFind tm s) ∧
    (∀ ord2 : RangeOrder, ord2.Valid → ∀ (n2 : Nat) (x : Int),
      mapFind (copyMappings ord2 n2 sm tm new).1 x = mapFind (copyMappings ord n sm tm new).1 x ∧
      mapFind (copyMappings ord2 n2 sm tm new).2 x
        = mapFind (copyMappings ord n sm tm new).2 x) := by
  obtain ⟨h1, h2, h3, h4⟩ := copyMappings_lookup ord hord n sm tm new hnew
  refine ⟨h1, h2, h3, h4, fun ord2 hord2 n2 x => ?_⟩
  obtain ⟨g1, g2, g3, g4⟩ := copyMappings_lookup ord2 hord2 n2 sm tm new hnew
  constructor
  · cases hx : mapFind new x with
    | none => rw [h3 x hx, g3 x hx]
    | some v => rw [h1 x v hx, g1 x v hx]
  · by_cases hx : ∃ t, mapFind new t = some x
    · obtain ⟨ta, hfa, hna, halla⟩ := h2 x hx
      obtain ⟨tb, hfb, hnb, hallb⟩ := g2 x hx
      have hab : ta = tb := le_antisymm (hallb ta hna) (halla tb hnb)
      rw [hfa, hfb, hab]
    · have hx1 : ∀ t, mapFind new t ≠ some x := fun t ht => hx ⟨t, ht⟩
      rw [h4 x hx1, g4 x hx1]

/-- Claim C17 on maps in which two new target lines, 1 and 3, claim the source line 5: the
target map keeps 3, with the entries visited in list order or backwards. -/
theorem copyMappings_result_witness :
    copyMappings listOrder 0 [(1, 0), (9, 9)] [(0, 1), (5, 7)] [(1, 5), (3, 5), (2, 7)]
      = ([(2, 7), (3, 5), (1, 5), (9, 9)], [(7, 2), (5, 3), (0, 1)]) ∧
    copyMappings reverseOrder 0 [(1, 0), (9, 9)] [(0, 1), (5, 7)] [(1, 5), (3, 5), (2, 7)]
      = ([(1, 5), (3, 5), (2, 7), (9, 9)], [(5, 3), (7, 2), (0, 1)]) ∧
    ((∀ t s, mapFind [(1, 5), (3, 5), (2, 7)] t = some s →
        mapFind (copyMappings listOrder 0 [(1, 0), (9, 9)] [(0, 1), (5, 7)]
          [(1, 5), (3, 5), (2, 7)]).1 t = some s) ∧
      (∀ s, (∃ t, mapFind [(1, 5), (3, 5), (2, 7)] t = some s) →
        ∃ t, mapFind (copyMappings listOrder 0 [(1, 0), (9, 9)] [(0, 1), (5, 7)]
            [(1, 5), (3, 5), (2, 7)]).2 s = some t ∧
          mapFind [(1, 5), (3, 5), (2, 7)] t = some s ∧
          ∀ t1, mapFind [(1, 5), (3, 5), (2, 7)] t1 = some s → t1 ≤ t) ∧
      (∀ t, mapFind [(1, 5), (3, 5), (2, 7)] t = none →
        mapFind (copyMappings listOrder 0 [(1, 0), (9, 9)] [(0, 1), (5, 7)]
          [(1, 5), (3, 5), (2, 7)]).1 t = mapFind [(1, 0), (9, 9)] t) ∧
      (∀ s, (∀ t, mapFind [(1, 5), (3, 5), (2, 7)] t ≠ some s) →
        mapFind (copyMappings listOrder 0 [(1, 0), (9, 9)] [(0, 1), (5, 7)]
          [(1, 5), (3, 5), (2, 7)]).2 s = mapFind [(0, 1), (5, 7)] s) ∧
      (∀ ord2 : RangeOrder, ord2.Valid → ∀ (n2 : Nat) (x : Int),
        mapFind (copyMappings ord2 n2 [(1, 0), (9, 9)] [(0, 1), (5, 7)]
            [(1, 5), (3, 5), (2, 7)]).1 x
          = mapFind (copyMappings listOrder 0 [(1, 0), (9, 9)] [(0, 1), (5, 7)]
            [(1, 5), (3, 5), (2, 7)]).1 x ∧
        mapFind (copyMappings ord2 n2 [(1, 0), (9, 9)] [(0, 1), (5, 7)]
            [(1, 5), (3, 5), (2, 7)]).2 x
          = mapFind (copyMappings listOrder 0 [(1, 0), (9, 9)] [(0, 1), (5, 7)]
            [(1, 5), (3, 5), (2, 7)]).2 x)) :=
  ⟨by decide, by decide,
    copyMappings_result listOrder listOrder_valid 0 [(1, 0), (9, 9)] [(0, 1), (5, 7)]
      [(1, 5), (3, 5), (2, 7)] (by unfold KeysNodup; decide)⟩

/-! ## The insertion part of `updateSourceMaps` -/

theorem shiftDownLoop_mem (k L T : Int) (it : List (Int × Int)) :
    ∀ (new0 : IntMap),
      (∀ q ∈ it, (T < q.1 → wrapInt (q.1 + k) = q.1 + k) ∧
        (L < q.2 → wrapInt (q.2 + k) = q.2 + k)) →
      ∀ p : Int × Int, p ∈ shiftDownLoop k L T it new0 →
        p ∈ new0 ∨ ((p.1 ≤ T ∨ T + k < p.1) ∧ (p.2 ≤ L ∨ L + k < p.2)) := by
  induction it with
  | nil => intro new0 _ p h; exact Or.inl h
  | cons q rest ih =>
    intro new0 hfit p h
    obtain ⟨t, s⟩ := q
    have hq := hfit (t, s) (by simp)
    simp only at hq
    simp only [shiftDownLoop] at h
    rcases ih _ (fun x hx => hfit x (by simp [hx])) p h with hmem | hok
    · split_ifs at hmem with h1 h2 h3
      · rw [hq.1 h1.1, hq.2 h1.2] at hmem
        rcases (mem_mapSet_iff _ _ _ _).1 hmem with rfl | ⟨hm, _⟩
        · right; simp only; omega
        · exact Or.inl hm
      · rw [hq.2 h2] at hmem
        rcases (mem_mapSet_iff _ _ _ _).1 hmem with rfl | ⟨hm, _⟩
        · right; simp only; omega
        · exact Or.inl hm
      · rw [hq.1 h3] at hmem
        rcases (mem_mapSet_iff _ _ _ _).1 hmem with rfl | ⟨hm, _⟩
        · right; simp only; omega
        · exact Or.inl hm
      · exact Or.inl hmem
    · exact Or.inr hok

theorem addLines_lookup (T L : Int) (rounds : Nat) :
    ∀ (i : Int) (sm tm : IntMap),
      minInt ≤ T + i → T + i + (rounds : Nat) ≤ maxInt + 1 →
      minInt ≤ L + i → L + i + (rounds : Nat) ≤ maxInt + 1 →
      (∀ x, mapFind (addLines T L rounds i sm tm).1 x =
        if T + i ≤ x ∧ x < T + i + (rounds : Nat) then some (x - T + L) else mapFind sm x) ∧
      (∀ y, mapFind (addLines T L rounds i sm tm).2 y =
        if L + i ≤ y ∧ y < L + i + (rounds : Nat) then some (y - L + T) else mapFind tm y) := by
  induction rounds with
  | zero =>
    intro i sm tm _ _ _ _
    refine ⟨fun x => ?_, fun y => ?_⟩
    · rw [if_neg (by push_cast; omega)]; rfl
    · rw [if_neg (by push_cast; omega)]; rfl
  | succ rounds ih =>
    intro i sm tm hT1 hT2 hL1 hL2
    push_cast at hT2 hL2
    have hwT : wrapInt (T + i) = T + i := wrapInt_eq _ hT1 (by omega)
    have hwL : wrapInt (L + i) = L + i := wrapInt_eq _ hL1 (by omega)
    obtain ⟨h1, h2⟩ := ih (i + 1) (mapSet sm (T + i) (L + i)) (mapSet tm (L + i) (T + i))
      (by omega) (by omega) (by omega) (by omega)
    refine ⟨fun x => ?_, fun y => ?_⟩
    · simp only [addLines, hwT, hwL]
      rw [h1 x, mapFind_mapSet]
      push_cast
      split_ifs <;> first | rfl | omega | (congr 1; omega)
    · simp only [addLines, hwT, hwL]
      rw [h2 y, mapFind_mapSet]
      push_cast
      split_ifs <;> first | rfl | omega | (congr 1; omega)

theorem keysNodup_addLines (T L : Int) (rounds : Nat) :
    ∀ (i : Int) (sm tm : IntMap), KeysNodup sm → KeysNodup tm →
      KeysNodup (addLines T L rounds i sm tm).1 ∧ KeysNodup (addLines T L rounds i sm tm).2 := by
  induction rounds with
  | zero => intro i sm tm h1 h2; exact ⟨h1, h2⟩
  | succ rounds ih =>
    intro i sm tm h1 h2
    exact ih _ _ _ (keysNodup_mapSet _ _ _ h1) (keysNodup_mapSet _ _ _ h2)

theorem insertLines_added (ord : RangeOrder) (hord : ord.Valid) (n : Nat) (sm tm : IntMap)
    (L : Int) (k : Nat)
    (hT : IsInt (mapGet tm L)) (hL : IsInt L)
    (hTk : mapGet tm L + (k : Nat) ≤ maxInt) (hLk : L + (k : Nat) ≤ maxInt)
    (hsm : IntEntries sm)
    (hfit : ∀ p ∈ sm, (mapGet tm L < p.1 → p.1 + (k : Nat) ≤ maxInt) ∧
      (L < p.2 → p.2 + (k : Nat) ≤ maxInt))
    (i : Int) (h1 : 1 ≤ i) (hk : i ≤ (k : Nat)) :
    mapFind (insertLines ord n sm tm L k).1 (mapGet tm L + i) = some (L + i) ∧
    mapFind (insertLines ord n sm tm L k).2 (L + i) = some (mapGet tm L + i) := by
  have hM := maxInt_eq
  have hm := minInt_eq
  have hnew : ∀ p ∈ shiftDownLoop (k : Nat) L (mapGet tm L) (ord n sm) [],
      (p.1 ≤ mapGet tm L ∨ mapGet tm L + (k : Nat) < p.1) ∧ (p.2 ≤ L ∨ L + (k : Nat) < p.2) := by
    intro p hp
    rcases shiftDownLoop_mem _ _ _ _ _ (fun q hq => by
        have hq1 : q ∈ sm := (valid_mem_iff hord n sm q).1 hq
        have hr := hsm q hq1
        have hf := hfit q hq1
        unfold IsInt at hr
        exact ⟨fun h => wrapInt_eq _ (by omega) (hf.1 h),
          fun h => wrapInt_eq _ (by omega) (hf.2 h)⟩) p hp with h | h
    · simp at h
    · exact h
  obtain ⟨c1, -, c3, -⟩ := copyMappings_spec ord hord (n + 1)
    (addLines (mapGet tm L) L k 1 sm tm).1 (addLines (mapGet tm L) L k 1 sm tm).2
    (shiftDownLoop (k : Nat) L (mapGet tm L) (ord n sm) [])
  unfold IsInt at hT hL
  obtain ⟨a1, a2⟩ := addLines_lookup (mapGet tm L) L k 1 sm tm
    (by omega) (by omega) (by omega) (by omega)
  constructor
  · simp only [insertLines]
    rw [c1 _ (fun p hp hx => by have := (hnew p hp).1; omega), a1, if_pos (by omega)]
    congr 1; omega
  · simp only [insertLines]
    rw [c3 _ (fun p hp hx => by have := (hnew p hp).2; omega), a2, if_pos (by omega)]
    congr 1; omega

theorem updateSourceMaps_insert_only (ord : RangeOrder) (sm tm : IntMap) (L : Int)
    (insertText : GoString) (hk : 0 < insertText.count NL)
    (hkmax : ((insertText.count NL : Nat) : Int) < maxInt) :
    updateSourceMaps ord sm tm 0 L insertText
      = some (insertLines ord 0 sm tm L (insertText.count NL)) := by
  have hM := maxInt_eq
  have hguard : ¬ (maxInt ≤ (0 : Int) ∨ maxInt ≤ ((insertText.count NL : Nat) : Int)) := by
    omega
  simp only [updateSourceMaps, if_neg hguard, if_pos hk, Int.toNat_zero, Nat.mul_zero,
    deleteLines]

/-- Claim C18 as stated fails on the code: on the maps that `createSourceMaps` builds for the
directive `#line 9223372036854775807` followed by three plain lines, inserting one line after
source line `2^63 - 1` makes `insertLine + 1` wrap around to `-2^63`, the source line of the
sentinel; the shifted sentinel, merged afterwards, overwrites the added pair, so that
`targetLineMap[insertLine + 1]` is 5 and not `T + 1 = 3`. -/
theorem updateSourceMaps_added_pair_overwritten :
    createSourceMaps (scanLines (ofAscii "#line 9223372036854775807\na\nb\nc\n"))
      = some ([(4, -9223372036854775808), (2, 9223372036854775807), (1, 9223372036854775806)],
              [(-9223372036854775808, 4), (9223372036854775807, 2),
                (9223372036854775806, 1)]) ∧
    mapGet [(-9223372036854775808, 4), (9223372036854775807, 2), (9223372036854775806, 1)]
      9223372036854775807 = 2 ∧
    wrapInt (9223372036854775807 + 1) = -9223372036854775808 ∧
    (∀ ord ∈ [listOrder, reverseOrder],
      updateSourceMaps ord
          [(4, -9223372036854775808), (2, 9223372036854775807), (1, 9223372036854775806)]
          [(-9223372036854775808, 4), (9223372036854775807, 2), (9223372036854775806, 1)]
          0 9223372036854775807 (ofAscii "x\n")
        = some ([(5, -9223372036854775808), (3, -9223372036854775808),
                  (4, -9223372036854775808), (2, 9223372036854775807),
                  (1, 9223372036854775806)],
                [(-9223372036854775808, 5), (9223372036854775807, 2),
                  (9223372036854775806, 1)])) ∧
    mapGet [(-9223372036854775808, 5), (9223372036854775807, 2), (9223372036854775806, 1)]
      (-9223372036854775808) = 5 ∧
    mapGet [(-9223372036854775808, 5), (9223372036854775807, 2), (9223372036854775806, 1)]
      (9223372036854775807 + 1) = 0 := by
  decide

/-- Claim C18 as amended: for all maps of Go `int` values, every iteration order, every
`insertLine` and every `insertText` with `k` line breaks, `1 ≤ k < 2^63 - 1`, such that no
sum the call forms exceeds `2^63 - 1` (with `T` the value of `targetLineMap[insertLine]` before
the call, 0 if absent: `T + k`, `insertLine + k`, `t + k` for every entry `(t, s)` of
`sourceLineMap` with `t > T`, and `s + k` for every entry with `s > insertLine`),
`updateSourceMaps` with `deletedLines = 0` returns, and afterwards the `k` new pairs are present
in both maps: `sourceLineMap[T + i] = insertLine + i` and `targetLineMap[insertLine + i] = T + i`
for every `i` in `1 .. k`. -/
theorem updateSourceMaps_added_pairs (ord : RangeOrder) (hord : ord.Valid) (sm tm : IntMap)
    (insertLine : Int) (insertText : GoString) (hk : 1 ≤ insertText.count NL)
    (hkmax : ((insertText.count NL : Nat) : Int) < maxInt)
    (hsm : IntEntries sm) (hT : IsInt (mapGet tm insertLine)) (hL : IsInt insertLine)
    (hTk : mapGet tm insertLine + ((insertText.count NL : Nat) : Int) ≤ maxInt)
    (hLk : insertLine + ((insertText.count NL : Nat) : Int) ≤ maxInt)
    (hfit : ∀ p ∈ sm,
      (mapGet tm insertLine < p.1 → p.1 + ((insertText.count NL : Nat) : Int) ≤ maxInt) ∧
      (insertLine < p.2 → p.2 + ((insertText.count NL : Nat) : Int) ≤ maxInt)) :
    ∃ sm1 tm1, updateSourceMaps ord sm tm 0 insertLine insertText = some (sm1, tm1) ∧
      ∀ i : Int, 1 ≤ i → i ≤ ((insertText.count NL : Nat) : Int) →
        mapFind sm1 (mapGet tm insertLine + i) = some (insertLine + i) ∧
        mapGet sm1 (mapGet tm insertLine + i) = insertLine + i ∧
        mapFind tm1 (insertLine + i) = some (mapGet tm insertLine + i) ∧
        mapGet tm1 (insertLine + i) = mapGet tm insertLine + i := by
  refine ⟨(insertLines ord 0 sm tm insertLine (insertText.count NL)).1,
    (insertLines ord 0 sm tm insertLine (insertText.count NL)).2,
    updateSourceMaps_insert_only ord sm tm insertLine insertText (by omega) hkmax,
    fun i h1 hi => ?_⟩
  obtain ⟨ha, hb⟩ :=
    insertLines_added ord hord 0 sm tm insertLine _ hT hL hTk hLk hsm hfit i h1 hi
  refine ⟨ha, ?_, hb, ?_⟩
  · unfold mapGet at ha ⊢
    rw [ha]; rfl
  · rw [mapGet, hb]; rfl

/-- Claim C18 as amended on the maps of the document `#line 1`, `a`, `b`, `c`, inserting two
lines after source line 1, with the entries visited backwards. -/
theorem updateSourceMaps_added_pairs_witness :
    updateSourceMaps reverseOrder [(4, 3), (3, 2), (2, 1), (1, 0)]
        [(3, 4), (2, 3), (1, 2), (0, 1)] 0 1 (ofAscii "x\ny\n")
      = some ([(6, 5), (5, 4), (4, 3), (3, 2), (2, 1), (1, 0)],
         [(5, 6), (4, 5), (3, 4), (2, 3), (1, 2), (0, 1)]) ∧
    ∃ sm1 tm1, updateSourceMaps reverseOrder [(4, 3), (3, 2), (2, 1), (1, 0)]
        [(3, 4), (2, 3), (1, 2), (0, 1)] 0 1 (ofAscii "x\ny\n") = some (sm1, tm1) ∧
      ∀ i : Int, 1 ≤ i → i ≤ (((ofAscii "x\ny\n").count NL : Nat) : Int) →
        mapFind sm1 (mapGet [(3, 4), (2, 3), (1, 2), (0, 1)] 1 + i) = some (1 + i) ∧
        mapGet sm1 (mapGet [(3, 4), (2, 3), (1, 2), (0, 1)] 1 + i) = 1 + i ∧
        mapFind tm1 (1 + i) = some (mapGet [(3, 4), (2, 3), (1, 2), (0, 1)] 1 + i) ∧
        mapGet tm1 (1 + i) = mapGet [(3, 4), (2, 3), (1, 2), (0, 1)] 1 + i :=
  ⟨by decide,
    updateSourceMaps_added_pairs reverseOrder reverseOrder_valid [(4, 3), (3, 2), (2, 1), (1, 0)]
      [(3, 4), (2, 3), (1, 2), (0, 1)] 1 (ofAscii "x\ny\n") (by decide) (by decide)
      (by unfold IntEntries IsInt; decide) (by unfold IsInt; decide) (by unfold IsInt; decide)
      (by decide) (by decide) (by decide)⟩

/-! ## The shifting loops on the maps of a single run -/

theorem shiftDownLoop_diag (k L T c : Int) (hT : T + c = L) (it : List (Int × Int)) :
    ∀ (new0 : IntMap), (∀ p ∈ it, p.2 = p.1 + c) →
      (∀ p ∈ it, wrapInt (p.1 + k) = p.1 + k ∧ wrapInt (p.2 + k) = p.2 + k) → ∀ x,
      mapFind (shiftDownLoop k L T it new0) x =
        if (x - k, x - k + c) ∈ it ∧ T < x - k then some (x + c) else mapFind new0 x := by
  induction it with
  | nil => intro new0 _ _ x; simp [shiftDownLoop]
  | cons q rest ih =>
    intro new0 hdiag hfit x
    obtain ⟨t, s⟩ := q
    have hs : s = t + c := hdiag (t, s) (by simp)
    subst hs
    have hw := hfit (t, t + c) (by simp)
    simp only at hw
    simp only [shiftDownLoop, hw.1, hw.2]
    rw [ih _ (fun p hp => hdiag p (by simp [hp])) (fun p hp => hfit p (by simp [hp]))]
    by_cases hrest : (x - k, x - k + c) ∈ rest ∧ T < x - k
    · rw [if_pos hrest, if_pos ⟨by simp [hrest.1], hrest.2⟩]
    · rw [if_neg hrest]
      by_cases ht : t > T
      · rw [if_pos ⟨ht, by omega⟩, mapFind_mapSet]
        by_cases hx : x = t + k
        · subst hx
          have hxt : t + k - k = t := by omega
          rw [if_pos rfl, if_pos ⟨by rw [hxt]; simp, by omega⟩]
          congr 1; omega
        · rw [if_neg hx, if_neg]
          rintro ⟨hmem, hlt⟩
          rcases List.mem_cons.1 hmem with heq | hmem
          · simp only [Prod.mk.injEq] at heq
            omega
          · exact hrest ⟨hmem, hlt⟩
      · rw [if_neg (fun h => ht h.1), if_neg (by omega), if_neg ht, if_neg]
        rintro ⟨hmem, hlt⟩
        rcases List.mem_cons.1 hmem with heq | hmem
        · simp only [Prod.mk.injEq] at heq
          omega
        · exact hrest ⟨hmem, hlt⟩

theorem shiftUpLoop_diag (sl T c : Int) (hT : T + c = sl) (it : List (Int × Int)) :
    ∀ (acc : ShiftUp), (∀ p ∈ it, p.2 = p.1 + c) →
      (∀ p ∈ it, wrapInt (p.1 - 1) = p.1 - 1 ∧ wrapInt (p.2 - 1) = p.2 - 1) → ∀ x,
      mapFind (shiftUpLoop sl T it acc).newMappings x =
        if (x + 1, x + 1 + c) ∈ it ∧ T < x + 1 then some (x + c)
        else mapFind acc.newMappings x := by
  induction it with
  | nil => intro acc _ _ x; simp [shiftUpLoop]
  | cons q rest ih =>
    intro acc hdiag hfit x
    obtain ⟨t, s⟩ := q
    have hs : s = t + c := hdiag (t, s) (by simp)
    subst hs
    have hw := hfit (t, t + c) (by simp)
    simp only at hw
    simp only [shiftUpLoop, hw.1, hw.2]
    rw [ih _ (fun p hp => hdiag p (by simp [hp])) (fun p hp => hfit p (by simp [hp]))]
    by_cases hrest : (x + 1, x + 1 + c) ∈ rest ∧ T < x + 1
    · rw [if_pos hrest, if_pos ⟨by simp [hrest.1], hrest.2⟩]
    · rw [if_neg hrest]
      by_cases ht : t > T
      · simp only [if_pos (show t > T ∧ t + c > sl from ⟨ht, by omega⟩)]
        rw [mapFind_mapSet]
        by_cases hx : x = t - 1
        · subst hx
          have hxt : t - 1 + 1 = t := by omega
          rw [if_pos rfl, if_pos ⟨by rw [hxt]; simp, by omega⟩]
          congr 1; omega
        · rw [if_neg hx, if_neg]
          rintro ⟨hmem, hlt⟩
          rcases List.mem_cons.1 hmem with heq | hmem
          · simp only [Prod.mk.injEq] at heq
            omega
          · exact hrest ⟨hmem, hlt⟩
      · simp only [if_neg (show ¬ (t > T ∧ t + c > sl) from fun h => ht h.1),
          if_neg (show ¬ t + c > sl by omega), if_neg ht]
        rw [if_neg]
        rintro ⟨hmem, hlt⟩
        rcases List.mem_cons.1 hmem with heq | hmem
        · simp only [Prod.mk.injEq] at heq
          omega
        · exact hrest ⟨hmem, hlt⟩

theorem shiftUpLoop_max (sl T : Int) (it : List (Int × Int)) :
    ∀ (acc : ShiftUp),
      (acc.maxTargetLine ≤ (shiftUpLoop sl T it acc).maxTargetLine ∧
        (∀ p ∈ it, p.1 ≤ (shiftUpLoop sl T it acc).maxTargetLine) ∧
        ((shiftUpLoop sl T it acc).maxTargetLine = acc.maxTargetLine ∨
          ∃ p ∈ it, p.1 = (shiftUpLoop sl T it acc).maxTargetLine)) ∧
      (acc.maxSourceLine ≤ (shiftUpLoop sl T it acc).maxSourceLine ∧
        (∀ p ∈ it, p.2 ≤ (shiftUpLoop sl T it acc).maxSourceLine) ∧
        ((shiftUpLoop sl T it acc).maxSourceLine = acc.maxSourceLine ∨
          ∃ p ∈ it, p.2 = (shiftUpLoop sl T it acc).maxSourceLine)) := by
  induction it with
  | nil => intro acc; simp [shiftUpLoop]
  | cons q rest ih =>
    intro acc
    obtain ⟨t, s⟩ := q
    simp only [shiftUpLoop]
    obtain ⟨acc1, hacc1⟩ : ∃ a : ShiftUp, a =
        { newMappings :=
            if t > T ∧ s > sl then mapSet acc.newMappings (wrapInt (t - 1)) (wrapInt (s - 1))
            else if s > sl then mapSet acc.newMappings t (wrapInt (s - 1))
            else if t > T then mapSet acc.newMappings (wrapInt (t - 1)) s
            else acc.newMappings
          maxSourceLine := if s > acc.maxSourceLine then s else acc.maxSourceLine
          maxTargetLine := if t > acc.maxTargetLine then t else acc.maxTargetLine } := ⟨_, rfl⟩
    rw [← hacc1]
    have hmt : acc1.maxTargetLine = if t > acc.maxTargetLine then t else acc.maxTargetLine := by
      rw [hacc1]
    have hms : acc1.maxSourceLine = if s > acc.maxSourceLine then s else acc.maxSourceLine := by
      rw [hacc1]
    obtain ⟨⟨a1, a2, a3⟩, ⟨b1, b2, b3⟩⟩ := ih acc1
    refine ⟨⟨?_, ?_, ?_⟩, ⟨?_, ?_, ?_⟩⟩
    · split_ifs at hmt <;> omega
    · intro p hp
      rcases List.mem_cons.1 hp with rfl | hp
      · simp only
        split_ifs at hmt <;> omega
      · exact a2 p hp
    · rcases a3 with h | ⟨p, hp, hpe⟩
      · by_cases hgt : t > acc.maxTargetLine
        · rw [if_pos hgt] at hmt
          exact Or.inr ⟨(t, s), by simp, by simp only; omega⟩
        · rw [if_neg hgt] at hmt
          exact Or.inl (by omega)
      · exact Or.inr ⟨p, by simp [hp], hpe⟩
    · split_ifs at hms <;> omega
    · intro p hp
      rcases List.mem_cons.1 hp with rfl | hp
      · simp only
        split_ifs at hms <;> omega
      · exact b2 p hp
    · rcases b3 with h | ⟨p, hp, hpe⟩
      · by_cases hgt : s > acc.maxSourceLine
        · rw [if_pos hgt] at hms
          exact Or.inr ⟨(t, s), by simp, by simp only; omega⟩
        · rw [if_neg hgt] at hms
          exact Or.inl (by omega)
      · exact Or.inr ⟨p, by simp [hp], hpe⟩

theorem keysNodup_shiftDownLoop (k L T : Int) (it : List (Int × Int)) :
    ∀ new0 : IntMap, KeysNodup new0 → KeysNodup (shiftDownLoop k L T it new0) := by
  induction it with
  | nil => intro new0 h; exact h
  | cons q rest ih =>
    intro new0 h
    obtain ⟨t, s⟩ := q
    simp only [shiftDownLoop]
    apply ih
    split_ifs
    · exact keysNodup_mapSet _ _ _ h
    · exact keysNodup_mapSet _ _ _ h
    · exact keysNodup_mapSet _ _ _ h
    · exact h

theorem keysNodup_shiftUpLoop (sl T : Int) (it : List (Int × Int)) :
    ∀ acc : ShiftUp, KeysNodup acc.newMappings →
      KeysNodup (shiftUpLoop sl T it acc).newMappings := by
  induction it with
  | nil => intro acc h; exact h
  | cons q rest ih =>
    intro acc h
    obtain ⟨t, s⟩ := q
    simp only [shiftUpLoop]
    apply ih
    simp only
    split_ifs
    · exact keysNodup_mapSet _ _ _ h
    · exact keysNodup_mapSet _ _ _ h
    · exact keysNodup_mapSet _ _ _ h
    · exact h

/-! ## Updates of the maps of a single run -/

theorem copyMappings_diag (ord : RangeOrder) (hord : ord.Valid) (n : Nat) (sm tm new : IntMap)
    (c : Int) (P : Int → Prop) [DecidablePred P] (hnewN : KeysNodup new)
    (hnew : ∀ x, mapFind new x = if P x then some (x + c) else none) :
    (∀ x, mapFind (copyMappings ord n sm tm new).1 x =
      if P x then some (x + c) else mapFind sm x) ∧
    (∀ y, mapFind (copyMappings ord n sm tm new).2 y =
      if P (y - c) then some (y - c) else mapFind tm y) := by
  have hmem : ∀ a b : Int, (a, b) ∈ new ↔ P a ∧ b = a + c := by
    intro a b
    rw [mem_iff_mapFind new hnewN, hnew]
    by_cases hP : P a
    · rw [if_pos hP]
      simp only [Option.some.injEq, hP, true_and]
      exact eq_comm
    · rw [if_neg hP]
      simp [hP]
  obtain ⟨c1, c2, c3, c4⟩ := copyMappings_spec ord hord n sm tm new
  refine ⟨fun x => ?_, fun y => ?_⟩
  · by_cases hP : P x
    · obtain ⟨v, hv, hf⟩ := c2 x ⟨(x, x + c), (hmem x (x + c)).2 ⟨hP, rfl⟩, rfl⟩
      rw [hf, if_pos hP, ((hmem x v).1 hv).2]
    · rw [if_neg hP]
      apply c1
      rintro ⟨a, b⟩ hp hx
      simp only at hx
      subst hx
      exact hP ((hmem a b).1 hp).1
  · by_cases hP : P (y - c)
    · obtain ⟨t, ht, hf, -⟩ :=
        c4 y ⟨(y - c, y), (hmem (y - c) y).2 ⟨hP, by omega⟩, rfl⟩
      have hty := ((hmem t y).1 ht).2
      rw [hf, if_pos hP]
      congr 1; omega
    · rw [if_neg hP]
      apply c3
      rintro ⟨a, b⟩ hp hy
      simp only at hy
      subst hy
      obtain ⟨hPa, hb⟩ := (hmem a b).1 hp
      apply hP
      have : b - c = a := by omega
      rw [this]; exact hPa

theorem isRun_mem_iff {c lo hi : Int} {sm tm : IntMap} (hrun : IsRun c lo hi sm tm)
    {ord : RangeOrder} (hord : ord.Valid) (n : Nat) (a b : Int) :
    (a, b) ∈ ord n sm ↔ (lo ≤ a ∧ a ≤ hi) ∧ b = a + c := by
  rw [valid_mem_iff hord, mem_iff_mapFind sm hrun.1, hrun.2.2.1]
  by_cases h : lo ≤ a ∧ a ≤ hi
  · rw [if_pos h]
    simp only [Option.some.injEq, h, and_self, true_and]
    exact eq_comm
  · rw [if_neg h]
    simp [h]

theorem insertLines_isRun (ord : RangeOrder) (hord : ord.Valid) (n : Nat) (c lo hi L : Int)
    (k : Nat) (sm tm : IntMap) (hrun : IsRun c lo hi sm tm)
    (hlo : 0 ≤ lo) (hloc : 0 ≤ lo + c)
    (hL : lo + c ≤ L) (hLhi : L ≤ hi + c)
    (hfitT : hi + (k : Nat) ≤ maxInt) (hfitS : hi + c + (k : Nat) ≤ maxInt) :
    IsRun c lo (hi + (k : Nat)) (insertLines ord n sm tm L k).1
      (insertLines ord n sm tm L k).2 := by
  have hM := maxInt_eq
  have hm := minInt_eq
  have hT : mapGet tm L = L - c := by
    simp only [mapGet, hrun.2.2.2 L, if_pos (show lo + c ≤ L ∧ L ≤ hi + c from ⟨hL, hLhi⟩),
      Option.getD_some]
  have hdiag : ∀ p ∈ ord n sm, p.2 = p.1 + c := by
    rintro ⟨a, b⟩ hp
    exact ((isRun_mem_iff hrun hord n a b).1 hp).2
  have hwrap : ∀ p ∈ ord n sm,
      wrapInt (p.1 + (k : Nat)) = p.1 + (k : Nat) ∧ wrapInt (p.2 + (k : Nat)) = p.2 + (k : Nat) := by
    rintro ⟨a, b⟩ hp
    obtain ⟨⟨h1, h2⟩, h3⟩ := (isRun_mem_iff hrun hord n a b).1 hp
    simp only
    exact ⟨wrapInt_eq _ (by omega) (by omega), wrapInt_eq _ (by omega) (by omega)⟩
  have hnew : ∀ x, mapFind (shiftDownLoop (k : Nat) L (L - c) (ord n sm) []) x =
      if L - c + (k : Nat) < x ∧ x ≤ hi + (k : Nat) then some (x + c) else none := by
    intro x
    rw [shiftDownLoop_diag (k : Nat) L (L - c) c (by omega) (ord n sm) [] hdiag hwrap x]
    have hmem := isRun_mem_iff hrun hord n (x - (k : Nat)) (x - (k : Nat) + c)
    by_cases hx : L - c + (k : Nat) < x ∧ x ≤ hi + (k : Nat)
    · rw [if_pos hx, if_pos ⟨hmem.2 ⟨by omega, rfl⟩, by omega⟩]
    · rw [if_neg hx, if_neg]
      · rfl
      · rintro ⟨hm1, hlt⟩
        have := (hmem.1 hm1).1
        omega
  obtain ⟨a1, a2⟩ := addLines_lookup (L - c) L k 1 sm tm
    (by omega) (by omega) (by omega) (by omega)
  obtain ⟨d1, d2⟩ := copyMappings_diag ord hord (n + 1)
    (addLines (L - c) L k 1 sm tm).1 (addLines (L - c) L k 1 sm tm).2
    (shiftDownLoop (k : Nat) L (L - c) (ord n sm) []) c
    (fun x => L - c + (k : Nat) < x ∧ x ≤ hi + (k : Nat))
    (keysNodup_shiftDownLoop _ _ _ _ _ keysNodup_nil) hnew
  have hadd := keysNodup_addLines (L - c) L k 1 sm tm hrun.1 hrun.2.1
  have hnd := keysNodup_copyMappings ord (n + 1) _ _
    (shiftDownLoop (k : Nat) L (L - c) (ord n sm) []) hadd.1 hadd.2
  simp only [insertLines, hT]
  refine ⟨hnd.1, hnd.2, fun x => ?_, fun y => ?_⟩
  · rw [d1 x, a1 x, hrun.2.2.1 x]
    split_ifs <;> first | rfl | omega | (congr 1; omega)
  · rw [d2 y, a2 y, hrun.2.2.2 y]
    split_ifs <;> first | rfl | omega | (congr 1; omega)

theorem deleteLine_isRun (ord : RangeOrder) (hord : ord.Valid) (n : Nat) (c lo hi L : Int)
    (sm tm : IntMap) (hrun : IsRun c lo hi sm tm) (hlo : 0 ≤ lo) (hloc : 0 ≤ lo + c)
    (hL : lo + c ≤ L) (hLhi : L + 1 ≤ hi + c)
    (hfitT : hi ≤ maxInt) (hfitS : hi + c ≤ maxInt) :
    IsRun c lo (hi - 1) (deleteLine ord n sm tm L).1 (deleteLine ord n sm tm L).2 := by
  have hM := maxInt_eq
  have hm := minInt_eq
  have hw : wrapInt (L + 1) = L + 1 := wrapInt_eq _ (by omega) (by omega)
  have hT : mapGet tm (L + 1) = L + 1 - c := by
    simp only [mapGet, hrun.2.2.2 (L + 1),
      if_pos (show lo + c ≤ L + 1 ∧ L + 1 ≤ hi + c from ⟨by omega, hLhi⟩), Option.getD_some]
  have hdiag : ∀ p ∈ ord n sm, p.2 = p.1 + c := by
    rintro ⟨a, b⟩ hp
    exact ((isRun_mem_iff hrun hord n a b).1 hp).2
  have hwrap : ∀ p ∈ ord n sm,
      wrapInt (p.1 - 1) = p.1 - 1 ∧ wrapInt (p.2 - 1) = p.2 - 1 := by
    rintro ⟨a, b⟩ hp
    obtain ⟨⟨h1, h2⟩, h3⟩ := (isRun_mem_iff hrun hord n a b).1 hp
    simp only
    exact ⟨wrapInt_eq _ (by omega) (by omega), wrapInt_eq _ (by omega) (by omega)⟩
  have hnew : ∀ x, mapFind
      (shiftUpLoop (L + 1) (L + 1 - c) (ord n sm) ⟨[], 0, 0⟩).newMappings x =
      if L + 1 - c ≤ x ∧ x ≤ hi - 1 then some (x + c) else none := by
    intro x
    rw [shiftUpLoop_diag (L + 1) (L + 1 - c) c (by omega) (ord n sm) ⟨[], 0, 0⟩ hdiag hwrap x]
    have hmem := isRun_mem_iff hrun hord n (x + 1) (x + 1 + c)
    by_cases hx : L + 1 - c ≤ x ∧ x ≤ hi - 1
    · rw [if_pos hx, if_pos ⟨hmem.2 ⟨by omega, rfl⟩, by omega⟩]
    · rw [if_neg hx, if_neg]
      · rfl
      · rintro ⟨hm1, hlt⟩
        have := (hmem.1 hm1).1
        omega
  obtain ⟨⟨t1, t2, t3⟩, ⟨s1, s2, s3⟩⟩ :=
    shiftUpLoop_max (L + 1) (L + 1 - c) (ord n sm) ⟨[], 0, 0⟩
  have hlast : (hi, hi + c) ∈ ord n sm :=
    (isRun_mem_iff hrun hord n hi (hi + c)).2 ⟨⟨by omega, le_refl _⟩, rfl⟩
  have hmaxT : (shiftUpLoop (L + 1) (L + 1 - c) (ord n sm) ⟨[], 0, 0⟩).maxTargetLine = hi := by
    have h1 := t2 _ hlast
    simp only at h1 t1
    rcases t3 with h | ⟨⟨a, b⟩, hp, hpe⟩
    · simp only at h; omega
    · have := ((isRun_mem_iff hrun hord n a b).1 hp).1
      simp only at hpe; omega
  have hmaxS : (shiftUpLoop (L + 1) (L + 1 - c) (ord n sm) ⟨[], 0, 0⟩).maxSourceLine
      = hi + c := by
    have h1 := s2 _ hlast
    simp only at h1 s1
    rcases s3 with h | ⟨⟨a, b⟩, hp, hpe⟩
    · simp only at h; omega
    · have := (isRun_mem_iff hrun hord n a b).1 hp
      simp only at hpe; omega
  obtain ⟨d1, d2⟩ := copyMappings_diag ord hord (n + 1) (mapDelete sm hi)
    (mapDelete tm (hi + c))
    (shiftUpLoop (L + 1) (L + 1 - c) (ord n sm) ⟨[], 0, 0⟩).newMappings c
    (fun x => L + 1 - c ≤ x ∧ x ≤ hi - 1)
    (keysNodup_shiftUpLoop _ _ _ _ keysNodup_nil) hnew
  have hnd := keysNodup_copyMappings ord (n + 1) _ _
    (shiftUpLoop (L + 1) (L + 1 - c) (ord n sm) ⟨[], 0, 0⟩).newMappings
    (keysNodup_mapDelete sm hi hrun.1) (keysNodup_mapDelete tm (hi + c) hrun.2.1)
  simp only [deleteLine, hw, hT, hmaxT, hmaxS]
  refine ⟨hnd.1, hnd.2, fun x => ?_, fun y => ?_⟩
  · rw [d1 x, mapFind_mapDelete, hrun.2.2.1 x]
    split_ifs <;> first | rfl | omega
  · rw [d2 y, mapFind_mapDelete, hrun.2.2.2 y]
    split_ifs <;> first | rfl | omega

theorem deleteLines_isRun (ord : RangeOrder) (hord : ord.Valid) (c lo L : Int)
    (hlo : 0 ≤ lo) (hloc : 0 ≤ lo + c) (hL : lo + c ≤ L) (rounds : Nat) :
    ∀ (n : Nat) (hi : Int) (sm tm : IntMap), IsRun c lo hi sm tm →
      L + (rounds : Nat) ≤ hi + c → hi ≤ maxInt → hi + c ≤ maxInt →
      IsRun c lo (hi - (rounds : Nat)) (deleteLines ord rounds n sm tm L).1
        (deleteLines ord rounds n sm tm L).2 := by
  induction rounds with
  | zero =>
    intro n hi sm tm hrun _ _ _
    simpa [deleteLines] using hrun
  | succ rounds ih =>
    intro n hi sm tm hrun hb hfitT hfitS
    have hstep := deleteLine_isRun ord hord n c lo hi L sm tm hrun hlo hloc hL
      (by push_cast at hb; omega) hfitT hfitS
    have := ih (n + 3) (hi - 1) _ _ hstep (by push_cast at hb ⊢; omega) (by omega) (by omega)
    simp only [deleteLines]
    have he : hi - ((rounds + 1 : Nat) : Int) = hi - 1 - (rounds : Nat) := by
      push_cast; omega
    rw [he]
    exact this

/-- An update inside the maps of a single run returns, and leaves the maps of a single run: the
run loses the deleted lines and gains one line per line break of the text. -/
theorem updateSourceMaps_isRun (ord : RangeOrder) (hord : ord.Valid) (c lo hi L d : Int)
    (insertText : GoString) (sm tm : IntMap) (hrun : IsRun c lo hi sm tm)
    (hlo : 1 ≤ lo) (hloc : 0 ≤ lo + c) (hd : 0 ≤ d) (hL : lo + c ≤ L)
    (hLd : L + d ≤ hi + c) (hfitT : hi ≤ maxInt) (hfitS : hi + c ≤ maxInt)
    (hfitT1 : hi - d + (insertText.count NL : Nat) ≤ maxInt)
    (hfitS1 : hi + c - d + (insertText.count NL : Nat) ≤ maxInt) :
    ∃ sm1 tm1, updateSourceMaps ord sm tm d L insertText = some (sm1, tm1) ∧
      IsRun c lo (hi - d + (insertText.count NL : Nat)) sm1 tm1 := by
  have hM := maxInt_eq
  have hm := minInt_eq
  have hdn : ((d.toNat : Nat) : Int) = d := Int.toNat_of_nonneg hd
  have hdel := deleteLines_isRun ord hord c lo L (by omega) hloc hL d.toNat 0 hi sm tm hrun
    (by rw [hdn]; exact hLd) hfitT hfitS
  rw [hdn] at hdel
  have hguard : ¬ (maxInt ≤ d ∨ maxInt ≤ ((insertText.count NL : Nat) : Int)) := by omega
  by_cases hk : insertText.count NL > 0
  · have heq : updateSourceMaps ord sm tm d L insertText
        = some (insertLines ord (3 * d.toNat) (deleteLines ord d.toNat 0 sm tm L).1
            (deleteLines ord d.toNat 0 sm tm L).2 L (insertText.count NL)) := by
      simp only [updateSourceMaps, if_neg hguard, if_pos hk]
    exact ⟨_, _, heq,
      insertLines_isRun ord hord _ c lo (hi - d) L _ _ _ hdel (by omega) hloc hL (by omega)
        hfitT1 (by omega)⟩
  · have heq : updateSourceMaps ord sm tm d L insertText
        = some (deleteLines ord d.toNat 0 sm tm L) := by
      simp only [updateSourceMaps, if_neg hguard, if_neg hk]
    have h0 : insertText.count NL = 0 := by omega
    refine ⟨_, _, heq, ?_⟩
    rw [h0]
    simpa using hdel

theorem isRun_unique {c lo hi : Int} {sm tm sm1 tm1 : IntMap} (h : IsRun c lo hi sm tm)
    (h1 : IsRun c lo hi sm1 tm1) :
    ∀ x, mapFind sm x = mapFind sm1 x ∧ mapFind tm x = mapFind tm1 x :=
  fun x => ⟨by rw [h.2.2.1, h1.2.2.1], by rw [h.2.2.2, h1.2.2.2]⟩

/-! ## The maps of a single-directive document -/

theorem keysNodup_scanLoop (lines : List GoString) :
    ∀ st st1 : ScanState, (∀ l ∈ lines, l ≠ ofAscii "#line") →
      scanLoop lines st = some st1 →
      KeysNodup st.sourceLineMap → KeysNodup st.targetLineMap →
      KeysNodup st1.sourceLineMap ∧ KeysNodup st1.targetLineMap := by
  induction lines with
  | nil =>
    intro st st1 _ h h1 h2
    simp only [scanLoop, Option.some.injEq] at h
    subst h
    exact ⟨h1, h2⟩
  | cons l rest ih =>
    intro st st1 hne h h1 h2
    obtain ⟨st2, hstep, -, -, hmaps⟩ := scanStep_spec st l (hne l (by simp))
    simp only [scanLoop, hstep] at h
    apply ih st2 st1 (fun x hx => hne x (by simp [hx])) h
    · rcases hmaps with ⟨_, _, hsm, _⟩ | ⟨_, hsm, _⟩
      · rw [hsm]; exact keysNodup_mapSet _ _ _ h1
      · rw [hsm]; exact h1
    · rcases hmaps with ⟨_, _, _, htm⟩ | ⟨_, _, htm⟩
      · rw [htm]; exact keysNodup_mapSet _ _ _ h2
      · rw [htm]; exact h2

theorem plain_ne_bare (l : GoString) (h : HasPrefix l (ofAscii "#line") = false) :
    l ≠ ofAscii "#line" := by
  rintro rfl
  revert h
  decide

theorem directive_ne_bare (k : Nat) : ofAscii "#line " ++ decimal k ≠ ofAscii "#line" := by
  intro h
  have hlen := congrArg List.length h
  have h1 : (ofAscii "#line ").length = 6 := by decide
  have h2 : (ofAscii "#line").length = 5 := by decide
  rw [List.length_append, h1, h2] at hlen
  omega

theorem createSourceMaps_isRun (k0 : Nat) (plains : List GoString)
    (hk : 1 ≤ k0) (hk64 : k0 < 2 ^ 63)
    (hplain : ∀ l ∈ plains, HasPrefix l (ofAscii "#line") = false)
    (hn : ((plains.length : Nat) : Int) + 1 ≤ maxInt)
    (hS : (k0 : Int) - 1 + ((plains.length : Nat) : Int) ≤ maxInt) :
    ∃ sm tm, createSourceMaps ((ofAscii "#line " ++ decimal k0) :: plains) = some (sm, tm) ∧
      IsRun ((k0 : Int) - 2) 1 ((plains.length : Nat) + 1) sm tm := by
  have hM := maxInt_eq
  have hm := minInt_eq
  have h1 : wrapInt ((0 : Int) + 1) = 1 := by decide
  obtain ⟨st1, hloop, hsl, htl, hsm, htm⟩ :=
    scanLoop_plain plains ⟨(k0 : Int) - 1, wrapInt (0 + 1), [], []⟩ hplain
      (show (0 : Int) ≤ (k0 : Int) - 1 by omega)
      (show (k0 : Int) - 1 ≤ maxInt by omega)
      (show (0 : Int) ≤ wrapInt (0 + 1) by rw [h1]; omega)
      (show wrapInt (0 + 1) ≤ maxInt by rw [h1]; omega)
      (show (k0 : Int) - 1 + (plains.length : Nat) ≤ maxInt + 1 by omega)
      (show wrapInt (0 + 1) + (plains.length : Nat) ≤ maxInt + 1 by rw [h1]; omega)
  simp only [h1] at hsl htl hsm htm
  rw [wrapInt_eq _ (by omega) (by omega)] at hsl htl
  have hfull : scanLoop ((ofAscii "#line " ++ decimal k0) :: plains) ⟨-1, 0, [], []⟩
      = some st1 := by
    simp only [scanLoop, scanStep_directive _ k0 hk hk64, hloop]
  have hne : ∀ l ∈ (ofAscii "#line " ++ decimal k0) :: plains, l ≠ ofAscii "#line" := by
    intro l hl
    rcases List.mem_cons.1 hl with rfl | hl
    · exact directive_ne_bare k0
    · exact plain_ne_bare l (hplain l hl)
  have hnd := keysNodup_scanLoop _ _ st1 hne hfull keysNodup_nil keysNodup_nil
  refine ⟨mapSet st1.sourceLineMap st1.targetLine st1.sourceLine,
    mapSet st1.targetLineMap st1.sourceLine st1.targetLine,
    by simp only [createSourceMaps, hfull], ?_⟩
  refine ⟨keysNodup_mapSet _ _ _ hnd.1, keysNodup_mapSet _ _ _ hnd.2, fun x => ?_, fun y => ?_⟩
  · rw [mapFind_mapSet, hsm, htl, hsl]
    have hnil : mapFind ([] : IntMap) x = none := rfl
    rw [hnil]
    split_ifs <;> first | rfl | omega | (congr 1; omega)
  · rw [mapFind_mapSet, htm, htl, hsl]
    have hnil : mapFind ([] : IntMap) y = none := rfl
    rw [hnil]
    split_ifs <;> first | rfl | omega | (congr 1; omega)

theorem applyEdits_isRun (ords : Nat → RangeOrder) (hords : ∀ i, (ords i).Valid)
    (c lo : Int) (hlo : 1 ≤ lo) (hloc : 0 ≤ lo + c) (edits : List Edit) :
    ∀ (i : Nat) (hi : Int) (maps : IntMap × IntMap), IsRun c lo hi maps.1 maps.2 →
      lo ≤ hi → hi ≤ maxInt → hi + c ≤ maxInt →
      EditsInside (lo + c) (hi + c) edits → EditsFit hi (hi + c) edits →
      ∃ sm1 tm1, applyEdits ords i edits maps = some (sm1, tm1) ∧
        IsRun c lo (linesAfter hi edits) sm1 tm1 ∧
        lo ≤ linesAfter hi edits ∧
        linesAfter (hi + c) edits = linesAfter hi edits + c := by
  induction edits with
  | nil => intro i hi maps hrun hle _ _ _ _; exact ⟨maps.1, maps.2, rfl, hrun, hle, rfl⟩
  | cons e rest ih =>
    intro i hi maps hrun hle hfitT hfitS hin hfit
    obtain ⟨hd, hL, hLd, hrest⟩ := hin
    obtain ⟨hf1, hf2, hfrest⟩ := hfit
    have hre : hi + c - e.deletedLines + ((e.insertText.count NL : Nat) : Int)
        = hi - e.deletedLines + ((e.insertText.count NL : Nat) : Int) + c := by omega
    obtain ⟨sm1, tm1, hupd, hstep⟩ := updateSourceMaps_isRun (ords i) (hords i) c lo hi
      e.insertLine e.deletedLines e.insertText maps.1 maps.2 hrun hlo hloc hd hL hLd hfitT hfitS
      hf1 hf2
    rw [hre] at hrest hfrest
    obtain ⟨sm2, tm2, happ, hrun2, hle2, hsum2⟩ :=
      ih (i + 1) (hi - e.deletedLines + ((e.insertText.count NL : Nat) : Int)) (sm1, tm1) hstep
        (by omega) hf1 (by omega) hrest hfrest
    refine ⟨sm2, tm2, ?_, ?_, ?_, ?_⟩
    · simp only [applyEdits, hupd]
      exact happ
    · simpa only [linesAfter] using hrun2
    · simpa only [linesAfter] using hle2
    · simp only [linesAfter]
      rw [hre]
      exact hsum2

theorem isRun_maxKey {c lo hi : Int} {sm tm : IntMap} (hrun : IsRun c lo hi sm tm)
    (hle : lo ≤ hi) :
    IsMaxKey sm hi ∧ IsMaxKey tm (hi + c) ∧ mapFind sm hi = some (hi + c) ∧
      mapFind tm (hi + c) = some hi := by
  have h1 : mapFind sm hi = some (hi + c) := by
    rw [hrun.2.2.1, if_pos ⟨hle, le_refl _⟩]
  have h2 : mapFind tm (hi + c) = some hi := by
    rw [hrun.2.2.2, if_pos ⟨by omega, le_refl _⟩]
    congr 1; omega
  refine ⟨⟨by rw [h1]; simp, fun x hx => ?_⟩, ⟨by rw [h2]; simp, fun y hy => ?_⟩, h1, h2⟩
  · rw [hrun.2.2.1] at hx
    by_contra hgt
    rw [if_neg (by omega)] at hx
    exact hx rfl
  · rw [hrun.2.2.2] at hy
    by_contra hgt
    rw [if_neg (by omega)] at hy
    exact hy rfl

/-- What holds of claim C15: on the maps of a single run (those of a document with one
directive followed by plain lines), inserting text at a line of the run and then deleting as
many lines there restores both maps, for every iteration order, as long as the line numbers
after the insertion fit an `int`. -/
theorem updateSourceMaps_insert_then_delete_run (ord1 ord2 : RangeOrder) (h1 : ord1.Valid)
    (h2 : ord2.Valid) (c lo hi L : Int) (insertText : GoString) (sm tm : IntMap)
    (hrun : IsRun c lo hi sm tm) (hlo : 1 ≤ lo) (hloc : 0 ≤ lo + c) (hL : lo + c ≤ L)
    (hLhi : L ≤ hi + c)
    (hfitT : hi + (insertText.count NL : Nat) ≤ maxInt)
    (hfitS : hi + c + (insertText.count NL : Nat) ≤ maxInt) :
    ∃ sm1 tm1 sm2 tm2, updateSourceMaps ord1 sm tm 0 L insertText = some (sm1, tm1) ∧
      updateSourceMaps ord2 sm1 tm1 (insertText.count NL : Nat) L [] = some (sm2, tm2) ∧
      ∀ x, mapFind sm2 x = mapFind sm x ∧ mapFind tm2 x = mapFind tm x := by
  obtain ⟨sm1, tm1, hins, hrun1⟩ := updateSourceMaps_isRun ord1 h1 c lo hi L 0 insertText sm tm
    hrun hlo hloc (le_refl _) hL (by omega) (by omega) (by omega) (by omega) (by omega)
  have hcount : ((([] : GoString).count NL : Nat) : Int) = 0 := by simp
  obtain ⟨sm2, tm2, hdel, hrun2⟩ := updateSourceMaps_isRun ord2 h2 c lo _ L
    ((insertText.count NL : Nat) : Int) [] sm1 tm1 hrun1 hlo hloc (by omega) hL (by omega)
    (by omega) (by omega) (by rw [hcount]; omega) (by rw [hcount]; omega)
  have he : hi - 0 + ((insertText.count NL : Nat) : Int) - ((insertText.count NL : Nat) : Int)
      + ((([] : GoString).count NL : Nat) : Int) = hi := by
    simp
  rw [he] at hrun2
  exact ⟨sm1, tm1, sm2, tm2, hins, hdel, isRun_unique hrun2 hrun⟩

/-! ## The claims about `updateSourceMaps` -/

/-- Claim C15 fails on the code: for the document `#line 1`, `a`, `b`, `#line 3`, `c`, `d`,
inserting one line after source line 0 and then deleting one line there does not restore the
maps, although the edit lies inside the first run: target line 3, the directive `#line 3`, is
absent from the source map before the edit and mapped to source line 1 after it, and source
line 1 is mapped to target line 3 instead of 2.  The result is the same with the entries
visited in list order and backwards. -/
theorem updateSourceMaps_insert_then_delete_not_restored :
    createSourceMaps
        [ofAscii "#line 1", ofAscii "a", ofAscii "b", ofAscii "#line 3", ofAscii "c", ofAscii "d"]
      = some ([(6, 4), (5, 3), (4, 2), (2, 1), (1, 0)],
              [(4, 6), (3, 5), (2, 4), (1, 2), (0, 1)]) ∧
    updateSourceMaps listOrder [(6, 4), (5, 3), (4, 2), (2, 1), (1, 0)]
        [(4, 6), (3, 5), (2, 4), (1, 2), (0, 1)] 0 0 (ofAscii "x\n")
      = some ([(7, 5), (6, 4), (5, 3), (3, 2), (2, 1), (4, 2), (1, 0)],
         [(5, 7), (4, 6), (3, 5), (2, 3), (1, 2), (0, 1)]) ∧
    updateSourceMaps listOrder [(7, 5), (6, 4), (5, 3), (3, 2), (2, 1), (4, 2), (1, 0)]
        [(5, 7), (4, 6), (3, 5), (2, 3), (1, 2), (0, 1)] 1 0 []
      = some ([(6, 4), (5, 3), (4, 2), (2, 1), (3, 1), (1, 0)],
         [(1, 3), (4, 6), (3, 5), (2, 4), (0, 1)]) ∧
    mapFind [(6, 4), (5, 3), (4, 2), (2, 1), (1, 0)] 3 = none ∧
    mapFind [(6, 4), (5, 3), (4, 2), (2, 1), (3, 1), (1, 0)] 3 = some 1 ∧
    mapFind [(4, 6), (3, 5), (2, 4), (1, 2), (0, 1)] 1 = some 2 ∧
    mapFind [(1, 3), (4, 6), (3, 5), (2, 4), (0, 1)] 1 = some 3 ∧
    (updateSourceMaps reverseOrder [(6, 4), (5, 3), (4, 2), (2, 1), (1, 0)]
        [(4, 6), (3, 5), (2, 4), (1, 2), (0, 1)] 0 0 (ofAscii "x\n")).bind
        (fun maps => updateSourceMaps reverseOrder maps.1 maps.2 1 0 [])
      = some ([(6, 4), (5, 3), (4, 2), (2, 1), (3, 1), (1, 0)],
         [(1, 3), (4, 6), (3, 5), (2, 4), (0, 1)]) := by
  refine ⟨by decide, by decide, by decide, by decide, by decide, by decide, by decide, ?_⟩
  decide

/-- Claim C16 as stated fails on the code, in three ways.  For the document `#line 5`, `a`,
`#line 1`, `b`, whose second directive rewinds, the greatest key of `targetLineMap` is the
source line 4 of the first run and not the source line of the sentinel pair, both before any
update and after inserting one line after source line 0.  For the document `#line 1`, `a`, `b`,
`#line 3`, `c`, `d`, in which nothing rewinds, replacing the three lines after source line 1
by two lines leaves 4 as the greatest key of `sourceLineMap`, while the target buffer then has
`6 - 3 + 2 = 5` lines.  For the document `#line 9223372036854775806`, `a`, inserting two lines
after its source line `2^63 - 3` makes the source line of the sentinel wrap around to `-2^63`,
so that the greatest key of `targetLineMap` is `2^63 - 1`, the source line of an inserted line,
and not the source line of the sentinel.  The last two results are the same with the entries
visited in list order and backwards. -/
theorem sentinel_not_maximal_after_rewind :
    createSourceMaps [ofAscii "#line 5", ofAscii "a", ofAscii "#line 1", ofAscii "b"]
      = some ([(4, 1), (3, 0), (1, 4)], [(1, 4), (0, 3), (4, 1)]) ∧
    ¬ (∃ S, mapFind [(4, 1), (3, 0), (1, 4)] 4 = some S ∧ IsMaxKey [(1, 4), (0, 3), (4, 1)] S) ∧
    updateSourceMaps listOrder [(4, 1), (3, 0), (1, 4)] [(1, 4), (0, 3), (4, 1)] 0 0
        (ofAscii "x\n")
      = some ([(5, 2), (1, 5), (4, 1), (3, 0)], [(2, 5), (5, 1), (1, 4), (0, 3), (4, 1)]) ∧
    ¬ (∃ S, mapFind [(5, 2), (1, 5), (4, 1), (3, 0)] 5 = some S ∧
        IsMaxKey [(2, 5), (5, 1), (1, 4), (0, 3), (4, 1)] S) ∧
    createSourceMaps (scanLines (ofAscii "#line 1\na\nb\n#line 3\nc\nd\n"))
      = some ([(6, 4), (5, 3), (4, 2), (2, 1), (1, 0)],
              [(4, 6), (3, 5), (2, 4), (1, 2), (0, 1)]) ∧
    EditsInside 0 4 [⟨3, 1, ofAscii "x\ny\n"⟩] ∧
    linesAfter 6 [⟨3, 1, ofAscii "x\ny\n"⟩] = 5 ∧
    (∀ ord ∈ [listOrder, reverseOrder],
      applyEdits (fun _ => ord) 0 [⟨3, 1, ofAscii "x\ny\n"⟩]
          ([(6, 4), (5, 3), (4, 2), (2, 1), (1, 0)], [(4, 6), (3, 5), (2, 4), (1, 2), (0, 1)])
        = some ([(4, 3), (3, 2), (2, 1), (1, 0)], [(3, 4), (2, 3), (1, 2), (0, 1)])) ∧
    IsMaxKey [(4, 3), (3, 2), (2, 1), (1, 0)] 4 ∧
    ¬ IsMaxKey [(4, 3), (3, 2), (2, 1), (1, 0)] 5 ∧
    createSourceMaps (scanLines (ofAscii "#line 9223372036854775806\na\n"))
      = some ([(2, 9223372036854775806), (1, 9223372036854775805)],
              [(9223372036854775806, 2), (9223372036854775805, 1)]) ∧
    EditsInside 9223372036854775805 9223372036854775806
      [⟨0, 9223372036854775805, ofAscii "x\ny\n"⟩] ∧
    (∀ ord ∈ [listOrder, reverseOrder],
      applyEdits (fun _ => ord) 0 [⟨0, 9223372036854775805, ofAscii "x\ny\n"⟩]
          ([(2, 9223372036854775806), (1, 9223372036854775805)],
            [(9223372036854775806, 2), (9223372036854775805, 1)])
        = some ([(4, -9223372036854775808), (3, 9223372036854775807),
                  (2, 9223372036854775806), (1, 9223372036854775805)],
                [(-9223372036854775808, 4), (9223372036854775807, 3),
                  (9223372036854775806, 2), (9223372036854775805, 1)])) ∧
    mapFind [(4, -9223372036854775808), (3, 9223372036854775807), (2, 9223372036854775806),
      (1, 9223372036854775805)] 4 = some (-9223372036854775808) ∧
    ¬ IsMaxKey [(-9223372036854775808, 4), (9223372036854775807, 3), (9223372036854775806, 2),
      (9223372036854775805, 1)] (-9223372036854775808) := by
  refine ⟨by decide, ?_, by decide, ?_, by decide, ?_, by decide, by decide, ?_, ?_,
    by decide, ?_, by decide, by decide, ?_⟩
  · rintro ⟨S, hS, hmax⟩
    have hS1 : S = 1 := by
      have h : mapFind [(4, 1), (3, 0), (1, 4)] 4 = some 1 := by decide
      rw [h] at hS
      simpa using hS.symm
    subst hS1
    have := hmax.2 4 (by decide)
    omega
  · rintro ⟨S, hS, hmax⟩
    have hS2 : S = 2 := by
      have h : mapFind [(5, 2), (1, 5), (4, 1), (3, 0)] 5 = some 2 := by decide
      rw [h] at hS
      simpa using hS.symm
    subst hS2
    have := hmax.2 5 (by decide)
    omega
  · exact ⟨by decide, by decide, by decide, trivial⟩
  · refine ⟨by decide, fun x hx => ?_⟩
    cases hfx : mapFind [(4, 3), (3, 2), (2, 1), (1, 0)] x with
    | none => exact absurd hfx hx
    | some v =>
      have hmem := mem_of_mapFind _ x v hfx
      simp only [List.mem_cons, Prod.mk.injEq, List.mem_singleton, List.not_mem_nil,
        or_false] at hmem
      omega
  · intro h
    exact h.1 (by decide)
  · exact ⟨by decide, by decide, by decide, trivial⟩
  · intro h
    have := h.2 9223372036854775807 (by decide)
    omega

/-- What fails of claim C16 besides, on a document with several directives none of which
rewinds: for `#line 1`, `a`, `b`, `c`, `#line 4`, `#line 4`, `d`, deleting the two lines after
source line 1 and then replacing the line after source line 0 by another, two edits that stay
before the last line, leave the sentinel pair `(5, 2)` in place, but the first deletion leaves
the stale entry `3 ↦ 2` behind, which the second edit turns into the entries `4 ↦ 3` and
`3 ↦ 4`: the greatest key of `targetLineMap` is then 3 and not the source line 2 of the
sentinel.  The result is the same with the entries visited in list order and backwards. -/
theorem sentinel_lost_to_stale_entry :
    createSourceMaps (scanLines (ofAscii "#line 1\na\nb\nc\n#line 4\n#line 4\nd\n"))
      = some ([(7, 4), (6, 3), (3, 2), (2, 1), (1, 0)],
              [(4, 7), (3, 6), (2, 3), (1, 2), (0, 1)]) ∧
    EditsInside 0 4 [⟨2, 1, []⟩, ⟨1, 0, ofAscii "x\n"⟩] ∧
    linesAfter 7 [⟨2, 1, []⟩, ⟨1, 0, ofAscii "x\n"⟩] = 5 ∧
    linesAfter 4 [⟨2, 1, []⟩, ⟨1, 0, ofAscii "x\n"⟩] = 2 ∧
    (∀ ord ∈ [listOrder, reverseOrder],
      applyEdits (fun _ => ord) 0 [⟨2, 1, []⟩] ([(7, 4), (6, 3), (3, 2), (2, 1), (1, 0)],
          [(4, 7), (3, 6), (2, 3), (1, 2), (0, 1)])
        = some ([(5, 2), (3, 2), (2, 1), (1, 0)], [(2, 5), (1, 2), (0, 1)]) ∧
      applyEdits (fun _ => ord) 0 [⟨2, 1, []⟩, ⟨1, 0, ofAscii "x\n"⟩]
          ([(7, 4), (6, 3), (3, 2), (2, 1), (1, 0)], [(4, 7), (3, 6), (2, 3), (1, 2), (0, 1)])
        = some ([(5, 2), (3, 2), (4, 3), (2, 1), (1, 0)], [(2, 5), (3, 4), (1, 2), (0, 1)])) ∧
    mapFind [(5, 2), (3, 2), (4, 3), (2, 1), (1, 0)] 5 = some 2 ∧
    mapFind [(2, 5), (3, 4), (1, 2), (0, 1)] 3 = some 4 ∧
    ¬ IsMaxKey [(2, 5), (3, 4), (1, 2), (0, 1)] 2 := by
  refine ⟨by decide, ⟨by decide, by decide, by decide, by decide, by decide, by decide, trivial⟩,
    by decide, by decide, by decide, by decide, by decide, fun h => ?_⟩
  have := h.2 3 (by decide)
  omega

/-- Claim C16 as amended: starting from the maps `createSourceMaps` returns for a document from
which it reads the directive `#line k0` followed by `N` plain lines, after any sequence of
`updateSourceMaps` calls each describing an edit inside the document, such that the line counts
of both buffers stay at most `2^63 - 1` before and after every edit, and for every iteration
order, every call returns, the greatest key of `sourceLineMap` is the current number of target
lines (`N + 1` minus the deleted plus the added lines), the greatest key of `targetLineMap` is
the current source line of the sentinel (`k0 - 1 + N` minus the deleted plus the added lines),
and the two maps pair these two keys with each other. -/
theorem applyEdits_sentinel (ords : Nat → RangeOrder) (hords : ∀ i, (ords i).Valid)
    (text : GoString) (k0 : Nat) (plains : List GoString) (edits : List Edit)
    (hscan : scanLines text = (ofAscii "#line " ++ decimal k0) :: plains)
    (hk : 1 ≤ k0) (hk64 : k0 < 2 ^ 63)
    (hplain : ∀ l ∈ plains, HasPrefix l (ofAscii "#line") = false)
    (hn : ((plains.length : Nat) : Int) + 1 ≤ maxInt)
    (hS : (k0 : Int) - 1 + ((plains.length : Nat) : Int) ≤ maxInt)
    (hin : EditsInside ((k0 : Int) - 1) ((k0 : Int) - 1 + (plains.length : Nat)) edits)
    (hfit : EditsFit ((plains.length : Nat) + 1) ((k0 : Int) - 1 + (plains.length : Nat))
      edits) :
    ∃ sm tm sm1 tm1, createSourceMaps (scanLines text) = some (sm, tm) ∧
      applyEdits ords 0 edits (sm, tm) = some (sm1, tm1) ∧
      IsMaxKey sm1 (linesAfter ((plains.length : Nat) + 1) edits) ∧
      IsMaxKey tm1 (linesAfter ((k0 : Int) - 1 + (plains.length : Nat)) edits) ∧
      mapFind sm1 (linesAfter ((plains.length : Nat) + 1) edits)
        = some (linesAfter ((k0 : Int) - 1 + (plains.length : Nat)) edits) ∧
      mapFind tm1 (linesAfter ((k0 : Int) - 1 + (plains.length : Nat)) edits)
        = some (linesAfter ((plains.length : Nat) + 1) edits) := by
  obtain ⟨sm, tm, hcreate, hrun⟩ := createSourceMaps_isRun k0 plains hk hk64 hplain hn hS
  have e1 : (1 : Int) + ((k0 : Int) - 2) = (k0 : Int) - 1 := by omega
  have e2 : ((plains.length : Nat) : Int) + 1 + ((k0 : Int) - 2)
      = (k0 : Int) - 1 + (plains.length : Nat) := by omega
  obtain ⟨sm1, tm1, happ, hfinal, hle, hsum⟩ := applyEdits_isRun ords hords ((k0 : Int) - 2) 1
    (le_refl _) (by omega) edits 0 ((plains.length : Nat) + 1) (sm, tm) hrun (by omega) hn
    (by rw [e2]; exact hS) (by rw [e1, e2]; exact hin) (by rw [e2]; exact hfit)
  rw [e2] at hsum
  obtain ⟨m1, m2, m3, m4⟩ := isRun_maxKey hfinal hle
  rw [← hsum] at m2 m3 m4
  exact ⟨sm, tm, sm1, tm1, by rw [hscan]; exact hcreate, happ, m1, m2, m3, m4⟩

/-- Claim C16 as amended, applied to the document `#line 1`, `a`, `b`, `c` and two edits: one
line deleted and two inserted after source line 0, then one line inserted after source
line 2. -/
theorem applyEdits_sentinel_witness :
    applyEdits (fun _ => listOrder) 0 [⟨1, 0, ofAscii "x\ny\n"⟩, ⟨0, 2, ofAscii "z\n"⟩]
        ([(4, 3), (3, 2), (2, 1), (1, 0)], [(3, 4), (2, 3), (1, 2), (0, 1)])
      = some ([(6, 5), (5, 4), (4, 3), (3, 2), (2, 1), (1, 0)],
         [(5, 6), (4, 5), (3, 4), (2, 3), (1, 2), (0, 1)]) ∧
    ∃ sm tm sm1 tm1, createSourceMaps (scanLines (ofAscii "#line 1\na\nb\nc\n")) = some (sm, tm) ∧
      applyEdits (fun _ => listOrder) 0
          [⟨1, 0, ofAscii "x\ny\n"⟩, ⟨0, 2, ofAscii "z\n"⟩] (sm, tm) = some (sm1, tm1) ∧
      IsMaxKey sm1
        (linesAfter (([ofAscii "a", ofAscii "b", ofAscii "c"].length : Nat) + 1)
          [⟨1, 0, ofAscii "x\ny\n"⟩, ⟨0, 2, ofAscii "z\n"⟩]) ∧
      IsMaxKey tm1
        (linesAfter (((1 : Nat) : Int) - 1
            + ([ofAscii "a", ofAscii "b", ofAscii "c"].length : Nat))
          [⟨1, 0, ofAscii "x\ny\n"⟩, ⟨0, 2, ofAscii "z\n"⟩]) ∧
      mapFind sm1
          (linesAfter (([ofAscii "a", ofAscii "b", ofAscii "c"].length : Nat) + 1)
            [⟨1, 0, ofAscii "x\ny\n"⟩, ⟨0, 2, ofAscii "z\n"⟩])
        = some (linesAfter (((1 : Nat) : Int) - 1
            + ([ofAscii "a", ofAscii "b", ofAscii "c"].length : Nat))
          [⟨1, 0, ofAscii "x\ny\n"⟩, ⟨0, 2, ofAscii "z\n"⟩]) ∧
      mapFind tm1
          (linesAfter (((1 : Nat) : Int) - 1
            + ([ofAscii "a", ofAscii "b", ofAscii "c"].length : Nat))
            [⟨1, 0, ofAscii "x\ny\n"⟩, ⟨0, 2, ofAscii "z\n"⟩])
        = some (linesAfter (([ofAscii "a", ofAscii "b", ofAscii "c"].length : Nat) + 1)
            [⟨1, 0, ofAscii "x\ny\n"⟩, ⟨0, 2, ofAscii "z\n"⟩]) :=
  ⟨by decide,
    applyEdits_sentinel (fun _ => listOrder) (fun _ => listOrder_valid)
      (ofAscii "#line 1\na\nb\nc\n") 1 [ofAscii "a", ofAscii "b", ofAscii "c"]
      [⟨1, 0, ofAscii "x\ny\n"⟩, ⟨0, 2, ofAscii "z\n"⟩] (by decide) (by decide) (by norm_num)
      (by decide) (by decide) (by decide)
      ⟨by decide, by decide, by decide, by decide, by decide, by decide, trivial⟩
      ⟨by decide, by decide, by decide, by decide, trivial⟩⟩

/-- Claim C19 as stated fails on the code: for `k0 = 2^63 - 1` and `N = 1`, inserting two lines
after source line `2^63 - 2` (nothing deleted) gives maps with the keys 1, 2, 3 and 4, the
source lines of the last two having wrapped around, whereas `createSourceMaps` on the edited
document, `#line 9223372036854775807` followed by three plain lines, gives the keys 1, 2 and 4
only: its running source line wrapped to `-2^63` after target line 2, so that target line 3 is
not mapped.  The result is the same with the entries visited in list order and backwards. -/
theorem updateSourceMaps_differs_from_reparse :
    createSourceMaps (scanLines (ofAscii "#line 9223372036854775807\na\n"))
      = some ([(2, 9223372036854775807), (1, 9223372036854775806)],
              [(9223372036854775807, 2), (9223372036854775806, 1)]) ∧
    (∀ ord ∈ [listOrder, reverseOrder],
      updateSourceMaps ord [(2, 9223372036854775807), (1, 9223372036854775806)]
          [(9223372036854775807, 2), (9223372036854775806, 1)] 0 9223372036854775806
          (ofAscii "x\ny\n")
        = some ([(4, -9223372036854775807), (3, -9223372036854775808),
                  (2, 9223372036854775807), (1, 9223372036854775806)],
                [(-9223372036854775807, 4), (-9223372036854775808, 3),
                  (9223372036854775807, 2), (9223372036854775806, 1)])) ∧
    createSourceMaps (scanLines (ofAscii "#line 9223372036854775807\na\nx\ny\n"))
      = some ([(4, -9223372036854775808), (2, 9223372036854775807), (1, 9223372036854775806)],
              [(-9223372036854775808, 4), (9223372036854775807, 2),
                (9223372036854775806, 1)]) ∧
    mapFind [(4, -9223372036854775807), (3, -9223372036854775808), (2, 9223372036854775807),
      (1, 9223372036854775806)] 3 = some (-9223372036854775808) ∧
    mapFind [(4, -9223372036854775808), (2, 9223372036854775807), (1, 9223372036854775806)] 3
      = none := by
  decide

/-- Claim C19 as amended: the incremental update agrees with a full re-parse on
single-directive documents whose line numbers fit an `int`.  For every `k0` with
`1 ≤ k0 < 2^63`, every document from which `createSourceMaps` reads `#line k0` and `N` plain
lines, every edit that removes the `d ≥ 0` lines following source line `L` and inserts text
with `k` line breaks, with `L` and `L + d` inside the document (`k0 - 1 ≤ L` and
`L + d ≤ k0 - 1 + N`), such that the numbers of target lines and the source lines of the
sentinel, before and after the edit, are at most `2^63 - 1` (`N + 1`, `k0 - 1 + N`,
`N - d + k + 1` and `k0 - 1 + N - d + k`), and every iteration order, `updateSourceMaps`
applied to the maps of the document returns the maps `createSourceMaps` returns for a document
from which it reads `#line k0` and `N - d + k` plain lines: both pairs of maps have the same
keys with the same values. -/
theorem updateSourceMaps_agrees_with_reparse (ord : RangeOrder) (hord : ord.Valid)
    (text textE : GoString) (k0 : Nat) (plains edited : List GoString) (d L : Int)
    (insertText : GoString)
    (hscan : scanLines text = (ofAscii "#line " ++ decimal k0) :: plains)
    (hscanE : scanLines textE = (ofAscii "#line " ++ decimal k0) :: edited)
    (hk : 1 ≤ k0) (hk64 : k0 < 2 ^ 63)
    (hplain : ∀ l ∈ plains, HasPrefix l (ofAscii "#line") = false)
    (hedited : ∀ l ∈ edited, HasPrefix l (ofAscii "#line") = false)
    (hd : 0 ≤ d) (hL : (k0 : Int) - 1 ≤ L)
    (hLd : L + d ≤ (k0 : Int) - 1 + (plains.length : Nat))
    (hlen : ((edited.length : Nat) : Int)
      = (plains.length : Nat) - d + (insertText.count NL : Nat))
    (hn : ((plains.length : Nat) : Int) + 1 ≤ maxInt)
    (hS : (k0 : Int) - 1 + ((plains.length : Nat) : Int) ≤ maxInt)
    (hnE : ((edited.length : Nat) : Int) + 1 ≤ maxInt)
    (hSE : (k0 : Int) - 1 + ((edited.length : Nat) : Int) ≤ maxInt) :
    ∃ sm tm smE tmE sm1 tm1,
      createSourceMaps (scanLines text) = some (sm, tm) ∧
      createSourceMaps (scanLines textE) = some (smE, tmE) ∧
      updateSourceMaps ord sm tm d L insertText = some (sm1, tm1) ∧
      KeysNodup sm1 ∧ KeysNodup tm1 ∧
      ∀ x, mapFind sm1 x = mapFind smE x ∧ mapFind tm1 x = mapFind tmE x := by
  obtain ⟨sm, tm, hcreate, hrun⟩ := createSourceMaps_isRun k0 plains hk hk64 hplain hn hS
  obtain ⟨smE, tmE, hcreateE, hrunE⟩ :=
    createSourceMaps_isRun k0 edited hk hk64 hedited hnE hSE
  obtain ⟨sm1, tm1, hupd, hrun1⟩ := updateSourceMaps_isRun ord hord ((k0 : Int) - 2) 1
    ((plains.length : Nat) + 1) L d insertText sm tm hrun (le_refl _) (by omega) hd (by omega)
    (by omega) hn (by omega) (by omega) (by omega)
  have he : ((plains.length : Nat) : Int) + 1 - d + ((insertText.count NL : Nat) : Int)
      = ((edited.length : Nat) : Int) + 1 := by omega
  rw [he] at hrun1
  exact ⟨sm, tm, smE, tmE, sm1, tm1, by rw [hscan]; exact hcreate,
    by rw [hscanE]; exact hcreateE, hupd, hrun1.1, hrun1.2.1, isRun_unique hrun1 hrunE⟩

/-- Claim C19 as amended on the document `#line 2`, `a`, `b`, `c`: deleting the line after
source line 1 and inserting two lines there, with the entries visited backwards, gives the maps
of the re-parsed document `#line 2`, `a`, `x`, `y`, `c`. -/
theorem updateSourceMaps_agrees_with_reparse_witness :
    createSourceMaps (scanLines (ofAscii "#line 2\na\nb\nc\n"))
      = some ([(4, 4), (3, 3), (2, 2), (1, 1)], [(4, 4), (3, 3), (2, 2), (1, 1)]) ∧
    updateSourceMaps reverseOrder [(4, 4), (3, 3), (2, 2), (1, 1)]
        [(4, 4), (3, 3), (2, 2), (1, 1)] 1 1 (ofAscii "x\ny\n")
      = some ([(5, 5), (4, 4), (3, 3), (2, 2), (1, 1)],
          [(5, 5), (4, 4), (3, 3), (2, 2), (1, 1)]) ∧
    createSourceMaps (scanLines (ofAscii "#line 2\na\nx\ny\nc\n"))
      = some ([(5, 5), (4, 4), (3, 3), (2, 2), (1, 1)],
              [(5, 5), (4, 4), (3, 3), (2, 2), (1, 1)]) ∧
    ∃ sm tm smE tmE sm1 tm1,
      createSourceMaps (scanLines (ofAscii "#line 2\na\nb\nc\n")) = some (sm, tm) ∧
      createSourceMaps (scanLines (ofAscii "#line 2\na\nx\ny\nc\n")) = some (smE, tmE) ∧
      updateSourceMaps reverseOrder sm tm 1 1 (ofAscii "x\ny\n") = some (sm1, tm1) ∧
      KeysNodup sm1 ∧ KeysNodup tm1 ∧
      ∀ x, mapFind sm1 x = mapFind smE x ∧ mapFind tm1 x = mapFind tmE x :=
  ⟨by decide, by decide, by decide,
    updateSourceMaps_agrees_with_reparse reverseOrder reverseOrder_valid
      (ofAscii "#line 2\na\nb\nc\n") (ofAscii "#line 2\na\nx\ny\nc\n") 2
      [ofAscii "a", ofAscii "b", ofAscii "c"]
      [ofAscii "a", ofAscii "x", ofAscii "y", ofAscii "c"] 1 1 (ofAscii "x\ny\n")
      (by decide) (by decide) (by decide) (by norm_num) (by decide) (by decide) (by decide)
      (by decide) (by decide) (by decide) (by decide) (by decide) (by decide) (by decide)⟩

end Sourcemap
